import Mathlib

/-!
# VCSC sparse matrices: transpose, construction, file round trip, append,
products with dense operands, byte widths, run encoding and decoding

A shallow embedding of the level-2 (`VCSC`) methods of
`IVSparse/src/VCSC/VCSC_Methods.hpp` and `IVSparse/src/VCSC/VCSC_Constructors.hpp`,
of `IVSparse_fair_spmv` and `IVSparse_fair_spmm` of
`Benchmarking/lib/simulatedBench_COO.cpp`, of the operators of
`IVSparse/src/Eigen_Extension/Matrix_Extension.hpp`, of `byte_width` and the
constructor of `SRLE/src/dbc_beta1.cpp`, of the iterator of
`CSF/src/iterator.hpp`, and of the raw CSC constructor and the level-3 file
constructor of `CSF/src/CSF_Constructors.hpp`.

Conventions of the embedding.

* Values (`T`) are integers, indices (`indexT`) are naturals.  A natural that
  is converted to `indexT` is kept as the bit pattern stored (`wrapIndex`); it
  is unchanged, for a signed and for an unsigned `indexT`, when it is below
  `2^(8 * sizeof(indexT) - 1)` (`indexLimit`).
* An associative container `std::map<T, std::vector<indexT>>` is the list of its
  `(key, indices)` entries in iteration order, that is ascending by key.
* The member `data` of the level-2 class is used by the sources as a
  `std::vector` of slice containers; `data.reserve(n)` creates no element.
* The template parameters and the results of `encodeValueType()` and
  `sizeof(indexT)` are gathered in `Params`.
* An access outside a container is undefined in the source; the operations
  return `none` there.
* Byte buffers are lists of naturals below 256, integers in them are
  little-endian.
-/

namespace Bytes

/-- The `w` low bytes of `n`, least significant first: what `memcpy(ptr, &n, w)`
writes on a little-endian machine. -/
def leBytes (w n : Nat) : List Nat :=
  (List.range w).map fun b => n / 256 ^ b % 256

/-- The unsigned integer stored in a little-endian byte sequence. -/
def fromLE : List Nat → Nat
  | [] => 0
  | b :: rest => b + 256 * fromLE rest

end Bytes

namespace DeBruinesComp

/-- Method `byte_width(size_t size)` of `SRLE/src/dbc_beta1.cpp`: the `switch`
over the case ranges `0 ... 255`, `256 ... 65535`, `65536 ... 16777215`,
`16777216 ... 4294967295` and `default`. -/
def byte_width (size : Nat) : Nat :=
  if size ≤ 255 then 1
  else if size ≤ 65535 then 2
  else if size ≤ 16777215 then 3
  else if size ≤ 4294967295 then 4
  else 8

/-- One entry of the coordinate input: `(vals[j], rows[j], cols[j])`.  The three
input arrays of length `val_num` are given as the list of their triples; values
and coordinates are taken non-negative. -/
abbrev Coo := Nat × Nat × Nat

/-- The dictionary `map<values, vector<rowcols>> unique_vals` of one column, as
its entries in key order. -/
abbrev Dict := List (Nat × List Int)

/-- Lookup behind `unique_vals.count(v) == 1` and `unique_vals[v]`. -/
def dictFind : Dict → Nat → Option (List Int)
  | [], _ => none
  | (k, vec) :: rest, v => if v = k then some vec else dictFind rest v

/-- Statement `unique_vals[v] = vec` on the ordered map. -/
def dictAssign : Dict → Nat → List Int → Dict
  | [], v, vec => [(v, vec)]
  | (k, old) :: rest, v, vec =>
    if v = k then (k, vec) :: rest
    else if v < k then (v, vec) :: (k, old) :: rest
    else (k, old) :: dictAssign rest v vec

/-- Body of the loop over `j < num_vals` for column `i`.  When the value is a key
and `cols[j] == i`: `delta = rows[j] - unique_vals[v][0]`, `push_back(delta)`,
`unique_vals[v][0] = rows[j]`.  Otherwise, when `cols[j] == i`:
`unique_vals[v] = {rows[j], rows[j]}`. -/
def dictStep (i : Nat) (m : Dict) (e : Coo) : Dict :=
  match dictFind m e.1 with
  | some vec =>
    if e.2.2 = i then dictAssign m e.1 ((vec ++ [(e.2.1 : Int) - vec.headD 0]).set 0 (e.2.1 : Int))
    else m
  | none =>
    if e.2.2 = i then dictAssign m e.1 [(e.2.1 : Int), (e.2.1 : Int)] else m

/-- Conversion of a `rowcols` value to `size_t`. -/
def toSizeT (x : Int) : Nat := (x % 18446744073709551616).toNat

/-- Value `*max_element(vec.begin(), vec.end())`. -/
def maxElement (vec : List Int) : Int := vec.foldl max (vec.headD 0)

/-- Width `idx_t = byte_width(*max_element(i.second.begin(), i.second.end()))`
of a run: the maximum runs over the whole vector, slot 0 included. -/
def idxWidth (vec : List Int) : Nat := byte_width (toSizeT (maxElement vec))

/-- The elements of the vector that the loop `for (auto j : i.second)` writes:
those with `j != i.second[0]`. -/
def writtenWords (vec : List Int) : List Int := vec.filter fun j => j != vec.headD 0

/-- Bytes written for one dictionary entry up to the delimiter: the value in
`val_t` bytes, the byte `idx_t`, and every written word in `idx_t` bytes. -/
def encodeRunHead (val_t : Nat) (run : Nat × List Int) : List Nat :=
  Bytes.leBytes val_t run.1 ++ [idxWidth run.2] ++
    (writtenWords run.2).flatMap fun j => Bytes.leBytes (idxWidth run.2) (toSizeT j)

/-- Bytes written for one dictionary entry: the head, then `idx_t` copies of
`delim = 0`. -/
def encodeRun (val_t : Nat) (run : Nat × List Int) : List Nat :=
  encodeRunHead val_t run ++ List.replicate (idxWidth run.2) 0

/-- State of the column loop: the bytes written after the column pointers, the
column pointers written so far, and `previous_idx`. -/
structure EncState where
  body : List Nat
  colPtrs : List Nat
  previous_idx : Nat
deriving DecidableEq, Repr

/-- Body of the column loop for column `i`: build the dictionary, write its runs
in key order, remember the width of the last run, and, unless
`i == num_cols - 1`, store `ptr - data` in the next column pointer. -/
def columnStep (val_t bodyStart num_cols : Nat) (entries : List Coo) (st : EncState)
    (i : Nat) : EncState :=
  let unique_vals := entries.foldl (dictStep i) []
  let body := st.body ++ unique_vals.flatMap (encodeRun val_t)
  { body := body
    colPtrs := if i ≠ num_cols - 1 then st.colPtrs ++ [bodyStart + body.length] else st.colPtrs
    previous_idx :=
      match unique_vals.getLast? with
      | some run => idxWidth run.2
      | none => st.previous_idx }

/-- Value `max_val` after the first loop of the constructor. -/
def maxVal (entries : List Coo) : Nat :=
  entries.foldl (fun m e => if e.1 > m then e.1 else m) 0

/-- Header written by the constructor: `row_t`, `col_t`, `val_t`, then `num_rows`
in `row_t` bytes and `num_cols` in `col_t` bytes. -/
def header (entries : List Coo) (row_num col_num : Nat) : List Nat :=
  [byte_width row_num, byte_width col_num, byte_width (maxVal entries)] ++
    Bytes.leBytes (byte_width row_num) row_num ++ Bytes.leBytes (byte_width col_num) col_num

/-- State after the column loop, started with `col_ptr[0] = 0` and
`previous_idx = 0`. -/
def encodeColumns (entries : List Coo) (row_num col_num : Nat) : EncState :=
  (List.range col_num).foldl
    (columnStep (byte_width (maxVal entries))
      ((header entries row_num col_num).length + col_num * 8) col_num entries)
    ⟨[], [0], 0⟩

/-- Size of the buffer obtained by `allocate()`: `malloc(num_vals * 4 * val_t)`. -/
def allocated (entries : List Coo) : Nat :=
  entries.length * 4 * byte_width (maxVal entries)

/-- Number of bytes of the buffer reached by the writes of the constructor: the
header, then the larger of the 8 bytes of `col_ptr[0] = 0` and of the column
pointer area followed by every run with its delimiter. -/
def writtenExtent (entries : List Coo) (row_num col_num : Nat) : Nat :=
  (header entries row_num col_num).length +
    max 8 (col_num * 8 + (encodeColumns entries row_num col_num).body.length)

/-- Constructor `DeBruinesComp(vals, rows, cols, val_num, row_num, col_num)`, as
the content of `data` after the final `realloc`: the header, the `num_cols`
column pointers of 8 bytes, and the runs with the last `previous_idx` bytes cut
off (`ptr -= previous_idx`).  `none` when the writes pass the end of the buffer
obtained by `allocate()`. -/
def encode (entries : List Coo) (row_num col_num : Nat) : Option (List Nat) :=
  let st := encodeColumns entries row_num col_num
  if writtenExtent entries row_num col_num ≤ allocated entries then
    some (header entries row_num col_num ++
      (st.colPtrs.flatMap (Bytes.leBytes 8)).take (col_num * 8) ++
      st.body.take (st.body.length - st.previous_idx))
  else none

/-- Dictionary of column `i` after the loop over the input. -/
def columnDict (entries : List Coo) (i : Nat) : Dict := entries.foldl (dictStep i) []

/-- The runs in the order the constructor writes them: columns ascending, the
entries of each column dictionary in key order. -/
def allRuns (entries : List Coo) (col_num : Nat) : List (Nat × List Int) :=
  (List.range col_num).flatMap (columnDict entries)

/-- Bytes of the column pointer area in the final `data`. -/
def colPointerBytes (entries : List Coo) (row_num col_num : Nat) : List Nat :=
  ((encodeColumns entries row_num col_num).colPtrs.flatMap (Bytes.leBytes 8)).take (col_num * 8)

/-- Rows, in input order, of the entries of column `i` that carry the value `v`. -/
def rowsOf (i v : Nat) (entries : List Coo) : List Nat :=
  (entries.filter fun e => decide (e.2.2 = i ∧ e.1 = v)).map fun e => e.2.1

/-- Successive differences of the rows following `prev`. -/
def deltasFrom (prev : Nat) : List Nat → List Int
  | [] => []
  | r :: rest => ((r : Int) - (prev : Int)) :: deltasFrom r rest

/-- Positive-delta words of a run with rows `r_0, r_1, ...`: `r_0`, `r_1 - r_0`,
`r_2 - r_1`, and so on. -/
def deltaWords : List Nat → List Int
  | [] => []
  | r :: rest => (r : Int) :: deltasFrom r rest

/-- Last row of a run. -/
def lastRow (rs : List Nat) : Nat := rs.getLast?.getD 0

/-- Layout of a sequence of runs in which every run but the last is followed by
its delimiter. -/
def runsBytes (val_t : Nat) : List (Nat × List Int) → List Nat
  | [] => []
  | [r] => encodeRunHead val_t r
  | r :: r' :: rest => encodeRun val_t r ++ runsBytes val_t (r' :: rest)

/-- Content of a dictionary after the input prefix `P`: the key `v` is present
exactly when column `i` holds `v`, with the last row in slot 0 followed by the
delta words. -/
def DictMatches (i : Nat) (m : Dict) (P : List Coo) : Prop :=
  ∀ v, dictFind m v =
    if rowsOf i v P = [] then none
    else some ((lastRow (rowsOf i v P) : Int) :: deltaWords (rowsOf i v P))

/-- Width of the delimiter behind the last run of a list of runs. -/
def lastWidth (runs : List (Nat × List Int)) : Nat :=
  match runs.getLast? with
  | some run => idxWidth run.2
  | none => 0

end DeBruinesComp

namespace CSF

/-! ## Iterator over a buffer of runs (`CSF/src/iterator.hpp`) -/

/-- State of `CSF::Iterator` read and written by `operator++(int)` and
`interpretPointer`.  `rest` holds the bytes from `currentIndex` up to
`endOfData`.  The member declarations of the class are outside the sources, so
the content of `index` and `firstIndex` before the first increment is part of
the state; the `InnerIterator` of `CSF_SparseMatrix.hpp` declares
`bool firstIndex = true`. -/
structure Iterator where
  rest : List Nat
  index : Nat
  value : Nat
  valueWidth : Nat
  newIndexWidth : Nat
  firstIndex : Bool
deriving DecidableEq, Repr

/-- Method `interpretPointer(width)`: for the widths 1, 2, 4 and 8 the unsigned
integer of that width at `currentIndex`; for any other width the result 0, after
`exit(-1)` when `currentIndex` is `endOfData`.  In each case `currentIndex`
advances by `width`.  `none` when the call does not return (`exit`) or reaches
past `endOfData`. -/
def interpretPointer (it : Iterator) (width : Nat) : Option (Nat × Iterator) :=
  if width = 1 ∨ width = 2 ∨ width = 4 ∨ width = 8 then
    if width ≤ it.rest.length then
      some (Bytes.fromLE (it.rest.take width), { it with rest := it.rest.drop width })
    else none
  else if it.rest = [] then none
  else if width ≤ it.rest.length then some (0, { it with rest := it.rest.drop width })
  else none

/-- Method `operator++(int)`, returning the result and the new state.  A word 0
read while `firstIndex` is false starts the next run: `value` is read with
`valueWidth`, `newIndexWidth` is the next byte, `index` is reset and the first
index of the run is read into it.  Otherwise `firstIndex` is cleared and the
word is added to the 64-bit `index`. -/
def increment (it : Iterator) : Option (Nat × Iterator) :=
  (interpretPointer it it.newIndexWidth).bind fun r =>
    if r.1 = 0 ∧ it.firstIndex = false then
      (interpretPointer r.2 r.2.valueWidth).bind fun rv =>
        match rv.2.rest with
        | [] => none
        | w :: rest =>
          (interpretPointer { rv.2 with value := rv.1, newIndexWidth := w, rest := rest, index := 0 }
              w).map fun ri => (ri.1, { ri.2 with index := ri.1 })
    else
      some ((r.2.index + r.1) % 18446744073709551616,
        { r.2 with firstIndex := false, index := (r.2.index + r.1) % 18446744073709551616 })

/-- Results of `n` successive increments, each paired with the value held after
it, and the state reached. -/
def increments : Nat → Iterator → Option (List (Nat × Nat) × Iterator)
  | 0, it => some ([], it)
  | n + 1, it =>
    (increment it).bind fun r =>
      (increments n r.2).map fun rs => ((r.1, r.2.value) :: rs.1, rs.2)

/-- A run as the decoder expects it: the value, the width of its index words,
the first index and the indices that follow. -/
structure Run where
  value : Nat
  width : Nat
  first : Nat
  later : List Nat
deriving DecidableEq, Repr

/-- Differences of consecutive indices, the first one taken from `prev`. -/
def deltas (prev : Nat) : List Nat → List Nat
  | [] => []
  | r :: rest => (r - prev) :: deltas r rest

/-- Index words of a run: the first index, then the positive deltas, each in
`width` little-endian bytes. -/
def Run.words (r : Run) : List Nat :=
  (r.first :: deltas r.first r.later).flatMap (Bytes.leBytes r.width)

/-- Bytes of a run: value, width byte, index words, delimiter. -/
def Run.bytes (valueWidth : Nat) (r : Run) : List Nat :=
  Bytes.leBytes valueWidth r.value ++ [r.width] ++ r.words ++ List.replicate r.width 0

/-- The pairs `(index, value)` a run stands for. -/
def Run.pairs (r : Run) : List (Nat × Nat) :=
  (r.first :: r.later).map fun i => (i, r.value)

/-- A run the format admits: width 1, 2, 4 or 8, strictly ascending indices
below `2^64`, every word and the value fitting their widths. -/
def Run.valid (valueWidth : Nat) (r : Run) : Bool :=
  decide ((r.width = 1 ∨ r.width = 2 ∨ r.width = 4 ∨ r.width = 8) ∧
    r.value < 256 ^ valueWidth ∧
    List.Chain (fun a b => a < b) r.first r.later ∧
    (∀ x ∈ r.first :: deltas r.first r.later, x < 256 ^ r.width) ∧
    (∀ i ∈ r.first :: r.later, i < 18446744073709551616))

/-- Modelled from the spec: the member declarations of `Iterator` are outside
the sources.  The state on a buffer that starts with the run `r` followed by
`bytes`, after the constructor has loaded the value and the width of `r`: the
cursor is on the first index word, `index` is 0 and `firstIndex` is set (the
`InnerIterator` of `CSF_SparseMatrix.hpp` declares `bool firstIndex = true`). -/
def Iterator.onFirstIndex (vw : Nat) (r : Run) (bytes : List Nat) : Iterator :=
  { rest := r.words ++ List.replicate r.width 0 ++ bytes
    index := 0
    value := r.value
    valueWidth := vw
    newIndexWidth := r.width
    firstIndex := true }

/-! ## Level-3 file constructor (`CSF/src/CSF_Constructors.hpp`) -/

/-- Modelled from the spec: the macro `NUM_META_DATA` is defined outside the
sources; section 6.1 lists six header words. -/
def NUM_META_DATA : Nat := 6

/-- A file as its bytes. -/
abbrev File := List Nat

/-- Slice buffer `data[i]` with `endPointers[i] = data[i] + size`: `size` bytes
are allocated and `bytes` are the leading bytes stored by `fread`; what lies
behind them is never written. -/
structure Buffer where
  size : Nat
  bytes : List Nat
deriving DecidableEq, Repr

/-- Members of `CSF::SparseMatrix` kept by the model. -/
structure SparseMatrix where
  innerDim : Nat
  outerDim : Nat
  numRows : Nat
  numCols : Nat
  nnz : Nat
  val_t : Nat
  index_t : Nat
  metadata : List Nat
  data : List Buffer
deriving DecidableEq, Repr

/-- Members as the class declaration initialises them (`innerDim`, `outerDim`,
`numRows`, `numCols`, `nnz` are declared `= 0`); the members without
initialiser are entered as 0 and empty. -/
def SparseMatrix.declared : SparseMatrix :=
  { innerDim := 0, outerDim := 0, numRows := 0, numCols := 0, nnz := 0, val_t := 0, index_t := 0
    metadata := [], data := [] }

/-- One `fread` of `count` unsigned integers of `w` bytes into a destination
that holds nothing before the call: `none` on a short read, which leaves
destination words without a value. -/
def freadWords (w : Nat) : Nat → File → Option (List Nat × File)
  | 0, file => some ([], file)
  | count + 1, file =>
    if w ≤ file.length then
      (freadWords w count (file.drop w)).map fun r => (Bytes.fromLE (file.take w) :: r.1, r.2)
    else none

/-- First loop of the level-3 branch: for every `i < outerDim`,
`fread(&size, sizeof(uint64_t), 1, fp)`, then `data[i] = malloc(size)` and
`endPointers[i] = data[i] + size`.  No payload byte is read in this loop. -/
def readSizes : Nat → File → Option (List Nat × File)
  | 0, file => some ([], file)
  | outerDim + 1, file =>
    (freadWords 8 1 file).bind fun r =>
      (readSizes outerDim r.2).map fun rs => (r.1.headD 0 :: rs.1, rs.2)

/-- Second loop of the level-3 branch: for every `i < outerDim`,
`fread(data[i], 1, endPointers[i] - data[i], fp)`; the return value of `fread`
is not looked at, so a read that meets the end of the file stores the bytes
that remain. -/
def readPayloads : List Nat → File → List Buffer
  | [], _ => []
  | size :: sizes, file => ⟨size, file.take size⟩ :: readPayloads sizes (file.drop size)

/-- File constructor `SparseMatrix(const char *filename)` for compression level
3, applied to the content of the file (the block under
`if constexpr (compressionLevel == 2)` is not instantiated).  The body compares
no header word with the level of the class.  The call `userChecks()` under
`CSF_DEBUG` is outside the sources: the definition is the build without
`CSF_DEBUG`.  Every `malloc` is taken to return storage; `fileConstructorAlloc`
has the allocator as a parameter. -/
def fileConstructor (columnMajor : Bool) (file : File) : Option SparseMatrix :=
  (freadWords 4 NUM_META_DATA file).bind fun h =>
    let metadata := h.1
    let innerDim := metadata.getD 1 0
    let outerDim := metadata.getD 2 0
    (readSizes outerDim h.2).map fun r =>
      { innerDim := innerDim
        outerDim := outerDim
        numRows := if columnMajor then innerDim else outerDim
        numCols := if columnMajor then outerDim else innerDim
        nnz := metadata.getD 3 0
        val_t := metadata.getD 4 0
        index_t := metadata.getD 5 0
        metadata := metadata
        data := readPayloads r.1 r.2 }

/-- The two loops of the level-3 branch with the allocator as a parameter:
`malloc size` tells whether `malloc(size)` returns storage.  When it does not,
`data[i]` is null, `endPointers[i]` is the null pointer moved by `size` and
`fread` is handed the null pointer: no result is defined, unless `size` is 0,
where nothing is moved and nothing is stored. -/
def readPayloadsAlloc (malloc : Nat → Bool) : List Nat → File → Option (List Buffer)
  | [], _ => some []
  | size :: sizes, file =>
    if malloc size || size == 0 then
      (readPayloadsAlloc malloc sizes (file.drop size)).map fun bs =>
        ⟨size, file.take size⟩ :: bs
    else none

/-- File constructor `SparseMatrix(const char *filename)` for compression level
3 with the allocator as a parameter (see `readPayloadsAlloc`); `fileConstructor`
is the case in which every allocation succeeds. -/
def fileConstructorAlloc (malloc : Nat → Bool) (columnMajor : Bool) (file : File) :
    Option SparseMatrix :=
  (freadWords 4 NUM_META_DATA file).bind fun h =>
    let metadata := h.1
    let innerDim := metadata.getD 1 0
    let outerDim := metadata.getD 2 0
    (readSizes outerDim h.2).bind fun r =>
      (readPayloadsAlloc malloc r.1 r.2).map fun data =>
        { innerDim := innerDim
          outerDim := outerDim
          numRows := if columnMajor then innerDim else outerDim
          numCols := if columnMajor then outerDim else innerDim
          nnz := metadata.getD 3 0
          val_t := metadata.getD 4 0
          index_t := metadata.getD 5 0
          metadata := metadata
          data := data }

/-- Raw CSC constructor
`SparseMatrix(vals, innerIndices, outerPtr, num_rows, num_cols, nnz)`.  For
`nnz == 0` it assigns `val_t`, `index_t` and the three pointers and returns
before the dimensions are assigned.  Otherwise it assigns the dimensions and
calls `compressCSC`, which is outside the sources and enters as the parameter
`compressCSC`. -/
def rawCSCConstructor (columnMajor : Bool) (compressCSC : SparseMatrix → SparseMatrix)
    (num_rows num_cols nnz : Nat) : SparseMatrix :=
  if nnz = 0 then
    { SparseMatrix.declared with val_t := 0, index_t := 0, data := [], metadata := [] }
  else
    compressCSC
      { SparseMatrix.declared with
        innerDim := if columnMajor then num_rows else num_cols
        outerDim := if columnMajor then num_cols else num_rows
        numRows := num_rows
        numCols := num_cols
        nnz := nnz }

/-- Header of a level-3 file: six 32-bit words. -/
def headerBytes (words : List Nat) : File := words.flatMap (Bytes.leBytes 4)

/-- Layout the level-3 reader consumes: the header, the 8-byte sizes of all
slices, then the payloads of all slices. -/
def sizesFirst (words : List Nat) (payloads : List (List Nat)) : File :=
  headerBytes words ++ payloads.flatMap (fun b => Bytes.leBytes 8 b.length) ++ payloads.flatten

/-- Layout in which every slice's 8-byte size is immediately followed by its
payload. -/
def interleaved (words : List Nat) (payloads : List (List Nat)) : File :=
  headerBytes words ++ payloads.flatMap fun b => Bytes.leBytes 8 b.length ++ b

/-! ## Private transpose constructor, level 3 (`CSF/src/CSF_Constructors.hpp`) -/

/-- One map `std::unordered_map<T, std::vector<indexT>>` handed to the private
transpose constructor, as its `(value, vector)` entries in the order in which
the range-based loops of the constructor visit them (the map is not modified
between the loops). -/
abbrev ScratchMap := List (Nat × List Nat)

/-- Store of one word under `switch (val.second[val.second.size() - 1])`: the
cases 1, 2, 4 and 8 write the word with that many bytes and advance the cursor;
the switch has no default, any other width writes nothing. -/
def storeWord (w d : Nat) : List Nat :=
  if w = 1 ∨ w = 2 ∨ w = 4 ∨ w = 8 then Bytes.leBytes w d else []

/-- Summand of `byteSize` for one entry of the level-3 branch:
`sizeof(T) + 1 + (w * (size - 1) + w)` with `w` the last element of the vector;
`none` for an empty vector, whose last element does not exist. -/
def entryByteSize (sizeofT : Nat) (vec : List Nat) : Option Nat :=
  vec.getLast?.map fun w => sizeofT + 1 + (w * (vec.length - 1) + w)

/-- Bytes written for one entry of the level-3 branch: the value in `sizeof(T)`
bytes, the last element of the vector as one byte, every element but the last
as a word, then the delimiter word. -/
def writeEntry (sizeofT : Nat) (e : Nat × List Nat) : Option (List Nat) :=
  e.2.getLast?.map fun w =>
    Bytes.leBytes sizeofT e.1 ++ [w % 256] ++ e.2.dropLast.flatMap (storeWord w) ++ storeWord w 0

/-- Body of the loop over the slices for the map `m` of slice `i`, on the
buffers built so far and the 32-bit member `nnz`.  An empty map leaves
`data[i]` and `endPointers[i]` null.  Otherwise `byteSize` is summed over the
entries, the buffer is allocated with that size, and for every entry
`nnz += val.second.size() - 1` and the entry is written at the cursor. -/
def transposeSlice (sizeofT : Nat) (st : List Buffer × Nat) (m : ScratchMap) :
    Option (List Buffer × Nat) :=
  if m = [] then some (st.1 ++ [⟨0, []⟩], st.2)
  else
    (m.foldlM (fun size e => (entryByteSize sizeofT e.2).map fun b => size + b) 0).bind
      fun byteSize =>
        (m.foldlM
            (fun (acc : List Nat × Nat) e =>
              (writeEntry sizeofT e).map fun bytes =>
                (acc.1 ++ bytes, (acc.2 + (e.2.length - 1)) % 4294967296))
            ([], st.2)).map
          fun r => (st.1 ++ [⟨byteSize, r.1⟩], r.2)

/-- Private transpose constructor
`SparseMatrix(std::unordered_map<T, std::vector<indexT>> maps[], num_rows, num_cols)`
for compression level 3, without `CSF_PARALLEL` and `CSF_DEBUG`.  `nnz` starts
from its declared value 0; `val_t` stands for the result of `encodeValueType()`,
which is outside the sources.  `none` when a map or the last element of a
vector is read outside its container. -/
def transposeConstructor (columnMajor : Bool) (sizeofT val_t index_t : Nat)
    (maps : List ScratchMap) (num_rows num_cols : Nat) : Option SparseMatrix :=
  let innerDim := if columnMajor then num_cols else num_rows
  let outerDim := if columnMajor then num_rows else num_cols
  ((List.range outerDim).foldlM
      (fun st i => (maps.get? i).bind (transposeSlice sizeofT st)) ([], 0)).map fun st =>
    { innerDim := innerDim
      outerDim := outerDim
      numRows := num_cols
      numCols := num_rows
      nnz := st.2
      val_t := val_t
      index_t := index_t
      metadata := [3, innerDim, outerDim, st.2, val_t, index_t]
      data := st.1 }

/-- Bytes the format prescribes for an entry `value -> [d_0, ..., d_{k-1}, w]`:
the value, the byte `w`, the `k` words of `w` bytes and one zero word. -/
def entryBytes (sizeofT : Nat) (value : Nat) (words : List Nat) (w : Nat) : List Nat :=
  Bytes.leBytes sizeofT value ++ [w] ++ words.flatMap (Bytes.leBytes w) ++ List.replicate w 0

/-! ## Array of vectors constructor (`CSF/src/CSF_Constructors.hpp`) -/

/-- What the array of vectors constructor reads from a `Vector`. -/
structure Vector where
  length : Nat
  byteSize : Nat
  nonZeros : Nat
  data : List Nat
deriving DecidableEq, Repr

/-- Array of vectors constructor `SparseMatrix(Vector vec[], size_t size)`
without `CSF_DEBUG`.  The dimensions are assigned from `size` and
`vec[0].length()`; the loop runs over `i < outerDim` and copies `vec[i]`.
`val_t` stands for the result of `encodeValueType()`.  `none` when `vec[0]` or
`vec[i]` lies outside the array of `size` vectors. -/
def vectorsConstructor (columnMajor : Bool) (level val_t index_t : Nat) (vec : List Vector)
    (size : Nat) : Option SparseMatrix :=
  ((vec.take size).get? 0).bind fun v0 =>
    let outerDim := if columnMajor then size % 4294967296 else v0.length % 4294967296
    let innerDim := if columnMajor then v0.length % 4294967296 else size % 4294967296
    let numCols := if columnMajor then size % 4294967296 else v0.length % 4294967296
    let numRows := if columnMajor then v0.length % 4294967296 else size % 4294967296
    ((List.range outerDim).foldlM
        (fun (st : List Buffer × Nat) i =>
          ((vec.take size).get? i).map fun v =>
            (st.1 ++ [⟨v.byteSize, v.data.take v.byteSize⟩],
              (st.2 + v.nonZeros) % 4294967296))
        ([], 0)).map fun st =>
      { innerDim := innerDim
        outerDim := outerDim
        numRows := numRows
        numCols := numCols
        nnz := st.2
        val_t := val_t
        index_t := index_t
        metadata := [level, innerDim, outerDim, st.2, val_t, index_t]
        data := st.1 }

/-- An entry `value -> [d_0, ..., d_{k-1}, w]` of a slice map, as the value,
the words and the trailing width indicator. -/
abbrev RunEntry := Nat × List Nat × Nat

/-- The map entry `(value, [d_0, ..., d_{k-1}, w])`. -/
def RunEntry.toMapEntry (e : RunEntry) : Nat × List Nat := (e.1, e.2.1 ++ [e.2.2])

/-- Buffer the format prescribes for a slice map: per entry the value bytes,
the width byte, the words and a zero word; its size is
`sizeof(T) + 1 + w * k + w` summed over the entries. -/
def sliceBuffer (sizeofT : Nat) (es : List RunEntry) : Buffer :=
  ⟨(es.map fun e => sizeofT + 1 + e.2.2 * e.2.1.length + e.2.2).sum,
    es.flatMap fun e => entryBytes sizeofT e.1 e.2.1 e.2.2⟩

/-- Orientation invariant of the dimension fields of a `CSF::SparseMatrix`. -/
def oriented (columnMajor : Bool) (M : SparseMatrix) : Bool :=
  if columnMajor then M.innerDim == M.numRows && M.outerDim == M.numCols
  else M.innerDim == M.numCols && M.outerDim == M.numRows

/-- A level-3 vector of length 1 without stored bytes. -/
def exampleVector1 : Vector := { length := 1, byteSize := 0, nonZeros := 0, data := [] }

end CSF

namespace IVSparse

/-- One outer slice: the entries `(value, indices)` of an associative container
from values to `std::vector<indexT>`, in the order in which the container is
iterated.  The scratch maps of `transpose` and `inPlaceTranspose` and the
parameter of the private constructor are declared
`std::map<T, std::vector<indexT>>`, which iterates in ascending key order.  The
declaration of the member `data` is outside the sources (`getMap` names
`std::unordered_map`); for its slices the list is one iteration order, taken
ascending as well. -/
abbrev Slice := List (Int × List Nat)

/-- Compile-time context of `SparseMatrix<T, indexT, 2, columnMajor>`.  The class
declaration is not part of the sources, so what the methods read from it is
taken as a parameter: the orientation flag, the tag left in `val_t` by
`encodeValueType()`, `sizeof(indexT)`, and the content of the member `nnz`
when a constructor body starts (the sibling CSF class declares
`uint32_t nnz = 0`). -/
structure Params where
  columnMajor : Bool
  val_t : Nat
  index_t : Nat
  nnzInit : Nat
deriving DecidableEq, Repr

/-- Members of a level-2 sparse matrix that the embedded methods read or write.
`metadata` is the header array of `NUM_META_DATA` words (`[]` for a null
pointer), `data` the per-slice containers. -/
structure SparseMatrix where
  innerDim : Nat
  outerDim : Nat
  numRows : Nat
  numCols : Nat
  nnz : Nat
  val_t : Nat
  index_t : Nat
  metadata : List Nat
  data : List Slice
deriving DecidableEq, Repr

/-- Reduction of a value to the range of `uint32_t`. -/
def wrap32 (n : Nat) : Nat := n % 4294967296

/-! ## Container primitives -/

/-- Conversion of a natural number to the index type `indexT` of
`sizeof(indexT)` bytes, as the bit pattern that is stored: the low
`sizeof(indexT)` bytes (also what `fwrite(&count, 1, sizeof(indexT), fp)` takes
from a 64-bit count).  For an unsigned `indexT` the pattern is the converted
value; for a signed `indexT` it is the converted value as long as it is below
`indexLimit`, and stands for a negative value from there on. -/
def wrapIndex (p : Params) (n : Nat) : Nat := n % 2 ^ (8 * p.index_t)

/-- Bound below which a natural number is stored unchanged in `indexT` whether
the type is signed or unsigned: `2^(8 * sizeof(indexT) - 1)`, the largest value
of the signed type plus one. -/
def indexLimit (p : Params) : Nat := 2 ^ (8 * p.index_t - 1)

/-- Membership test `m.find(v) != m.end()`. -/
def mapContains (m : Slice) (v : Int) : Bool :=
  m.any fun e => e.1 == v

/-- Statement `m[v].push_back(o)`: `operator[]` creates the key with an empty
vector when it is absent, at its place in key order (the place a `std::map`
gives it, see `Slice`). -/
def mapPushBack : Slice → Int → Nat → Slice
  | [], v, o => [(v, [o])]
  | (k, is) :: rest, v, o =>
    if v = k then (k, is ++ [o]) :: rest
    else if v < k then (v, [o]) :: (k, is) :: rest
    else (k, is) :: mapPushBack rest v o

/-- Statement `m[v] = xs`; a new key takes its place in key order (see
`Slice`). -/
def mapAssign : Slice → Int → List Nat → Slice
  | [], v, xs => [(v, xs)]
  | (k, is) :: rest, v, xs =>
    if v = k then (k, xs) :: rest
    else if v < k then (v, xs) :: (k, is) :: rest
    else (k, is) :: mapAssign rest v xs

/-- Decidable form of "slice `s` lists index `i` under value `v`". -/
def lists (s : Slice) (v : Int) (i : Nat) : Bool :=
  s.any fun e => e.1 == v && e.2.contains i

/-- Modelled from the spec: the level-2 `InnerIterator` is declared outside the
sources.  Following section 4.4 it visits the `(value, indices[])` pairs of a
slice in stored order and the indices of each pair in stored order, yielding
`(index, value)`. -/
def iterate (s : Slice) : List (Nat × Int) :=
  s.flatMap fun e => e.2.map fun i => (i, e.1)

/-- Modelled from the spec: observer `it.row()` of the level-2 `InnerIterator`,
declared outside the sources.  By section 4.4 it is derived from the
orientation: the inner index for a column-major matrix, the outer index
otherwise. -/
def itRow (columnMajor : Bool) (outer index : Nat) : Nat :=
  if columnMajor then index else outer

/-- Modelled from the spec: observer `it.col()` of the level-2 `InnerIterator`:
the outer index for a column-major matrix, the inner index otherwise. -/
def itCol (columnMajor : Bool) (outer index : Nat) : Nat :=
  if columnMajor then outer else index

/-! ## Transpose -/

/-- Statement `mapsT[i][v].push_back(o)`; `none` when `i` is outside the array. -/
def scratchPush (maps : List Slice) (i : Nat) (v : Int) (o : Nat) : Option (List Slice) :=
  if h : i < maps.length then some (maps.set i (mapPushBack (maps.get ⟨i, h⟩) v o)) else none

/-- Body of the inner loop of `transpose` for one emission of slice `outer`:
`mapsT[it.row()][it.value()].push_back(it.col())` for a column-major type,
`mapsT[it.col()][it.value()].push_back(it.row())` otherwise.  The vectors of the
scratch maps are `std::vector<indexT>`, so the coordinate pushed is converted to
`indexT` (`wrapIndex`).  The source spells the iterator type
`SparseMatrix<T, indexT, 2>::InnerIterator`, leaving the orientation argument to
its default; the observers are taken for the orientation of the matrix that is
iterated. -/
def transposeStep (p : Params) (outer : Nat) (maps : List Slice) (e : Nat × Int) :
    Option (List Slice) :=
  if p.columnMajor then
    scratchPush maps (itRow p.columnMajor outer e.1) e.2
      (wrapIndex p (itCol p.columnMajor outer e.1))
  else
    scratchPush maps (itCol p.columnMajor outer e.1) e.2
      (wrapIndex p (itRow p.columnMajor outer e.1))

/-- Loops of `transpose` and `inPlaceTranspose` filling `mapsT[innerDim]`:
for every `i < outerDim`, for every emission of slice `i`. -/
def transposeMaps (p : Params) (M : SparseMatrix) : Option (List Slice) :=
  (List.range M.outerDim).foldlM
    (fun maps i =>
      (M.data.get? i).bind fun s => (iterate s).foldlM (transposeStep p i) maps)
    (List.replicate M.innerDim [])

/-- Private transpose constructor
`SparseMatrix(std::map<T, std::vector<indexT>> maps[], num_rows, num_cols)`.
The body never assigns `nnz`, so the member keeps its initial content. -/
def transposeConstructor (p : Params) (maps : List Slice) (num_rows num_cols : Nat) :
    SparseMatrix :=
  let innerDim := if p.columnMajor then num_cols else num_rows
  let outerDim := if p.columnMajor then num_rows else num_cols
  { innerDim := innerDim
    outerDim := outerDim
    numRows := num_cols
    numCols := num_rows
    nnz := p.nnzInit
    val_t := p.val_t
    index_t := p.index_t
    metadata := [2, innerDim, outerDim, p.nnzInit, p.val_t, p.index_t]
    data := maps }

/-- Method `transpose()`: fill the scratch maps, then build the result with the
private constructor from `numRows` and `numCols`. -/
def transpose (p : Params) (M : SparseMatrix) : Option SparseMatrix :=
  (transposeMaps p M).map fun maps => transposeConstructor p maps M.numRows M.numCols

/-! ## Coordinate-triplet constructor -/

/-- A coordinate triplet `std::tuple<indexT2, indexT2, T2>`: `(row, col, value)`. -/
abbrev Entry := Nat × Nat × Int

/-- Comparator handed to `std::sort`: by column, rows deciding between equal
columns. -/
def entryLess (a b : Entry) : Bool :=
  if a.2.1 = b.2.1 then decide (a.1 < b.1) else decide (a.2.1 < b.2.1)

/-- Call `std::sort(entries.begin(), entries.end(), cmp)`.  Entries that the
comparator does not separate (equal row and column) may come out in any order
in the source; here they keep their input order. -/
def sortEntries (entries : List Entry) : List Entry :=
  entries.insertionSort fun a b => entryLess b a = false

/-- Call `data.reserve(n)`.  The sources use the member `data` as a
`std::vector` of slice containers (`data.push_back`, `data.swap`, `data.reserve`,
"the data vector"): `reserve` changes the capacity and creates no element, so
the container keeps the elements it has. -/
def reserve (data : List Slice) (_n : Nat) : List Slice := data

/-- Body of the loop over the sorted tuples: with `row`, `col`, `val` the
components of the entry, `data[col][val].push_back(row)` when `val` is a key of
`data[col]`, `data[col][val] = {row}` otherwise; `none` when `col` is outside
`data`. -/
def cooInsert (data : List Slice) (e : Entry) : Option (List Slice) :=
  if h : e.2.1 < data.length then
    if mapContains (data.get ⟨e.2.1, h⟩) e.2.2 then
      some (data.set e.2.1 (mapPushBack (data.get ⟨e.2.1, h⟩) e.2.2 e.1))
    else
      some (data.set e.2.1 (mapAssign (data.get ⟨e.2.1, h⟩) e.2.2 [e.1]))
  else none

/-- Constructor from coordinate triplets
`SparseMatrix(entries, uint64_t num_rows, uint32_t num_cols, uint32_t nnz)`.
The 64-bit `num_rows` is stored in 32-bit members.  The assignment
`*this = SparseMatrix()` taken for `nnz == 0` is followed by the same
statements, which overwrite every member kept here.  `data.reserve(outerDim)`
creates no slice, so the loop starts on a container without elements.  Reading
`entries[i]` past the end of the vector, or `data[col]` outside the container,
gives `none`. -/
def cooConstructor (p : Params) (entries : List Entry) (num_rows num_cols nnz : Nat) :
    Option SparseMatrix :=
  let innerDim := if p.columnMajor then wrap32 num_rows else num_cols
  let outerDim := if p.columnMajor then num_cols else wrap32 num_rows
  let sorted := sortEntries entries
  ((List.range nnz).foldlM (fun data i => (sorted.get? i).bind (cooInsert data))
      (reserve [] outerDim)).map fun data =>
    { innerDim := innerDim
      outerDim := outerDim
      numRows := wrap32 num_rows
      numCols := num_cols
      nnz := nnz
      val_t := p.val_t
      index_t := p.index_t
      metadata := [2, innerDim, outerDim, nnz, p.val_t, p.index_t]
      data := data }

/-! ## In-place transpose -/

/-- Method `inPlaceTranspose()`: the same loops as `transpose`, then
`data.swap(mapsT)`, the assignments of `innerDim` and `outerDim` from `numCols`
and `numRows`, and last `numRows = numCols; numCols = numRows;` in this order.
`nnz` and `metadata` are not assigned. -/
def inPlaceTranspose (p : Params) (M : SparseMatrix) : Option SparseMatrix :=
  (transposeMaps p M).map fun mapsT =>
    let M1 := { M with data := mapsT }
    let M2 :=
      if p.columnMajor then { M1 with innerDim := M1.numCols, outerDim := M1.numRows }
      else { M1 with innerDim := M1.numRows, outerDim := M1.numCols }
    let M3 := { M2 with numRows := M2.numCols }
    { M3 with numCols := M3.numRows }

/-! ## Build flags and failures -/

/-- Preprocessor context: `debug` when `IVSPARSE_DEBUG` is defined, `asserts`
when `assert` is active (`NDEBUG` not defined). -/
structure BuildFlags where
  debug : Bool
  asserts : Bool
deriving DecidableEq, Repr

/-- Ways a method stops without completing: a failed `assert`, a thrown
`std::invalid_argument`, a thrown `std::runtime_error`, and an access outside a
container or past the end of a file, where the behaviour is undefined and
nothing is reported. -/
inductive Failure where
  | assertion
  | invalidArgument
  | runtimeError
  | outOfBounds
deriving DecidableEq, Repr

/-! ## Vectors and append -/

/-- Modelled from the spec: the level-2 `Vector` class is declared outside the
sources.  A vector is one slice standing alone (section 6.2); the record holds
what the matrix methods read from it: `getLength()`, `nonZeros()`, `byteSize()`
and the slice container returned by `getMap()`. -/
structure Vector where
  getLength : Nat
  nonZeros : Nat
  byteSize : Nat
  data : Slice
deriving DecidableEq, Repr

/-- Observer `vec.getMap()`. -/
def Vector.getMap (vec : Vector) : Slice := vec.data

/-- Constructor `SparseMatrix(Vector& vec)`; it returns before
`data.reserve(1)` when `vec.byteSize() == 0`.  Otherwise `data.reserve(1)` is
followed by the store `data[0] = vec.data`, which addresses reserved storage
outside the container: `data.size()` stays 0, and the member is kept without
element. -/
def vectorConstructor (p : Params) (vec : Vector) : SparseMatrix :=
  let numRows := if p.columnMajor then vec.getLength else 1
  let numCols := if p.columnMajor then 1 else vec.getLength
  let innerDim := if p.columnMajor then numRows else numCols
  let outerDim := if p.columnMajor then numCols else numRows
  { innerDim := innerDim
    outerDim := outerDim
    numRows := numRows
    numCols := numCols
    nnz := vec.nonZeros
    val_t := p.val_t
    index_t := p.index_t
    metadata := [2, innerDim, outerDim, vec.nonZeros, p.val_t, p.index_t]
    data := if vec.byteSize == 0 then [] else (reserve [] 1).set 0 vec.data }

/-- Method `append(Vector& vec)`, as the receiver after the call together with
the failure raised, if any.  The length assertion and the `invalid_argument`
check exist only under `IVSPARSE_DEBUG`; both precede every assignment. -/
def append (p : Params) (f : BuildFlags) (M : SparseMatrix) (vec : Vector) :
    SparseMatrix × Option Failure :=
  if f.debug && f.asserts && vec.getLength != M.innerDim then (M, some Failure.assertion)
  else if decide (M.numRows < 1) && decide (M.numCols < 1) then (vectorConstructor p vec, none)
  else if vec.nonZeros == 0 then
    let M1 :=
      if p.columnMajor then { M with numCols := wrap32 (M.numCols + 1) }
      else { M with numRows := wrap32 (M.numRows + 1) }
    let M2 := { M1 with outerDim := wrap32 (M1.outerDim + 1) }
    ({ M2 with metadata := M2.metadata.set 2 M2.outerDim }, none)
  else if f.debug && vec.getLength != M.innerDim then (M, some Failure.invalidArgument)
  else
    let M1 := { M with outerDim := wrap32 (M.outerDim + 1), nnz := wrap32 (M.nnz + vec.nonZeros) }
    let M2 :=
      if p.columnMajor then { M1 with numCols := wrap32 (M1.numCols + 1) }
      else { M1 with numRows := wrap32 (M1.numRows + 1) }
    let M3 := { M2 with metadata := (M2.metadata.set 2 M2.outerDim).set 3 M2.nnz }
    ({ M3 with data := M3.data ++ [vec.getMap] }, none)

/-! ## File format -/

/-- Modelled from the spec: the macro `NUM_META_DATA` is defined outside the
sources; section 6.1 lists six header words. -/
def NUM_META_DATA : Nat := 6

/-- A file as the sequence of scalar fields in the order they are written; the
byte width of a field is fixed by its type (`uint32_t`, `indexT` or `T`). -/
abbrev File := List Int

/-- Fields written for one slice: the number of keys (`indexT numUniquei =
data[i].size()`), the keys, one count per key (`uint64_t count =
pair.second.size()` written with `sizeof(indexT)` bytes), then the index
vectors, each group in the iteration order of the map. -/
def writeSlice (p : Params) (s : Slice) : File :=
  [(wrapIndex p s.length : Int)] ++ s.map (fun e => e.1) ++
    s.map (fun e => (wrapIndex p e.2.length : Int)) ++
    s.flatMap (fun e => e.2.map fun i => (i : Int))

/-- Method `write(filename)`: the header words, then the fields of slices
`0 .. outerDim - 1`.  `none` when the header or a slice is missing. -/
def write (p : Params) (M : SparseMatrix) : Option File :=
  if M.metadata.length < NUM_META_DATA then none
  else
    (List.range M.outerDim).foldlM
      (fun file i => (M.data.get? i).map fun s => file ++ writeSlice p s)
      ((M.metadata.take NUM_META_DATA).map fun w => (w : Int))

/-- One call of `fread` for `n` fields: the fields read and the rest of the file;
`none` on a short read. -/
def readN (n : Nat) (file : File) : Option (List Int × File) :=
  if n ≤ file.length then some (file.take n, file.drop n) else none

/-- Expression `m[v]` on a `std::map` used for its side effect only: the key is
created with an empty vector when absent. -/
def mapTouch : Slice → Int → Slice
  | [], v => [(v, [])]
  | (k, is) :: rest, v =>
    if v = k then (k, is) :: rest
    else if v < k then (v, []) :: (k, is) :: rest
    else (k, is) :: mapTouch rest v

/-- Body of the file constructor's loop for one slice, starting from the
container `s` held in `data[i]`.  The keys read are entered with
`data[i][val] = std::vector<indexT>()`.  For every `j < numUnique` the indices
are read and copied with `data[i][j].reserve(numIndices)` and `memcpy`: the
container is indexed by the loop counter `j` as a key, and neither `reserve`
nor `memcpy` changes the `size()` of a `std::vector`. -/
def readSlice (s : Slice) (file : File) : Option (Slice × File) :=
  (readN 1 file).bind fun r0 =>
    let numUnique := (r0.1.headD 0).toNat
    (readN numUnique r0.2).bind fun r1 =>
      let s1 := r1.1.foldl (fun m val => mapAssign m val []) s
      (readN numUnique r1.2).bind fun r2 =>
        (List.range numUnique).foldlM
          (fun (st : Slice × File) j =>
            (readN ((r2.1.getD j 0).toNat) st.2).map fun r3 => (mapTouch st.1 (j : Int), r3.2))
          (s1, r2.2)

/-- Body of the file constructor's loop for slice `i` on the container `data`.
When `numUnique` is 0 neither loop over `j < numUnique` runs and `data[i]` is
not indexed.  Otherwise `data[i]` is indexed; `none` when the container holds
no element at `i`. -/
def readSliceAt (data : List Slice) (i : Nat) (file : File) : Option (List Slice × File) :=
  (readN 1 file).bind fun r0 =>
    if (r0.1.headD 0).toNat = 0 then some (data, r0.2)
    else (data.get? i).bind fun s => (readSlice s file).map fun r => (data.set i r.1, r.2)

/-- File constructor `SparseMatrix(const char* filename)` applied to the content
of the file.  The check of the compression level exists only under
`IVSPARSE_DEBUG`.  `data.reserve(outerDim)` creates no slice. -/
def fileConstructor (p : Params) (f : BuildFlags) (file : File) : Except Failure SparseMatrix :=
  match readN NUM_META_DATA file with
  | none => Except.error Failure.outOfBounds
  | some (words, rest) =>
    let metadata := words.map Int.toNat
    let innerDim := metadata.getD 1 0
    let outerDim := metadata.getD 2 0
    if f.debug && metadata.getD 0 0 != 2 then Except.error Failure.runtimeError
    else
      match (List.range outerDim).foldlM
          (fun (st : List Slice × File) i => readSliceAt st.1 i st.2)
          (reserve [] outerDim, rest) with
      | none => Except.error Failure.outOfBounds
      | some st =>
        Except.ok
          { innerDim := innerDim
            outerDim := outerDim
            numRows := if p.columnMajor then innerDim else outerDim
            numCols := if p.columnMajor then outerDim else innerDim
            nnz := metadata.getD 3 0
            val_t := metadata.getD 4 0
            index_t := metadata.getD 5 0
            metadata := metadata
            data := st.1 }

/-! ## Dense collaborators -/

/-- Modelled from the spec: dense vectors (`Eigen::Matrix<T, -1, 1>`) belong to
the external dense-matrix library.  A dense vector is its size and its
coefficients. -/
structure DenseVector where
  size : Nat
  coeff : Nat → Int

/-- Modelled from the spec: dense matrices (`Eigen::Matrix<T, -1, -1>`) belong to
the external dense-matrix library.  A dense matrix is its shape and its
coefficients. -/
structure DenseMatrix where
  rows : Nat
  cols : Nat
  coeff : Nat → Nat → Int

/-- Value `Eigen::Matrix<T, -1, 1>::Zero(n, 1)`. -/
def DenseVector.zero (n : Nat) : DenseVector := ⟨n, fun _ => 0⟩

/-- Read access `vector(i)`; `none` outside the vector. -/
def DenseVector.read (x : DenseVector) (i : Nat) : Option Int :=
  if i < x.size then some (x.coeff i) else none

/-- Statement `result(i) += d`; `none` outside the vector. -/
def DenseVector.addAt (x : DenseVector) (i : Nat) (d : Int) : Option DenseVector :=
  if i < x.size then some ⟨x.size, fun k => if k = i then x.coeff k + d else x.coeff k⟩
  else none

/-- Value `Eigen::Matrix<T, -1, -1>::Zero(r, c)`. -/
def DenseMatrix.zero (r c : Nat) : DenseMatrix := ⟨r, c, fun _ _ => 0⟩

/-- Read access `mat(r, c)`; `none` outside the matrix. -/
def DenseMatrix.read (B : DenseMatrix) (r c : Nat) : Option Int :=
  if r < B.rows ∧ c < B.cols then some (B.coeff r c) else none

/-- Compound assignment `result(r, c) op= v`, as the update of one coefficient by
`f`; `none` outside the matrix. -/
def DenseMatrix.modifyAt (B : DenseMatrix) (r c : Nat) (f : Int → Int) : Option DenseMatrix :=
  if r < B.rows ∧ c < B.cols then
    some ⟨B.rows, B.cols, fun r' c' => if r' = r ∧ c' = c then f (B.coeff r' c') else B.coeff r' c'⟩
  else none

/-- Column `c` of a dense matrix as a dense vector. -/
def DenseMatrix.column (B : DenseMatrix) (c : Nat) : DenseVector := ⟨B.rows, fun r => B.coeff r c⟩

/-- Statement `result(it.row()) += it.value() * vector(j)` of
`IVSparse_fair_spmv`. -/
def spmvStep (columnMajor : Bool) (vector : DenseVector) (j : Nat) (result : DenseVector)
    (e : Nat × Int) : Option DenseVector :=
  (vector.read j).bind fun xj => result.addAt (itRow columnMajor j e.1) (e.2 * xj)

/-- Function `IVSparse_fair_spmv(matrix, vector)` of the benchmark: the result
starts as `Zero(matrix.rows(), 1)`; for every `j < matrix.outerSize()` and every
emission of slice `j` the statement of `spmvStep` runs.  The parameter type
`IVSparse::SparseMatrix<T, indexType, compressionLevel>` leaves the orientation
to its default; the body is kept for either orientation of the iterator. -/
def IVSparse_fair_spmv (p : Params) (matrix : SparseMatrix) (vector : DenseVector) :
    Option DenseVector :=
  (List.range matrix.outerDim).foldlM
    (fun result j =>
      (matrix.data.get? j).bind fun s =>
        (iterate s).foldlM (spmvStep p.columnMajor vector j) result)
    (DenseVector.zero matrix.numRows)

/-- Statement `result.coeffRef(matIter.row(), col) += matIter.value() * rightMat(row, col)`
of `IVSparse_fair_spmm`. -/
def spmmStep (columnMajor : Bool) (rightMat : DenseMatrix) (col row : Nat)
    (result : DenseMatrix) (e : Nat × Int) : Option DenseMatrix :=
  (rightMat.read row col).bind fun b =>
    result.modifyAt (itRow columnMajor row e.1) col (fun d => d + e.2 * b)

/-- Function `IVSparse_fair_spmm(leftMat, rightMat)` of the benchmark: the result
starts as `Zero(leftMat.rows(), rightMat.cols())`; for every
`col < rightMat.cols()`, every `row < rightMat.rows()` and every emission of
slice `row` of `leftMat` the statement of `spmmStep` runs. -/
def IVSparse_fair_spmm (p : Params) (leftMat : SparseMatrix) (rightMat : DenseMatrix) :
    Option DenseMatrix :=
  (List.range rightMat.cols).foldlM
    (fun result col =>
      (List.range rightMat.rows).foldlM
        (fun result row =>
          (leftMat.data.get? row).bind fun s =>
            (iterate s).foldlM (spmmStep p.columnMajor rightMat col row) result)
        result)
    (DenseMatrix.zero leftMat.numRows rightMat.cols)

/-! ## Dense with sparse, coefficient by coefficient -/

/-- Loop shared by the operators of `Matrix_Extension.hpp` on a `VCSC` argument:
`result = *this`, then for every `i < mat.cols()` and every emission of slice
`i`, `result(it.row(), it.col()) op= it.value()`.  With `IVSPARSE_HAS_OPENMP`
the outer loop is an `omp parallel for`; the sequential schedule is embedded. -/
def applyStored (op : Int → Int → Int) (p : Params) (D : DenseMatrix) (mat : SparseMatrix) :
    Option DenseMatrix :=
  (List.range mat.numCols).foldlM
    (fun result i =>
      (mat.data.get? i).bind fun s =>
        (iterate s).foldlM
          (fun result e =>
            result.modifyAt (itRow p.columnMajor i e.1) (itCol p.columnMajor i e.1)
              (fun d => op d e.2))
          result)
    D

/-- Operator `operator+(IVSparse::VCSC<T, indexT, columnMajor>& mat)`. -/
def operatorPlus (p : Params) (D : DenseMatrix) (mat : SparseMatrix) : Option DenseMatrix :=
  applyStored (fun d v => d + v) p D mat

/-- Operator `operator-(IVSparse::VCSC<T, indexT, columnMajor>& mat)`. -/
def operatorMinus (p : Params) (D : DenseMatrix) (mat : SparseMatrix) : Option DenseMatrix :=
  applyStored (fun d v => d - v) p D mat

/-- Operator `operator*(IVSparse::VCSC<T, indexT, columnMajor>& mat)`. -/
def operatorTimes (p : Params) (D : DenseMatrix) (mat : SparseMatrix) : Option DenseMatrix :=
  applyStored (fun d v => d * v) p D mat

/-! ## Coordinate-triplet constructor under the build flags -/

/-- Constructor from coordinate triplets with its first statement: under
`IVSPARSE_DEBUG`, `assert(num_rows > 0 && num_cols > 0 && nnz > 0)`.  The call
`userChecks()` that ends the constructor under `IVSPARSE_DEBUG` is outside the
sources and is not modelled. -/
def cooConstructorChecked (f : BuildFlags) (p : Params) (entries : List Entry)
    (num_rows num_cols nnz : Nat) : Except Failure SparseMatrix :=
  if f.debug && f.asserts && !(decide (num_rows > 0) && decide (num_cols > 0) && decide (nnz > 0))
  then Except.error Failure.assertion
  else
    match cooConstructor p entries num_rows num_cols nnz with
    | none => Except.error Failure.outOfBounds
    | some M => Except.ok M

/-! ## Conversion to the level-3 format -/

/-- Statement `dict[i][index] = value` on a `std::map<indexT, T>`, the list of
its entries in ascending key order. -/
def indexAssign : List (Nat × Int) → Nat → Int → List (Nat × Int)
  | [], i, v => [(i, v)]
  | (k, old) :: rest, i, v =>
    if i = k then (k, v) :: rest
    else if i < k then (i, v) :: (k, old) :: rest
    else (k, old) :: indexAssign rest i v

/-- Content of `dict[i]` after the iteration over slice `s`. -/
def indexDict (s : Slice) : List (Nat × Int) :=
  (iterate s).foldl (fun d e => indexAssign d e.1 e.2) []

/-- Arguments of the call of the level-3 constructor that ends `toIVCSC`:
`mat(values, indices, colPtrs, numRows, numCols, nnz)`.  `values` and `indices`
hold the entries written by the second loop. -/
structure CSCArrays where
  values : List Int
  indices : List Nat
  colPtrs : List Nat
  numRows : Nat
  numCols : Nat
  nnz : Nat
deriving DecidableEq, Repr

/-- Body of the first loop of `toIVCSC` for the slice `s` of index `i`: the
emissions are entered in `dict[i]` and counted, then
`colPtrs[i + 1] = colPtrs[i] + count`.  `colPtrs` is an array of `indexT`: the
sum is kept as the bit pattern stored (`wrapIndex`), which is the pointer itself
for a signed and for an unsigned `indexT` as long as it is below `indexLimit`. -/
def toIVCSCStep (p : Params) (st : List Nat × List (List (Nat × Int))) (s : Slice) :
    List Nat × List (List (Nat × Int)) :=
  (st.1 ++ [wrapIndex p (st.1.getLastD 0 + (iterate s).length)], st.2 ++ [indexDict s])

/-- Method `toIVCSC()` up to the call of the level-3 constructor, which is
outside the sources: the arrays and dimensions handed to it.  `colPtrs[0] = 0`;
the second loop writes the entries of `dict[0]`, `dict[1]`, ... in order into
`values` and `indices`, both allocated for `nnz` entries.  `none` when a slice
is missing or an entry is written past the allocation. -/
def toIVCSC (p : Params) (M : SparseMatrix) : Option CSCArrays :=
  ((List.range M.outerDim).foldlM
      (fun st i => (M.data.get? i).map (toIVCSCStep p st)) ([0], [])).bind fun st =>
    if st.2.flatten.length ≤ M.nnz then
      some
        { values := st.2.flatten.map Prod.snd
          indices := st.2.flatten.map Prod.fst
          colPtrs := st.1
          numRows := M.numRows
          numCols := M.numCols
          nnz := M.nnz }
    else none

/-! ## Constructors from Eigen matrices, raw CSC arrays and lists of vectors -/

/-- What the constructors read from an `Eigen::SparseMatrix` before they hand
its arrays to `compressCSC`. -/
structure EigenSparse where
  rows : Nat
  cols : Nat
  nonZeros : Nat
deriving DecidableEq, Repr

/-- Constructor `SparseMatrix(Eigen::SparseMatrix<T>& mat)`.  It assigns the
dimensions and `nnz` and ends with the call of `compressCSC`, which is outside
the sources and enters as the parameter `compressCSC`, applied to the members
as they are at the call; `start` holds the members before the body runs. -/
def eigenConstructor (p : Params) (compressCSC : SparseMatrix → SparseMatrix)
    (start : SparseMatrix) (mat : EigenSparse) : SparseMatrix :=
  let M1 := { start with numRows := wrap32 mat.rows, numCols := wrap32 mat.cols }
  let M2 := { M1 with outerDim := if p.columnMajor then M1.numCols else M1.numRows }
  let M3 := { M2 with innerDim := if p.columnMajor then M2.numRows else M2.numCols }
  compressCSC { M3 with nnz := wrap32 mat.nonZeros }

/-- Constructor `SparseMatrix(Eigen::SparseMatrix<T, Eigen::RowMajor>& mat)`:
`outerDim = numRows; innerDim = numCols;` whatever the template parameter
`columnMajor`. -/
def eigenRowMajorConstructor (compressCSC : SparseMatrix → SparseMatrix)
    (start : SparseMatrix) (mat : EigenSparse) : SparseMatrix :=
  let M1 := { start with numRows := wrap32 mat.rows, numCols := wrap32 mat.cols }
  compressCSC { M1 with outerDim := M1.numRows, innerDim := M1.numCols,
                        nnz := wrap32 mat.nonZeros }

/-- Raw CSC constructor
`SparseMatrix(vals, innerIndices, outerPtr, num_rows, num_cols, nnz)` with
non-null pointers: the assertion on the dimensions under `IVSPARSE_DEBUG`, the
assignments, then `compressCSC`. -/
def rawCSCConstructor (f : BuildFlags) (p : Params) (compressCSC : SparseMatrix → SparseMatrix)
    (start : SparseMatrix) (num_rows num_cols nnz : Nat) : Except Failure SparseMatrix :=
  if f.debug && f.asserts && !(decide (num_rows > 0) && decide (num_cols > 0) && decide (nnz > 0))
  then Except.error Failure.assertion
  else
    Except.ok (compressCSC
      { start with
        innerDim := if p.columnMajor then num_rows else num_cols
        outerDim := if p.columnMajor then num_cols else num_rows
        numRows := num_rows
        numCols := num_cols
        nnz := nnz })

/-- One call `temp.append(vecs[i])` of the array of vectors constructor: a
failure raised by `append` ends the construction. -/
def appendStep (p : Params) (f : BuildFlags) (M : SparseMatrix) (vec : Vector) :
    Except Failure SparseMatrix :=
  match append p f M vec with
  | (M1, none) => Except.ok M1
  | (_, some e) => Except.error e

/-- Array of vectors constructor `SparseMatrix(std::vector<Vector>& vecs)`:
`temp(vecs[0])`, then `temp.append(vecs[i])` for `i = 1 .. vecs.size() - 1`, then
`*this = temp`.  Reading `vecs[0]` of an empty list is outside the container. -/
def vectorsConstructor (p : Params) (f : BuildFlags) (vecs : List Vector) :
    Except Failure SparseMatrix :=
  match vecs with
  | [] => Except.error Failure.outOfBounds
  | v :: rest => rest.foldlM (appendStep p f) (vectorConstructor p v)

/-! ## Observers -/

/-- Slice `i` of a slice array, empty outside the array. -/
def sliceAt (data : List Slice) (i : Nat) : Slice := data.getD i []

/-- The matrix stores `v` at `(r, c)`: the slice of the outer coordinate lists
the inner coordinate under `v`. -/
def stores (p : Params) (M : SparseMatrix) (r c : Nat) (v : Int) : Bool :=
  if p.columnMajor then lists (sliceAt M.data c) v r else lists (sliceAt M.data r) v c

/-- Emissions `(it.row(), it.col(), it.value())` of the loop used throughout the
sources: `for i < outerDim`, `for (InnerIterator it(*this, i); it; ++it)`. -/
def triplets (p : Params) (M : SparseMatrix) : List (Nat × Nat × Int) :=
  (List.range M.outerDim).flatMap fun o =>
    (iterate (sliceAt M.data o)).map fun e =>
      (itRow p.columnMajor o e.1, itCol p.columnMajor o e.1, e.2)

/-- Modelled from the spec: `sum()` is declared outside the sources; it is the
sum of the values emitted by iterating every slice. -/
def sum (M : SparseMatrix) : Int :=
  ((List.range M.outerDim).flatMap fun o => (iterate (sliceAt M.data o)).map Prod.snd).sum

/-- The 2x3 column-major matrix with triplets `(0,0,1)`, `(0,2,2)`, `(1,1,3)`. -/
def exampleParams : Params := ⟨true, 0, 4, 0⟩

/-- The 2x3 column-major matrix with triplets `(0,0,1)`, `(0,2,2)`, `(1,1,3)`. -/
def example2x3 : SparseMatrix :=
  { innerDim := 2, outerDim := 3, numRows := 2, numCols := 3, nnz := 3, val_t := 0, index_t := 4
    metadata := [2, 2, 3, 3, 0, 4]
    data := [[(1, [0])], [(3, [1])], [(2, [0])]] }

/-- The 1x1 column-major matrix holding the value 5 at `(0, 0)`. -/
def example1x1 : SparseMatrix :=
  { innerDim := 1, outerDim := 1, numRows := 1, numCols := 1, nnz := 1, val_t := 0, index_t := 4
    metadata := [2, 1, 1, 1, 0, 4]
    data := [[(5, [0])]] }

/-- A vector of length 2 without non-zeros. -/
def emptyVector2 : Vector := { getLength := 2, nonZeros := 0, byteSize := 0, data := [] }

/-- A vector of length 5 holding the value 7 at index 4. -/
def longVector5 : Vector := { getLength := 5, nonZeros := 1, byteSize := 12, data := [(7, [4])] }

/-- Parameters of a row-major matrix type. -/
def rowMajorParams : Params := ⟨false, 0, 4, 0⟩

/-- The row-major 2x1 matrix holding the value 5 at `(1, 0)`. -/
def exampleRowMajor2x1 : SparseMatrix :=
  { innerDim := 1, outerDim := 2, numRows := 2, numCols := 1, nnz := 1, val_t := 0, index_t := 4
    metadata := [2, 1, 2, 1, 0, 4]
    data := [[], [(5, [0])]] }

/-- The dense vector `(1, 2, 3)`. -/
def exampleVector123 : DenseVector := ⟨3, fun k => (k : Int) + 1⟩

/-- The dense matrix of the given shape with every coefficient equal to 2. -/
def exampleDense (r c : Nat) : DenseMatrix := ⟨r, c, fun _ _ => 2⟩

/-- The dense 3x2 matrix with coefficient `r + 10 * c + 1` at `(r, c)`. -/
def exampleDense3x2 : DenseMatrix := ⟨3, 2, fun r c => (r : Int) + 10 * (c : Int) + 1⟩

/-- The header mirrors the fields: it is `[2, innerDim, outerDim, nnz, val_t,
index_t]` for the current content of the members. -/
def headerMirrors (M : SparseMatrix) : Bool :=
  M.metadata == [2, M.innerDim, M.outerDim, M.nnz, M.val_t, M.index_t]

/-- A vector of length 2 holding the value 7 at index 1. -/
def exampleVector2 : Vector := { getLength := 2, nonZeros := 1, byteSize := 12, data := [(7, [1])] }

/-- A vector of length 2 holding the value 9 at index 0. -/
def otherVector2 : Vector := { getLength := 2, nonZeros := 1, byteSize := 12, data := [(9, [0])] }

/-- A 2x1 column-major content in which the inner index 0 is listed under the
values 1 and 2. -/
def exampleRepeatedIndex : SparseMatrix :=
  { innerDim := 2, outerDim := 1, numRows := 2, numCols := 1, nnz := 2, val_t := 0, index_t := 4
    metadata := [2, 2, 1, 2, 0, 4]
    data := [[(1, [0]), (2, [0])]] }

/-- Parameters of a column-major matrix type with one-byte unsigned indices
(`uint8_t`). -/
def byteIndexParams : Params := ⟨true, 0, 1, 0⟩

/-- The 256x1 column-major matrix holding the value 7 in every row. -/
def exampleColumn256 : SparseMatrix :=
  { innerDim := 256, outerDim := 1, numRows := 256, numCols := 1, nnz := 256, val_t := 0
    index_t := 1
    metadata := [2, 256, 1, 256, 0, 1]
    data := [[(7, List.range 256)]] }

/-- Emissions `(outer, index, value)` of consecutive slices, the first one having
outer index `k`. -/
def emitFrom : Nat → List Slice → List (Nat × Nat × Int)
  | _, [] => []
  | k, s :: rest => (iterate s).map (fun e => (k, e.1, e.2)) ++ emitFrom (k + 1) rest

/-- Every index stored in the slice is below `n`. -/
def indicesBelow (n : Nat) (s : Slice) : Bool :=
  s.all fun e => e.2.all fun i => decide (i < n)

/-- Data-model invariant read by the loops: one stored slice per outer index and
every stored inner index below `innerDim`. -/
def wellFormed (M : SparseMatrix) : Bool :=
  (M.data.length == M.outerDim) && M.data.all (indicesBelow M.innerDim)

/-- Orientation invariant of the dimension fields: outer is columns for a
column-major matrix and rows for a row-major one. -/
def oriented (p : Params) (M : SparseMatrix) : Bool :=
  if p.columnMajor then M.innerDim == M.numRows && M.outerDim == M.numCols
  else M.innerDim == M.numCols && M.outerDim == M.numRows

/-! ## Order of the stored lists -/

theorem lists_iff (s : Slice) (v : Int) (i : Nat) :
    lists s v i = true ↔ ∃ is, (v, is) ∈ s ∧ i ∈ is := by
  simp only [lists, List.any_eq_true, Bool.and_eq_true, beq_iff_eq, List.contains_iff_exists_mem_beq]
  constructor
  · rintro ⟨⟨k, is⟩, hmem, hk, j, hj, hij⟩
    simp only at hk
    subst hk
    exact ⟨is, hmem, by rw [hij]; exact hj⟩
  · rintro ⟨is, hmem, hi⟩
    exact ⟨(v, is), hmem, rfl, i, hi, rfl⟩

theorem lists_cons (e : Int × List Nat) (s : Slice) (v : Int) (i : Nat) :
    lists (e :: s) v i = ((e.1 == v && e.2.contains i) || lists s v i) := by
  simp [lists]

theorem lists_mapPushBack (m : Slice) (v : Int) (o : Nat) (v' : Int) (o' : Nat) :
    lists (mapPushBack m v o) v' o' = true ↔ (lists m v' o' = true ∨ (v' = v ∧ o' = o)) := by
  induction m with
  | nil =>
    simp [mapPushBack, lists]
    intro _
    exact eq_comm
  | cons e rest ih =>
    obtain ⟨k, is⟩ := e
    unfold mapPushBack
    split_ifs with h1 h2
    · subst h1
      simp only [lists_cons, Bool.or_eq_true, Bool.and_eq_true, beq_iff_eq, List.contains_iff_exists_mem_beq,
        List.mem_append, List.mem_singleton]
      constructor
      · rintro (⟨hv, j, hj, hij⟩ | h)
        · rcases hj with hj | hj
          · exact Or.inl (Or.inl ⟨hv, j, hj, hij⟩)
          · subst hj; exact Or.inr ⟨hv.symm, hij⟩
        · exact Or.inl (Or.inr h)
      · rintro ((⟨hv, j, hj, hij⟩ | h) | ⟨hv, ho⟩)
        · exact Or.inl ⟨hv, j, Or.inl hj, hij⟩
        · exact Or.inr h
        · exact Or.inl ⟨hv.symm, o, Or.inr rfl, ho⟩
    · simp only [lists_cons, Bool.or_eq_true, Bool.and_eq_true, beq_iff_eq, List.contains_iff_exists_mem_beq,
        List.mem_singleton]
      constructor
      · rintro (⟨hv, j, hj, hij⟩ | h)
        · subst hj; exact Or.inr ⟨hv.symm, hij⟩
        · exact Or.inl h
      · rintro (h | ⟨hv, ho⟩)
        · exact Or.inr h
        · exact Or.inl ⟨hv.symm, o, rfl, ho⟩
    · rw [lists_cons, lists_cons]
      simp only [Bool.or_eq_true]
      rw [ih]
      tauto

theorem mem_iterate (s : Slice) (i : Nat) (v : Int) :
    (i, v) ∈ iterate s ↔ lists s v i = true := by
  rw [lists_iff]
  simp only [iterate, List.mem_flatMap, List.mem_map, Prod.mk.injEq]
  constructor
  · rintro ⟨⟨k, is⟩, hmem, j, hj, hji, hk⟩
    simp only at hk hji
    subst hk hji
    exact ⟨is, hmem, hj⟩
  · rintro ⟨is, hmem, hi⟩
    exact ⟨(v, is), hmem, i, hi, rfl, rfl⟩

theorem sliceAt_set (data : List Slice) (i j : Nat) (s : Slice) (h : i < data.length) :
    sliceAt (data.set i s) j = if i = j then s else sliceAt data j := by
  unfold sliceAt
  rw [List.getD_eq_getElem?_getD, List.getD_eq_getElem?_getD, List.getElem?_set]
  split_ifs <;> simp_all

theorem sliceAt_replicate (n j : Nat) : sliceAt (List.replicate n []) j = [] := by
  unfold sliceAt
  rw [List.getD_eq_getElem?_getD, List.getElem?_replicate]
  split_ifs <;> rfl

theorem indexLimit_le (p : Params) : indexLimit p ≤ 2 ^ (8 * p.index_t) :=
  Nat.pow_le_pow_right (by norm_num) (Nat.sub_le _ _)

theorem iterate_lt_of_indicesBelow (n : Nat) (s : Slice) (h : indicesBelow n s = true) :
    ∀ e ∈ iterate s, e.1 < n := by
  intro e he
  simp only [iterate, List.mem_flatMap, List.mem_map] at he
  obtain ⟨en, hen, i, hi, rfl⟩ := he
  simp only [indicesBelow, List.all_eq_true, decide_eq_true_eq] at h
  exact h en hen i hi

theorem sliceAt_append_length (pre : List Slice) (s : Slice) (rest : List Slice) :
    sliceAt (pre ++ s :: rest) pre.length = s := by
  unfold sliceAt
  rw [List.getD_append_right _ _ _ _ (Nat.le_refl _)]
  simp

theorem flatMap_range'_eq_emitFrom {β : Type} (f : Nat → Nat × Int → β) (data : List Slice) :
    ∀ pre : List Slice,
      (List.range' pre.length data.length).flatMap
          (fun o => (iterate (sliceAt (pre ++ data) o)).map (f o))
        = (emitFrom pre.length data).map (fun t => f t.1 (t.2.1, t.2.2)) := by
  induction data with
  | nil => intro pre; rfl
  | cons s rest ih =>
    intro pre
    have h := ih (pre ++ [s])
    rw [List.length_append, List.length_singleton, ← List.append_cons] at h
    rw [List.length_cons, List.range'_succ, List.flatMap_cons, sliceAt_append_length, h]
    simp [emitFrom, Function.comp_def]

theorem flatMap_range_eq_emitFrom {β : Type} (f : Nat → Nat × Int → β) (data : List Slice) :
    (List.range data.length).flatMap (fun o => (iterate (sliceAt data o)).map (f o))
      = (emitFrom 0 data).map (fun t => f t.1 (t.2.1, t.2.2)) := by
  have h := flatMap_range'_eq_emitFrom f data []
  simpa [List.range_eq_range'] using h

theorem iterate_cons (e : Int × List Nat) (s : Slice) :
    iterate (e :: s) = e.2.map (fun i => (i, e.1)) ++ iterate s := by
  simp [iterate]

theorem iterate_mapPushBack_perm (m : Slice) (v : Int) (o : Nat) :
    (iterate (mapPushBack m v o)).Perm ((o, v) :: iterate m) := by
  induction m with
  | nil => simp [mapPushBack, iterate]
  | cons e rest ih =>
    obtain ⟨k, is⟩ := e
    unfold mapPushBack
    split_ifs with h1 h2
    · subst h1
      rw [iterate_cons, iterate_cons]
      simp only [List.map_append, List.map_cons, List.map_nil, List.append_assoc,
        List.singleton_append]
      exact List.perm_middle
    · rw [iterate_cons]
      simp
    · rw [iterate_cons, iterate_cons]
      exact (List.Perm.append_left _ ih).trans List.perm_middle

theorem emitFrom_set_perm (s' : Slice) (x : Nat × Int) :
    ∀ (data : List Slice) (k i : Nat) (h : i < data.length),
      (iterate s').Perm (x :: iterate (data.get ⟨i, h⟩)) →
      (emitFrom k (data.set i s')).Perm ((k + i, x.1, x.2) :: emitFrom k data) := by
  intro data
  induction data with
  | nil => intro k i h; exact absurd h (Nat.not_lt_zero _)
  | cons s rest ih =>
    intro k i h hx
    cases i with
    | zero =>
      simp only [List.set_cons_zero, emitFrom, Nat.add_zero]
      have h1 := (hx.map (fun e : Nat × Int => (k, e.1, e.2))).append_right (emitFrom (k + 1) rest)
      simpa using h1
    | succ i =>
      simp only [List.set_cons_succ, emitFrom]
      have h1 := ih (k + 1) i (Nat.lt_of_succ_lt_succ h) hx
      have h2 := (List.Perm.append_left ((iterate s).map (fun e => (k, e.1, e.2))) h1).trans
        List.perm_middle
      have he : k + 1 + i = k + (i + 1) := by omega
      rw [he] at h2
      exact h2

theorem oriented_dims (p : Params) (M : SparseMatrix) (h : oriented p M = true) :
    (if p.columnMajor then M.numRows else M.numCols) = M.innerDim ∧
      (if p.columnMajor then M.numCols else M.numRows) = M.outerDim := by
  unfold oriented at h
  cases hp : p.columnMajor <;> rw [hp] at h <;>
    simp only [Bool.false_eq_true, if_false, if_true, Bool.and_eq_true, beq_iff_eq] at h ⊢ <;>
    exact ⟨h.1.symm, h.2.symm⟩

theorem triplets_eq_emitFrom (p : Params) (M : SparseMatrix)
    (hlen : M.data.length = M.outerDim) :
    triplets p M = (emitFrom 0 M.data).map
      (fun t => (itRow p.columnMajor t.1 t.2.1, itCol p.columnMajor t.1 t.2.1, t.2.2)) := by
  unfold triplets
  rw [← hlen]
  exact flatMap_range_eq_emitFrom
    (fun o e => (itRow p.columnMajor o e.1, itCol p.columnMajor o e.1, e.2)) M.data

theorem iterate_mapAssign_perm (m : Slice) (v : Int) (o : Nat)
    (h : mapContains m v = false) :
    (iterate (mapAssign m v [o])).Perm ((o, v) :: iterate m) := by
  induction m with
  | nil => simp [mapAssign, iterate]
  | cons e rest ih =>
    obtain ⟨k, is⟩ := e
    have hk : ¬ v = k := by
      intro hvk
      simp [mapContains, hvk] at h
    have hrest : mapContains rest v = false := by
      simp only [mapContains, List.any_cons, Bool.or_eq_false_iff] at h
      exact h.2
    unfold mapAssign
    rw [if_neg hk]
    split_ifs with h2
    · rw [iterate_cons]
      simp
    · rw [iterate_cons, iterate_cons]
      exact (List.Perm.append_left _ (ih hrest)).trans List.perm_middle

theorem cooInsert_spec (data : List Slice) (e : Entry) (h : e.2.1 < data.length) :
    ∃ data', cooInsert data e = some data' ∧ data'.length = data.length ∧
      (emitFrom 0 data').Perm ((e.2.1, e.1, e.2.2) :: emitFrom 0 data) := by
  unfold cooInsert
  rw [dif_pos h]
  cases hc : mapContains (data.get ⟨e.2.1, h⟩) e.2.2
  · simp only [Bool.false_eq_true, if_false]
    refine ⟨_, rfl, List.length_set _ _ _, ?_⟩
    have h1 := emitFrom_set_perm (mapAssign (data.get ⟨e.2.1, h⟩) e.2.2 [e.1]) (e.1, e.2.2)
      data 0 e.2.1 h (iterate_mapAssign_perm _ _ _ hc)
    simpa using h1
  · simp only [if_true]
    refine ⟨_, rfl, List.length_set _ _ _, ?_⟩
    have h1 := emitFrom_set_perm (mapPushBack (data.get ⟨e.2.1, h⟩) e.2.2 e.1) (e.1, e.2.2)
      data 0 e.2.1 h (iterate_mapPushBack_perm _ _ _)
    simpa using h1

theorem foldlM_cooInsert (es : List Entry) :
    ∀ data : List Slice, (∀ e ∈ es, e.2.1 < data.length) →
      ∃ data', es.foldlM cooInsert data = some data' ∧ data'.length = data.length ∧
        (emitFrom 0 data').Perm (es.map (fun e => (e.2.1, e.1, e.2.2)) ++ emitFrom 0 data) := by
  induction es with
  | nil => intro data _; exact ⟨data, rfl, rfl, by simp⟩
  | cons e rest ih =>
    intro data hb
    obtain ⟨d1, h1, hlen1, hp1⟩ := cooInsert_spec data e (hb e (List.mem_cons_self _ _))
    obtain ⟨d2, h2, hlen2, hp2⟩ := ih d1 (fun x hx => by
      rw [hlen1]; exact hb x (List.mem_cons_of_mem _ hx))
    refine ⟨d2, ?_, by rw [hlen2, hlen1], ?_⟩
    · rw [List.foldlM_cons, h1]; exact h2
    · refine hp2.trans ?_
      rw [List.map_cons]
      exact (List.Perm.append_left _ hp1).trans List.perm_middle

theorem foldlM_range'_get? {σ α : Type} (f : σ → α → Option σ) (l : List α) :
    ∀ (pre : List α) (init : σ),
      (List.range' pre.length l.length).foldlM
          (fun acc i => ((pre ++ l).get? i).bind (f acc)) init
        = l.foldlM f init := by
  induction l with
  | nil => intro pre init; rfl
  | cons x rest ih =>
    intro pre init
    have h := ih (pre ++ [x])
    rw [List.length_append, List.length_singleton, ← List.append_cons] at h
    rw [List.length_cons, List.range'_succ, List.foldlM_cons, List.foldlM_cons]
    have hx : (pre ++ x :: rest).get? pre.length = some x := by
      rw [List.get?_eq_getElem?, List.getElem?_append_right (Nat.le_refl _)]
      simp
    rw [hx, Option.some_bind]
    cases hf : f init x with
    | none => rfl
    | some a => exact h a

theorem foldlM_range_get? {σ α : Type} (f : σ → α → Option σ) (l : List α) (init : σ) :
    (List.range l.length).foldlM (fun acc i => (l.get? i).bind (f acc)) init
      = l.foldlM f init := by
  have h := foldlM_range'_get? f l [] init
  simpa [List.range_eq_range'] using h

theorem reserve_eq (data : List Slice) (n : Nat) : reserve data n = data := rfl

theorem foldlM_cooInsert_none (es : List Entry) :
    ∀ data : List Slice, (∃ e ∈ es, data.length ≤ e.2.1) → es.foldlM cooInsert data = none := by
  induction es with
  | nil => intro data h; obtain ⟨e, he, _⟩ := h; exact absurd he (List.not_mem_nil e)
  | cons e rest ih =>
    intro data h
    rw [List.foldlM_cons]
    by_cases hlt : e.2.1 < data.length
    · obtain ⟨d1, h1, hlen1, _⟩ := cooInsert_spec data e hlt
      rw [h1]
      obtain ⟨x, hx, hxl⟩ := h
      rcases List.mem_cons.mp hx with rfl | hx'
      · exact absurd hlt (Nat.not_lt.mpr hxl)
      · exact ih d1 ⟨x, hx', by rw [hlen1]; exact hxl⟩
    · have h1 : cooInsert data e = none := by
        unfold cooInsert
        rw [dif_neg hlt]
      rw [h1]
      rfl

theorem foldlM_range_first_none {σ : Type} (f : σ → Nat → Option σ) (init : σ) (n : Nat)
    (hn : 0 < n) (h0 : f init 0 = none) : (List.range n).foldlM f init = none := by
  obtain ⟨k, rfl⟩ : ∃ k, n = k + 1 := ⟨n - 1, by omega⟩
  rw [List.range_succ_eq_map, List.foldlM_cons, h0]
  rfl

theorem cooConstructor_none (p : Params) (entries : List Entry) (num_rows num_cols nnz : Nat)
    (hn : 0 < nnz) : cooConstructor p entries num_rows num_cols nnz = none := by
  have h0 : ((sortEntries entries).get? 0).bind
      (cooInsert (reserve [] (if p.columnMajor then num_cols else wrap32 num_rows))) = none := by
    cases (sortEntries entries).get? 0 with
    | none => rfl
    | some e => simp [reserve, cooInsert]
  simp only [cooConstructor]
  rw [foldlM_range_first_none _ _ nnz hn h0]
  rfl

theorem cooConstructor_zero (p : Params) (entries : List Entry) (num_rows num_cols : Nat) :
    cooConstructor p entries num_rows num_cols 0
      = some
        { innerDim := if p.columnMajor then wrap32 num_rows else num_cols
          outerDim := if p.columnMajor then num_cols else wrap32 num_rows
          numRows := wrap32 num_rows
          numCols := num_cols
          nnz := 0
          val_t := p.val_t
          index_t := p.index_t
          metadata := [2, if p.columnMajor then wrap32 num_rows else num_cols,
            if p.columnMajor then num_cols else wrap32 num_rows, 0, p.val_t, p.index_t]
          data := [] } := by
  simp [cooConstructor, reserve]

/-- C2: for the triplets `(0,2,2)`, `(1,1,3)`, `(0,0,1)` of a 2x3 column-major
matrix the constructor builds no matrix.  `data.reserve(3)` leaves the container
without element, so the first step of the loop, `data[0]` for the sorted triplet
`(0,0,1)`, lies outside the container; the same holds for every call with
`nnz > 0`. -/
theorem cooConstructor_triplets_no_result :
    reserve [] 3 = [] ∧
    sortEntries [((0, 2, 2) : Entry), (1, 1, 3), (0, 0, 1)] = [(0, 0, 1), (1, 1, 3), (0, 2, 2)] ∧
    cooInsert (reserve [] 3) (0, 0, 1) = none ∧
    cooConstructor exampleParams [(0, 2, 2), (1, 1, 3), (0, 0, 1)] 2 3 3 = none ∧
    ∀ (p : Params) (entries : List Entry) (num_rows num_cols nnz : Nat), 0 < nnz →
      cooConstructor p entries num_rows num_cols nnz = none :=
  ⟨rfl, by decide, rfl, cooConstructor_none _ _ _ _ _ (by decide),
    fun p entries r c n hn => cooConstructor_none p entries r c n hn⟩

/-! ## Evaluations of the transpose constructor, the file constructor, the
in-place transpose and append -/

/-- C6: the private transpose constructor never assigns `nnz`.  For a
column-major type, whatever the other parameters, the transposes of the 2x3
example (`nnz = 3`, three emissions) and of the 1x1 example (`nnz = 1`) both
carry the initial content of the member in the `nnz` field and in header
word 3. -/
theorem transpose_nnz_not_counted (val_t index_t nnzInit : Nat) :
    (∃ Mt, transpose ⟨true, val_t, index_t, nnzInit⟩ example2x3 = some Mt ∧
      Mt.nnz = nnzInit ∧ Mt.metadata.get? 3 = some nnzInit ∧
      (triplets ⟨true, val_t, index_t, nnzInit⟩ Mt).length = 3) ∧
    example2x3.nnz = 3 ∧
    (∃ Mt, transpose ⟨true, val_t, index_t, nnzInit⟩ example1x1 = some Mt ∧
      Mt.nnz = nnzInit ∧ Mt.metadata.get? 3 = some nnzInit ∧
      (triplets ⟨true, val_t, index_t, nnzInit⟩ Mt).length = 1) ∧
    example1x1.nnz = 1 :=
  ⟨⟨_, rfl, rfl, rfl, rfl⟩, rfl, ⟨_, rfl, rfl, rfl, rfl⟩, rfl⟩

/-- C3: the file written for the 1x1 matrix holding 5 at `(0, 0)` is not read
back, under either setting of the build flags: `data.reserve(1)` creates no
slice and the store `data[0][5] = ...` lies outside the container.  The body of
the loop does not restore the slice either: applied to an existing empty slice
and the fields `1, 5, 1, 0` of the file it leaves two keys (the value 5 and the
loop counter 0), both with an empty index vector, so that the slice emits
nothing. -/
theorem file_roundtrip_loses_indices :
    write exampleParams example1x1 = some [2, 1, 1, 1, 0, 4, 1, 5, 1, 0] ∧
    (∀ f : BuildFlags, fileConstructor exampleParams f [2, 1, 1, 1, 0, 4, 1, 5, 1, 0]
      = Except.error Failure.outOfBounds) ∧
    triplets exampleParams example1x1 = [(0, 0, 5)] ∧
    (readSlice [] [1, 5, 1, 0]).map (fun r => (r.1.map Prod.snd, iterate r.1, r.2))
      = some ([[], []], [], []) := by
  refine ⟨by decide, ?_, by decide, by decide⟩
  intro f
  obtain ⟨d, a⟩ := f
  cases d <;> cases a <;> rfl

/-- C8: on the 2x3 example `inPlaceTranspose` leaves `numRows = 3` and
`numCols = 3`, while `transpose` returns a matrix with `numRows = 3` and
`numCols = 2`; slices, `innerDim` and `outerDim` agree. -/
theorem inPlaceTranspose_cols_not_swapped :
    (inPlaceTranspose exampleParams example2x3).map
        (fun M => (M.numRows, M.numCols, M.innerDim, M.outerDim, M.data))
      = some (3, 3, 3, 2, [[(1, [0]), (2, [2])], [(3, [1])]]) ∧
    (transpose exampleParams example2x3).map
        (fun M => (M.numRows, M.numCols, M.innerDim, M.outerDim, M.data))
      = some (3, 2, 3, 2, [[(1, [0]), (2, [2])], [(3, [1])]]) :=
  ⟨rfl, rfl⟩

/-- C9: appending a vector of length 2 without non-zeros to the 2x3 example
(whose `innerDim` is 2) raises nothing, sets `outerDim` to 4 and header word 2
to 4, and leaves three stored slices: no slice exists at position 3. -/
theorem append_empty_vector_stores_no_slice :
    ∀ f : BuildFlags,
      (append exampleParams f example2x3 emptyVector2).2 = none ∧
      (append exampleParams f example2x3 emptyVector2).1.outerDim = 4 ∧
      (append exampleParams f example2x3 emptyVector2).1.metadata.get? 2 = some 4 ∧
      (append exampleParams f example2x3 emptyVector2).1.data.length = 3 ∧
      (append exampleParams f example2x3 emptyVector2).1.data.get? 3 = none := by
  intro f
  obtain ⟨d, a⟩ := f
  cases d <;> cases a <;> decide

/-- C10, as stated, fails: without `IVSPARSE_DEBUG` a vector of length 5 with one
non-zero is appended to the 2x3 example (`innerDim = 2`) without any failure,
and the matrix changes. -/
theorem append_unchecked_without_debug :
    longVector5.getLength ≠ example2x3.innerDim ∧
    (append exampleParams ⟨false, false⟩ example2x3 longVector5).2 = none ∧
    (append exampleParams ⟨false, false⟩ example2x3 longVector5).1 ≠ example2x3 ∧
    (append exampleParams ⟨false, false⟩ example2x3 longVector5).1.outerDim = 4 ∧
    (append exampleParams ⟨false, false⟩ example2x3 longVector5).1.data
      = [[(1, [0])], [(3, [1])], [(2, [0])], [(7, [4])]] := by
  decide

/-- C10, amended: for a vector whose length differs from `innerDim`, with
`IVSPARSE_DEBUG` and active assertions `append` stops at the length assertion
with the matrix unchanged, whether or not the vector has non-zeros; with
`IVSPARSE_DEBUG` and assertions disabled, a vector with non-zeros appended to a
matrix that has a row or a column raises `invalid_argument` with the matrix
unchanged; without `IVSPARSE_DEBUG` no failure is raised. -/
theorem append_length_mismatch (p : Params) (M : SparseMatrix) (vec : Vector)
    (h : vec.getLength ≠ M.innerDim) :
    append p ⟨true, true⟩ M vec = (M, some Failure.assertion) ∧
    (¬ (M.numRows < 1 ∧ M.numCols < 1) → vec.nonZeros ≠ 0 →
      append p ⟨true, false⟩ M vec = (M, some Failure.invalidArgument)) ∧
    (∀ a, (append p ⟨false, a⟩ M vec).2 = none) := by
  refine ⟨?_, ?_, ?_⟩
  · simp [append, h]
  · intro hne hnz
    have hne' : (decide (M.numRows < 1) && decide (M.numCols < 1)) = false := by
      simpa using hne
    have hnz' : (vec.nonZeros == 0) = false := by simpa using hnz
    simp only [append, Bool.and_false, Bool.false_and, Bool.false_eq_true, if_false, hne', hnz',
      Bool.true_and]
    simp [h]
  · intro a
    unfold append
    simp only [Bool.false_and, Bool.false_eq_true, if_false]
    split_ifs <;> rfl

/-- C10, witness: the vector of length 5 and the 2x3 example. -/
theorem append_length_mismatch_witness :
    longVector5.getLength ≠ example2x3.innerDim ∧
    append exampleParams ⟨true, true⟩ example2x3 longVector5
      = (example2x3, some Failure.assertion) ∧
    (¬ (example2x3.numRows < 1 ∧ example2x3.numCols < 1) → longVector5.nonZeros ≠ 0 →
      append exampleParams ⟨true, false⟩ example2x3 longVector5
        = (example2x3, some Failure.invalidArgument)) ∧
    (∀ a, (append exampleParams ⟨false, a⟩ example2x3 longVector5).2 = none) :=
  ⟨by decide, append_length_mismatch exampleParams example2x3 longVector5 (by decide)⟩

/-! ## Coordinate-triplet constructor: duplicates, coordinates out of range,
row-major types -/

/-- C11: from the triplets `(0,0,1)`, `(0,0,2)` of a 1x1 column-major matrix the
constructor builds no matrix: `data.reserve(1)` creates no slice and the loop
indexes `data[0]`.  The loop has no statement that removes or replaces a
triplet either: run on one existing slice it lists index 0 under the value 1
and under the value 2. -/
theorem cooConstructor_duplicates_no_result :
    cooConstructor exampleParams [(0, 0, 1), (0, 0, 2)] 1 1 2 = none ∧
    (sortEntries [((0, 0, 1) : Entry), (0, 0, 2)]).foldlM cooInsert [[]]
      = some [[(1, [0]), (2, [0])]] :=
  ⟨cooConstructor_none _ _ _ _ _ (by decide), by decide⟩

/-- C12 (counterexample): for a 2x1 column-major matrix and the triplet
`(0,3,1)`, whose column is not below 1, the constructor reports nothing: in a
build without `IVSPARSE_DEBUG`, and in a build with `IVSPARSE_DEBUG` and active
assertions, the loop indexes `data[3]` outside the container. -/
theorem cooConstructor_reports_no_shape_error :
    cooConstructorChecked ⟨false, false⟩ exampleParams [(0, 3, 1)] 2 1 1
      = Except.error Failure.outOfBounds ∧
    cooConstructorChecked ⟨true, true⟩ exampleParams [(0, 3, 1)] 2 1 1
      = Except.error Failure.outOfBounds ∧
    cooInsert (reserve [] 1) (0, 3, 1) = none := by
  refine ⟨?_, ?_, rfl⟩ <;>
    simp [cooConstructorChecked, cooConstructor_none exampleParams [(0, 3, 1)] 2 1 1]

/-- C12 (amended): the constructor checks no coordinate and reports no shape
error.  Whatever the build and the triplets, the only failure it raises is the
assertion `num_rows > 0 && num_cols > 0 && nnz > 0` of a build with
`IVSPARSE_DEBUG` and active assertions; it throws neither `invalid_argument` nor
`runtime_error`.  A step of its loop indexes `data[col]` with the column of the
triplet as given, outside the container exactly when the container holds no
element at `col`, and stores the row of the triplet without comparing it with
anything. -/
theorem cooConstructor_unchecked (f : BuildFlags) (p : Params) (entries : List Entry)
    (num_rows num_cols nnz : Nat) :
    (cooConstructorChecked f p entries num_rows num_cols nnz = Except.error Failure.assertion ↔
      (f.debug = true ∧ f.asserts = true ∧ ¬ (0 < num_rows ∧ 0 < num_cols ∧ 0 < nnz))) ∧
    cooConstructorChecked f p entries num_rows num_cols nnz
      ≠ Except.error Failure.invalidArgument ∧
    cooConstructorChecked f p entries num_rows num_cols nnz
      ≠ Except.error Failure.runtimeError ∧
    (∀ (data : List Slice) (e : Entry), cooInsert data e = none ↔ data.length ≤ e.2.1) ∧
    (∀ (data : List Slice) (e : Entry), e.2.1 < data.length →
      ∃ data', cooInsert data e = some data' ∧
        lists (sliceAt data' e.2.1) e.2.2 e.1 = true) := by
  have hgate : (f.debug && f.asserts &&
      !(decide (num_rows > 0) && decide (num_cols > 0) && decide (nnz > 0))) = true ↔
      (f.debug = true ∧ f.asserts = true ∧ ¬ (0 < num_rows ∧ 0 < num_cols ∧ 0 < nnz)) := by
    simp only [Bool.and_eq_true, Bool.not_eq_true', Bool.and_eq_false_iff, decide_eq_true_eq,
      decide_eq_false_iff_not, gt_iff_lt]
    tauto
  refine ⟨?_, ?_, ?_, ?_, ?_⟩
  · unfold cooConstructorChecked
    by_cases hc : (f.debug && f.asserts &&
        !(decide (num_rows > 0) && decide (num_cols > 0) && decide (nnz > 0))) = true
    · rw [if_pos hc]
      exact ⟨fun _ => hgate.mp hc, fun _ => rfl⟩
    · rw [if_neg hc]
      constructor
      · intro h
        cases hcoo : cooConstructor p entries num_rows num_cols nnz <;> rw [hcoo] at h <;>
          simp at h
      · intro h
        exact absurd (hgate.mpr h) hc
  · unfold cooConstructorChecked
    split_ifs
    · simp
    · cases cooConstructor p entries num_rows num_cols nnz <;> simp
  · unfold cooConstructorChecked
    split_ifs
    · simp
    · cases cooConstructor p entries num_rows num_cols nnz <;> simp
  · intro data e
    unfold cooInsert
    by_cases h : e.2.1 < data.length
    · rw [dif_pos h]
      constructor
      · intro h'
        split_ifs at h'
      · intro h'
        omega
    · rw [dif_neg h]
      exact ⟨fun _ => Nat.le_of_not_lt h, fun _ => rfl⟩
  · intro data e h
    unfold cooInsert
    rw [dif_pos h]
    have hs : sliceAt data e.2.1 = data.get ⟨e.2.1, h⟩ := by
      simp [sliceAt, List.getD_eq_getElem?_getD, List.getElem?_eq_getElem h]
    cases hc : mapContains (data.get ⟨e.2.1, h⟩) e.2.2
    · simp only [Bool.false_eq_true, if_false]
      refine ⟨_, rfl, ?_⟩
      rw [sliceAt_set _ _ _ _ h, if_pos rfl, ← mem_iterate]
      exact (iterate_mapAssign_perm _ _ _ hc).mem_iff.mpr (List.mem_cons_self _ _)
    · simp only [if_true]
      refine ⟨_, rfl, ?_⟩
      rw [sliceAt_set _ _ _ _ h, if_pos rfl, lists_mapPushBack]
      exact Or.inr ⟨rfl, rfl⟩

/-- C12, witness: the triplet `(5,0,1)`, whose row is not below the 2 rows,
is stored by a step of the loop on one existing slice; in a build with
`IVSPARSE_DEBUG` and assertions the call with `nnz = 0` stops at the
assertion. -/
theorem cooConstructor_unchecked_witness :
    cooConstructorChecked ⟨true, true⟩ exampleParams [(5, 0, 1)] 2 1 0
      = Except.error Failure.assertion ∧
    ∃ data', cooInsert [[]] (5, 0, 1) = some data' ∧ lists (sliceAt data' 0) 1 5 = true :=
  ⟨(cooConstructor_unchecked ⟨true, true⟩ exampleParams [(5, 0, 1)] 2 1 0).1.mpr
      ⟨rfl, rfl, by decide⟩,
    (cooConstructor_unchecked ⟨true, true⟩ exampleParams [(5, 0, 1)] 2 1 0).2.2.2.2
      [[]] (5, 0, 1) (by decide)⟩

/-- C13: for a row-major 2x2 type and the triplet `(0,1,5)` the constructor
builds no matrix (`data[1]` lies outside the container, in which
`data.reserve(2)` created no slice).  The loop indexes `data[col]` and pushes
`row` whatever the orientation: run on two existing slices it places the
triplet in slice 1 with inner index 0, which for a row-major matrix is the
position `(1,0)`, and nothing in slice 0. -/
theorem cooConstructor_rowMajor_by_column :
    cooConstructor rowMajorParams [(0, 1, 5)] 2 2 1 = none ∧
    (sortEntries [((0, 1, 5) : Entry)]).foldlM cooInsert [[], []] = some [[], [(5, [0])]] ∧
    itRow rowMajorParams.columnMajor 1 0 = 1 ∧ itCol rowMajorParams.columnMajor 1 0 = 0 :=
  ⟨cooConstructor_none _ _ _ _ _ (by decide), by decide, rfl, rfl⟩

/-! ## Loops over all emissions -/

theorem foldlM_range'_slices {σ : Type} (step : Nat → σ → Nat × Int → Option σ)
    (data : List Slice) :
    ∀ (pre : List Slice) (init : σ),
      (List.range' pre.length data.length).foldlM
          (fun acc j => ((pre ++ data).get? j).bind fun s => (iterate s).foldlM (step j) acc) init
        = (emitFrom pre.length data).foldlM (fun acc t => step t.1 acc (t.2.1, t.2.2)) init := by
  induction data with
  | nil => intro pre init; rfl
  | cons s rest ih =>
    intro pre init
    have h := ih (pre ++ [s])
    rw [List.length_append, List.length_singleton, ← List.append_cons] at h
    have hx : (pre ++ s :: rest).get? pre.length = some s := by
      rw [List.get?_eq_getElem?, List.getElem?_append_right (Nat.le_refl _)]
      simp
    rw [List.length_cons, List.range'_succ, List.foldlM_cons, hx, Option.some_bind]
    simp only [emitFrom]
    rw [List.foldlM_append, List.foldlM_map]
    cases hf : (iterate s).foldlM (step pre.length) init with
    | none => rfl
    | some a => exact h a

theorem foldlM_range_slices {σ : Type} (step : Nat → σ → Nat × Int → Option σ)
    (data : List Slice) (init : σ) :
    (List.range data.length).foldlM
        (fun acc j => (data.get? j).bind fun s => (iterate s).foldlM (step j) acc) init
      = (emitFrom 0 data).foldlM (fun acc t => step t.1 acc (t.2.1, t.2.2)) init := by
  have h := foldlM_range'_slices step data [] init
  simpa [List.range_eq_range'] using h

theorem emitFrom_bounds (n : Nat) (data : List Slice)
    (hb : ∀ s ∈ data, indicesBelow n s = true) :
    ∀ k, ∀ t ∈ emitFrom k data, k ≤ t.1 ∧ t.1 < k + data.length ∧ t.2.1 < n := by
  induction data with
  | nil => intro k t ht; simp [emitFrom] at ht
  | cons s rest ih =>
    intro k t ht
    simp only [emitFrom, List.mem_append, List.mem_map] at ht
    rcases ht with ⟨e, he, rfl⟩ | ht
    · refine ⟨Nat.le_refl _, by simp, ?_⟩
      exact iterate_lt_of_indicesBelow n s (hb s (List.mem_cons_self _ _)) e he
    · obtain ⟨h1, h2, h3⟩ := ih (fun x hx => hb x (List.mem_cons_of_mem _ hx)) (k + 1) t ht
      refine ⟨by omega, by simp only [List.length_cons]; omega, h3⟩

theorem wellFormed_iff (M : SparseMatrix) :
    wellFormed M = true ↔
      (M.data.length = M.outerDim ∧ ∀ s ∈ M.data, indicesBelow M.innerDim s = true) := by
  simp only [wellFormed, Bool.and_eq_true, beq_iff_eq, List.all_eq_true]

/-! ## Sparse times dense vector -/

theorem spmvStep_spec (columnMajor : Bool) (x : DenseVector) (j : Nat) (result : DenseVector)
    (e : Nat × Int) (hj : j < x.size) (hr : itRow columnMajor j e.1 < result.size) :
    ∃ out, spmvStep columnMajor x j result e = some out ∧ out.size = result.size ∧
      ∀ r, out.coeff r
        = result.coeff r + (if itRow columnMajor j e.1 = r then e.2 * x.coeff j else 0) := by
  refine ⟨⟨result.size, fun k =>
    if k = itRow columnMajor j e.1 then result.coeff k + e.2 * x.coeff j else result.coeff k⟩,
    ?_, rfl, ?_⟩
  · simp [spmvStep, DenseVector.read, DenseVector.addAt, hj, hr]
  · intro r
    by_cases h : itRow columnMajor j e.1 = r
    · simp [h]
    · have h' : ¬ r = itRow columnMajor j e.1 := fun hh => h hh.symm
      simp [h, h']

theorem foldlM_spmvStep (columnMajor : Bool) (x : DenseVector) (ems : List (Nat × Nat × Int)) :
    ∀ result : DenseVector,
      (∀ t ∈ ems, t.1 < x.size ∧ itRow columnMajor t.1 t.2.1 < result.size) →
      ∃ out, ems.foldlM (fun acc t => spmvStep columnMajor x t.1 acc (t.2.1, t.2.2)) result
          = some out ∧ out.size = result.size ∧
        ∀ r, out.coeff r = result.coeff r +
          (ems.map fun t =>
            if itRow columnMajor t.1 t.2.1 = r then t.2.2 * x.coeff t.1 else 0).sum := by
  induction ems with
  | nil => intro result _; exact ⟨result, rfl, rfl, by simp⟩
  | cons t rest ih =>
    intro result hb
    obtain ⟨hj, hr⟩ := hb t (List.mem_cons_self _ _)
    obtain ⟨o1, h1, hs1, hc1⟩ := spmvStep_spec columnMajor x t.1 result (t.2.1, t.2.2) hj hr
    obtain ⟨o2, h2, hs2, hc2⟩ := ih o1 (fun u hu => by
      rw [hs1]; exact hb u (List.mem_cons_of_mem _ hu))
    refine ⟨o2, ?_, by rw [hs2, hs1], ?_⟩
    · rw [List.foldlM_cons, h1]; exact h2
    · intro r
      rw [hc2, hc1, List.map_cons, List.sum_cons]
      ring

theorem spmv_spec (p : Params) (M : SparseMatrix) (x : DenseVector)
    (hwf : wellFormed M = true) (hor : oriented p M = true) (hx : M.outerDim ≤ x.size) :
    ∃ out, IVSparse_fair_spmv p M x = some out ∧ out.size = M.numRows ∧
      ∀ r, out.coeff r = ((emitFrom 0 M.data).map fun t =>
        if itRow p.columnMajor t.1 t.2.1 = r then t.2.2 * x.coeff t.1 else 0).sum := by
  obtain ⟨hlen, hb⟩ := (wellFormed_iff M).mp hwf
  obtain ⟨hd1, hd2⟩ := oriented_dims p M hor
  have hbounds := emitFrom_bounds M.innerDim M.data hb 0
  obtain ⟨out, h1, h2, h3⟩ := foldlM_spmvStep p.columnMajor x (emitFrom 0 M.data)
    (DenseVector.zero M.numRows) (fun t ht => by
      obtain ⟨_, hlt, hin⟩ := hbounds t ht
      refine ⟨by omega, ?_⟩
      show itRow p.columnMajor t.1 t.2.1 < M.numRows
      cases hp : p.columnMajor
      · rw [hp] at hd2; simp only [Bool.false_eq_true, if_false] at hd2
        simp only [itRow, Bool.false_eq_true, if_false]; omega
      · rw [hp] at hd1; simp only [if_true] at hd1
        simp only [itRow, if_true]; omega)
  refine ⟨out, ?_, h2, ?_⟩
  · unfold IVSparse_fair_spmv
    rw [← hlen, foldlM_range_slices (spmvStep p.columnMajor x) M.data]
    exact h1
  · intro r
    rw [h3 r]
    simp [DenseVector.zero]

theorem emitFrom_row_lt (p : Params) (M : SparseMatrix)
    (hwf : wellFormed M = true) (hor : oriented p M = true) :
    ∀ t ∈ emitFrom 0 M.data,
      t.1 < M.outerDim ∧ t.2.1 < M.innerDim ∧ itRow p.columnMajor t.1 t.2.1 < M.numRows := by
  obtain ⟨hlen, hb⟩ := (wellFormed_iff M).mp hwf
  obtain ⟨hd1, hd2⟩ := oriented_dims p M hor
  intro t ht
  obtain ⟨_, hlt, hin⟩ := emitFrom_bounds M.innerDim M.data hb 0 t ht
  refine ⟨by omega, hin, ?_⟩
  cases hp : p.columnMajor
  · rw [hp] at hd2; simp only [Bool.false_eq_true, if_false] at hd2
    simp only [itRow, Bool.false_eq_true, if_false]; omega
  · rw [hp] at hd1; simp only [if_true] at hd1
    simp only [itRow, if_true]; omega

/-- C14: for every well-formed column-major matrix `M` (the parameter type of
`IVSparse_fair_spmv` leaves the orientation to its default, so a row-major
matrix cannot be passed) and dense vector `x` of length `cols(M)`, the product
is a vector of length `rows(M)` whose entry `r` is the sum of `v * x[c]` over
the emissions `(r, c, v)` of `M`; one emission `(i, v)` of slice `s` adds
`v * x[s]` to entry `i` and changes no other entry. -/
theorem spmv_columnMajor (p : Params) (hcm : p.columnMajor = true) (M : SparseMatrix)
    (x : DenseVector) (hwf : wellFormed M = true) (hor : oriented p M = true)
    (hx : x.size = M.numCols) :
    (∃ out, IVSparse_fair_spmv p M x = some out ∧ out.size = M.numRows ∧
      ∀ r, out.coeff r
        = ((triplets p M).map fun t => if t.1 = r then t.2.2 * x.coeff t.2.1 else 0).sum) ∧
    (∀ (result : DenseVector) (s i : Nat) (v : Int), s < x.size → i < result.size →
      ∃ out, spmvStep p.columnMajor x s result (i, v) = some out ∧ out.size = result.size ∧
        out.coeff i = result.coeff i + v * x.coeff s ∧
        ∀ k, k ≠ i → out.coeff k = result.coeff k) := by
  obtain ⟨hlen, _⟩ := (wellFormed_iff M).mp hwf
  obtain ⟨_, hd2⟩ := oriented_dims p M hor
  rw [hcm] at hd2
  simp only [if_true] at hd2
  constructor
  · obtain ⟨out, h1, h2, h3⟩ := spmv_spec p M x hwf hor (by omega)
    refine ⟨out, h1, h2, ?_⟩
    intro r
    rw [h3 r, triplets_eq_emitFrom p M hlen, List.map_map]
    simp only [hcm, itRow, itCol, if_true, Function.comp_def]
  · intro result s i v hs hi
    obtain ⟨out, h1, h2, h3⟩ := spmvStep_spec p.columnMajor x s result (i, v) hs
      (by simp only [hcm, itRow, if_true]; exact hi)
    refine ⟨out, h1, h2, ?_, ?_⟩
    · rw [h3 i]; simp [hcm, itRow]
    · intro k hk
      rw [h3 k]
      have hne : ¬ i = k := fun h => hk h.symm
      simp [hcm, itRow, hne]

/-- C14, witness: the 2x3 example times `(1, 2, 3)` is `(7, 6)`. -/
theorem spmv_columnMajor_witness :
    exampleParams.columnMajor = true ∧ wellFormed example2x3 = true ∧
    oriented exampleParams example2x3 = true ∧ exampleVector123.size = example2x3.numCols ∧
    ((∃ out, IVSparse_fair_spmv exampleParams example2x3 exampleVector123 = some out ∧
        out.size = example2x3.numRows ∧
        ∀ r, out.coeff r = ((triplets exampleParams example2x3).map fun t =>
          if t.1 = r then t.2.2 * exampleVector123.coeff t.2.1 else 0).sum) ∧
      (∀ (result : DenseVector) (s i : Nat) (v : Int), s < exampleVector123.size →
        i < result.size →
        ∃ out, spmvStep exampleParams.columnMajor exampleVector123 s result (i, v) = some out ∧
          out.size = result.size ∧
          out.coeff i = result.coeff i + v * exampleVector123.coeff s ∧
          ∀ k, k ≠ i → out.coeff k = result.coeff k)) ∧
    (IVSparse_fair_spmv exampleParams example2x3 exampleVector123).map
        (fun out => (out.size, out.coeff 0, out.coeff 1)) = some (2, 7, 6) :=
  ⟨rfl, by decide, by decide, rfl,
    spmv_columnMajor exampleParams rfl example2x3 exampleVector123 (by decide) (by decide) rfl,
    rfl⟩

theorem spmmStep_spec (columnMajor : Bool) (B : DenseMatrix) (col row : Nat) (R : DenseMatrix)
    (e : Nat × Int) (hrow : row < B.rows) (hcol : col < B.cols)
    (hr : itRow columnMajor row e.1 < R.rows) (hc : col < R.cols) :
    ∃ R', spmmStep columnMajor B col row R e = some R' ∧ R'.rows = R.rows ∧ R'.cols = R.cols ∧
      ∀ r c, R'.coeff r c = R.coeff r c +
        (if c = col then (if itRow columnMajor row e.1 = r then e.2 * B.coeff row col else 0)
          else 0) := by
  refine ⟨⟨R.rows, R.cols, fun r' c' =>
    if r' = itRow columnMajor row e.1 ∧ c' = col then R.coeff r' c' + e.2 * B.coeff row col
    else R.coeff r' c'⟩, ?_, rfl, rfl, ?_⟩
  · simp [spmmStep, DenseMatrix.read, DenseMatrix.modifyAt, hrow, hcol, hr, hc]
  · intro r c
    by_cases h1 : c = col
    · by_cases h2 : itRow columnMajor row e.1 = r
      · simp [h1, h2]
      · have h2' : ¬ r = itRow columnMajor row e.1 := fun hh => h2 hh.symm
        simp [h1, h2, h2']
    · simp [h1]

theorem foldlM_spmmStep (columnMajor : Bool) (B : DenseMatrix) (col : Nat) (hcol : col < B.cols)
    (ems : List (Nat × Nat × Int)) :
    ∀ R : DenseMatrix, col < R.cols →
      (∀ t ∈ ems, t.1 < B.rows ∧ itRow columnMajor t.1 t.2.1 < R.rows) →
      ∃ R', ems.foldlM (fun acc t => spmmStep columnMajor B col t.1 acc (t.2.1, t.2.2)) R
          = some R' ∧ R'.rows = R.rows ∧ R'.cols = R.cols ∧
        ∀ r c, R'.coeff r c = R.coeff r c +
          (if c = col then
            (ems.map fun t =>
              if itRow columnMajor t.1 t.2.1 = r then t.2.2 * B.coeff t.1 col else 0).sum
          else 0) := by
  induction ems with
  | nil => intro R _ _; exact ⟨R, rfl, rfl, rfl, by simp⟩
  | cons t rest ih =>
    intro R hc hb
    obtain ⟨hrow, hr⟩ := hb t (List.mem_cons_self _ _)
    obtain ⟨R1, h1, hr1, hc1, hv1⟩ :=
      spmmStep_spec columnMajor B col t.1 R (t.2.1, t.2.2) hrow hcol hr hc
    obtain ⟨R2, h2, hr2, hc2, hv2⟩ := ih R1 (by rw [hc1]; exact hc) (fun u hu => by
      rw [hr1]; exact hb u (List.mem_cons_of_mem _ hu))
    refine ⟨R2, ?_, by rw [hr2, hr1], by rw [hc2, hc1], ?_⟩
    · rw [List.foldlM_cons, h1]; exact h2
    · intro r c
      rw [hv2, hv1, List.map_cons, List.sum_cons]
      by_cases h : c = col
      · simp only [h, if_true]; ring
      · simp only [h, if_false]; ring

theorem spmm_columns (columnMajor : Bool) (data : List Slice) (B : DenseMatrix) (rows : Nat)
    (hB : B.rows = data.length)
    (hb : ∀ t ∈ emitFrom 0 data, t.1 < B.rows ∧ itRow columnMajor t.1 t.2.1 < rows) :
    ∀ n, n ≤ B.cols →
      ∃ R, (List.range n).foldlM
          (fun result col =>
            (List.range B.rows).foldlM
              (fun result row =>
                (data.get? row).bind fun s =>
                  (iterate s).foldlM (spmmStep columnMajor B col row) result)
              result)
          (DenseMatrix.zero rows B.cols) = some R ∧ R.rows = rows ∧ R.cols = B.cols ∧
        ∀ r c, R.coeff r c =
          if c < n then
            ((emitFrom 0 data).map fun t =>
              if itRow columnMajor t.1 t.2.1 = r then t.2.2 * B.coeff t.1 c else 0).sum
          else 0 := by
  intro n
  induction n with
  | zero =>
    intro _
    exact ⟨DenseMatrix.zero rows B.cols, rfl, rfl, rfl, fun r c => by simp [DenseMatrix.zero]⟩
  | succ n ih =>
    intro hn
    obtain ⟨R1, h1, hr1, hc1, hv1⟩ := ih (Nat.le_of_succ_le hn)
    obtain ⟨R2, h2, hr2, hc2, hv2⟩ := foldlM_spmmStep columnMajor B n hn (emitFrom 0 data) R1
      (by rw [hc1]; exact hn) (fun t ht => by rw [hr1]; exact hb t ht)
    refine ⟨R2, ?_, by rw [hr2, hr1], by rw [hc2, hc1], ?_⟩
    · have hpass : (List.range B.rows).foldlM
          (fun result row =>
            (data.get? row).bind fun s =>
              (iterate s).foldlM (spmmStep columnMajor B n row) result)
          R1 = some R2 := by
        rw [hB, foldlM_range_slices (spmmStep columnMajor B n) data R1]
        exact h2
      rw [List.range_succ, List.foldlM_append, h1]
      simp only [List.foldlM_cons, List.foldlM_nil]
      simpa using hpass
    · intro r c
      rw [hv2, hv1]
      by_cases hcn : c = n
      · subst hcn
        simp
      · by_cases hlt : c < n
        · have hlt' : c < n + 1 := Nat.lt_succ_of_lt hlt
          simp [hcn, hlt, hlt']
        · have hlt' : ¬ c < n + 1 := by omega
          simp [hcn, hlt, hlt']

/-- C16: for a well-formed matrix `M` whose dimension fields agree with its
orientation and a dense matrix `B` with `rows(B)` equal to the outer size of
`M`, `IVSparse_fair_spmm(M, B)` is defined with shape `rows(M) x cols(B)`, and
every column `c` of it equals `IVSparse_fair_spmv(M, column c of B)`. -/
theorem spmm_column_eq_spmv (p : Params) (M : SparseMatrix) (B : DenseMatrix)
    (hwf : wellFormed M = true) (hor : oriented p M = true) (hB : B.rows = M.outerDim) :
    ∃ R, IVSparse_fair_spmm p M B = some R ∧ R.rows = M.numRows ∧ R.cols = B.cols ∧
      ∀ c, c < B.cols →
        ∃ out, IVSparse_fair_spmv p M (B.column c) = some out ∧ out.size = R.rows ∧
          ∀ r, (R.column c).coeff r = out.coeff r := by
  obtain ⟨hlen, _⟩ := (wellFormed_iff M).mp hwf
  have hb := emitFrom_row_lt p M hwf hor
  obtain ⟨R, h1, hr, hc, hv⟩ := spmm_columns p.columnMajor M.data B M.numRows
    (by rw [hB, hlen]) (fun t ht => ⟨by rw [hB]; exact (hb t ht).1, (hb t ht).2.2⟩)
    B.cols (Nat.le_refl _)
  refine ⟨R, h1, hr, hc, ?_⟩
  intro c hcl
  obtain ⟨out, h2, hs2, hc2⟩ := spmv_spec p M (B.column c) hwf hor
    (by simp only [DenseMatrix.column]; omega)
  refine ⟨out, h2, by rw [hs2, hr], ?_⟩
  intro r
  rw [hc2 r]
  simp only [DenseMatrix.column]
  rw [hv r c, if_pos hcl]

/-- C16, witness: the 2x3 example times the dense 3x2 example. -/
theorem spmm_column_eq_spmv_witness :
    wellFormed example2x3 = true ∧ oriented exampleParams example2x3 = true ∧
    exampleDense3x2.rows = example2x3.outerDim ∧
    (∃ R, IVSparse_fair_spmm exampleParams example2x3 exampleDense3x2 = some R ∧
      R.rows = example2x3.numRows ∧ R.cols = exampleDense3x2.cols ∧
      ∀ c, c < exampleDense3x2.cols →
        ∃ out, IVSparse_fair_spmv exampleParams example2x3 (exampleDense3x2.column c)
            = some out ∧ out.size = R.rows ∧
          ∀ r, (R.column c).coeff r = out.coeff r) ∧
    (IVSparse_fair_spmm exampleParams example2x3 exampleDense3x2).map
        (fun R => (R.coeff 0 0, R.coeff 1 0, R.coeff 0 1, R.coeff 1 1)) = some (7, 6, 37, 36) :=
  ⟨by decide, by decide, rfl,
    spmm_column_eq_spmv exampleParams example2x3 exampleDense3x2 (by decide) (by decide) rfl,
    rfl⟩

/-! ## Dense with sparse, coefficient by coefficient -/

theorem modifyAt_mul_spec (R : DenseMatrix) (r0 c0 : Nat) (v : Int)
    (hr : r0 < R.rows) (hc : c0 < R.cols) :
    ∃ R', R.modifyAt r0 c0 (fun d => d * v) = some R' ∧ R'.rows = R.rows ∧ R'.cols = R.cols ∧
      ∀ r c, R'.coeff r c = R.coeff r c * (if r0 = r ∧ c0 = c then v else 1) := by
  refine ⟨⟨R.rows, R.cols, fun r' c' =>
    if r' = r0 ∧ c' = c0 then R.coeff r' c' * v else R.coeff r' c'⟩, ?_, rfl, rfl, ?_⟩
  · simp [DenseMatrix.modifyAt, hr, hc]
  · intro r c
    by_cases h : r0 = r ∧ c0 = c
    · obtain ⟨h1, h2⟩ := h
      subst h1 h2
      simp
    · have h' : ¬ (r = r0 ∧ c = c0) := fun hh => h ⟨hh.1.symm, hh.2.symm⟩
      simp [h, h']

theorem foldlM_modifyAt_mul (columnMajor : Bool) (ems : List (Nat × Nat × Int)) :
    ∀ R : DenseMatrix,
      (∀ t ∈ ems, itRow columnMajor t.1 t.2.1 < R.rows ∧ itCol columnMajor t.1 t.2.1 < R.cols) →
      ∃ R', ems.foldlM
          (fun acc t =>
            acc.modifyAt (itRow columnMajor t.1 t.2.1) (itCol columnMajor t.1 t.2.1)
              (fun d => d * t.2.2)) R = some R' ∧
        R'.rows = R.rows ∧ R'.cols = R.cols ∧
        ∀ r c, R'.coeff r c = R.coeff r c *
          (ems.map fun t =>
            if itRow columnMajor t.1 t.2.1 = r ∧ itCol columnMajor t.1 t.2.1 = c
            then t.2.2 else 1).prod := by
  induction ems with
  | nil => intro R _; exact ⟨R, rfl, rfl, rfl, by simp⟩
  | cons t rest ih =>
    intro R hb
    obtain ⟨hr, hc⟩ := hb t (List.mem_cons_self _ _)
    obtain ⟨R1, h1, hr1, hc1, hv1⟩ := modifyAt_mul_spec R _ _ t.2.2 hr hc
    obtain ⟨R2, h2, hr2, hc2, hv2⟩ := ih R1 (fun u hu => by
      rw [hr1, hc1]; exact hb u (List.mem_cons_of_mem _ hu))
    refine ⟨R2, ?_, by rw [hr2, hr1], by rw [hc2, hc1], ?_⟩
    · rw [List.foldlM_cons, h1]; exact h2
    · intro r c
      rw [hv2, hv1, List.map_cons, List.prod_cons, mul_assoc]

theorem stores_of_mem_triplets (p : Params) (M : SparseMatrix) (r c : Nat) (v : Int)
    (h : (r, c, v) ∈ triplets p M) : stores p M r c v = true := by
  simp only [triplets, List.mem_flatMap, List.mem_range, List.mem_map, Prod.mk.injEq] at h
  obtain ⟨o, _, e, he, h1, h2, h3⟩ := h
  have hl : lists (sliceAt M.data o) e.2 e.1 = true := (mem_iterate _ _ _).mp he
  cases hp : p.columnMajor
  · simp only [hp, itRow, itCol, Bool.false_eq_true, if_false] at h1 h2
    simp only [stores, hp, Bool.false_eq_true, if_false]
    rw [← h1, ← h2, ← h3]
    exact hl
  · simp only [hp, itRow, itCol, if_true] at h1 h2
    simp only [stores, hp, if_true]
    rw [← h1, ← h2, ← h3]
    exact hl

/-- C17, as stated, fails: in the product of the dense 2x3 matrix of twos with
the 2x3 example, position `(1,0)`, where the example stores nothing, holds 2
(the coefficient of the dense matrix), not 0. -/
theorem operatorTimes_keeps_unstored :
    (operatorTimes exampleParams (exampleDense 2 3) example2x3).map
        (fun R => (R.coeff 1 0, R.coeff 0 0, R.coeff 1 1)) = some (2, 2, 6) ∧
    (triplets exampleParams example2x3).filter (fun t => decide (t.1 = 1 ∧ t.2.1 = 0)) = [] ∧
    (exampleDense 2 3).coeff 1 0 * 0 = 0 ∧
    (exampleDense 2 3).rows = example2x3.numRows ∧
    (exampleDense 2 3).cols = example2x3.numCols := by
  refine ⟨rfl, by decide, by decide, rfl, rfl⟩

/-- C17, amended: for a dense matrix `D` and a well-formed column-major matrix
`M` of the same shape, `D * M` is defined, has the shape of `D`, and its
coefficient at `(r, c)` is `D(r, c)` multiplied by every value that `M` emits at
`(r, c)`: `D(r, c) * v` where `M` stores a single `v`, and `D(r, c)` itself where
`M` stores nothing. -/
theorem operatorTimes_stored (p : Params) (hcm : p.columnMajor = true) (D : DenseMatrix)
    (M : SparseMatrix) (hwf : wellFormed M = true) (hor : oriented p M = true)
    (hrows : D.rows = M.numRows) (hcols : D.cols = M.numCols) :
    ∃ R, operatorTimes p D M = some R ∧ R.rows = D.rows ∧ R.cols = D.cols ∧
      (∀ r c, R.coeff r c = D.coeff r c *
        ((triplets p M).map fun t => if t.1 = r ∧ t.2.1 = c then t.2.2 else 1).prod) ∧
      (∀ r c, (∀ v, stores p M r c v = false) → R.coeff r c = D.coeff r c) := by
  obtain ⟨hlen, _⟩ := (wellFormed_iff M).mp hwf
  obtain ⟨hd1, hd2⟩ := oriented_dims p M hor
  rw [hcm] at hd1 hd2
  simp only [if_true] at hd1 hd2
  have hb := emitFrom_row_lt p M hwf hor
  obtain ⟨R, h1, hr, hc, hv⟩ := foldlM_modifyAt_mul p.columnMajor (emitFrom 0 M.data) D
    (fun t ht => by
      refine ⟨by rw [hrows]; exact (hb t ht).2.2, ?_⟩
      simp only [hcm, itCol, if_true]
      rw [hcols, hd2]
      exact (hb t ht).1)
  have hval : ∀ r c, R.coeff r c = D.coeff r c *
      ((triplets p M).map fun t => if t.1 = r ∧ t.2.1 = c then t.2.2 else 1).prod := by
    intro r c
    rw [hv r c, triplets_eq_emitFrom p M hlen, List.map_map]
    rfl
  refine ⟨R, ?_, hr, hc, hval, ?_⟩
  · unfold operatorTimes applyStored
    rw [hd2, ← hlen, foldlM_range_slices
      (fun i (result : DenseMatrix) e =>
        result.modifyAt (itRow p.columnMajor i e.1) (itCol p.columnMajor i e.1)
          (fun d => d * e.2)) M.data D]
    exact h1
  · intro r c hno
    rw [hval r c]
    have hone : ((triplets p M).map fun t =>
        if t.1 = r ∧ t.2.1 = c then t.2.2 else 1).prod = 1 := by
      apply List.prod_eq_one
      intro z hz
      obtain ⟨t, ht, rfl⟩ := List.mem_map.mp hz
      by_cases hpos : t.1 = r ∧ t.2.1 = c
      · have hst : stores p M r c t.2.2 = true := by
          apply stores_of_mem_triplets
          rw [← hpos.1, ← hpos.2]
          exact ht
        rw [hno t.2.2] at hst
        exact absurd hst Bool.false_ne_true
      · rw [if_neg hpos]
    rw [hone, mul_one]

/-- C17, witness: the dense 2x3 matrix of twos and the 2x3 example. -/
theorem operatorTimes_stored_witness :
    exampleParams.columnMajor = true ∧ wellFormed example2x3 = true ∧
    oriented exampleParams example2x3 = true ∧
    (exampleDense 2 3).rows = example2x3.numRows ∧
    (exampleDense 2 3).cols = example2x3.numCols ∧
    ∃ R, operatorTimes exampleParams (exampleDense 2 3) example2x3 = some R ∧
      R.rows = (exampleDense 2 3).rows ∧ R.cols = (exampleDense 2 3).cols ∧
      (∀ r c, R.coeff r c = (exampleDense 2 3).coeff r c *
        ((triplets exampleParams example2x3).map fun t =>
          if t.1 = r ∧ t.2.1 = c then t.2.2 else 1).prod) ∧
      (∀ r c, (∀ v, stores exampleParams example2x3 r c v = false) →
        R.coeff r c = (exampleDense 2 3).coeff r c) :=
  ⟨rfl, by decide, by decide, rfl, rfl,
    operatorTimes_stored exampleParams rfl (exampleDense 2 3) example2x3 (by decide) (by decide)
      rfl rfl⟩

/-- C18: for the row-major 2x1 matrix holding 5 at `(1,0)` and the dense 2x1
matrix of twos, the loops of `operator+` and `operator-` run over
`i < mat.cols() = 1` and visit slice 0 only; slice 1 is never visited, so the
coefficient at `(1,0)` stays 2 in both results instead of 7 and -3. -/
theorem operatorPlus_rowMajor_skips_slices :
    wellFormed exampleRowMajor2x1 = true ∧ oriented rowMajorParams exampleRowMajor2x1 = true ∧
    (exampleDense 2 1).rows = exampleRowMajor2x1.numRows ∧
    (exampleDense 2 1).cols = exampleRowMajor2x1.numCols ∧
    triplets rowMajorParams exampleRowMajor2x1 = [(1, 0, 5)] ∧
    exampleRowMajor2x1.outerDim = 2 ∧ exampleRowMajor2x1.numCols = 1 ∧
    (operatorPlus rowMajorParams (exampleDense 2 1) exampleRowMajor2x1).map
        (fun R => (R.coeff 0 0, R.coeff 1 0)) = some (2, 2) ∧
    (operatorMinus rowMajorParams (exampleDense 2 1) exampleRowMajor2x1).map
        (fun R => (R.coeff 0 0, R.coeff 1 0)) = some (2, 2) := by
  refine ⟨by decide, by decide, rfl, rfl, by decide, rfl, rfl, rfl, rfl⟩

/-! ## File layout -/

theorem foldlM_some {σ α : Type} (f : σ → α → σ) (l : List α) :
    ∀ init : σ, l.foldlM (fun acc x => some (f acc x)) init = some (l.foldl f init) := by
  induction l with
  | nil => intro init; rfl
  | cons x rest ih =>
    intro init
    rw [List.foldlM_cons, List.foldl_cons, ← ih (f init x)]
    rfl

theorem foldlM_range_total {σ α : Type} (f : σ → α → σ) (l : List α) (init : σ) :
    (List.range l.length).foldlM (fun acc i => (l.get? i).map (f acc)) init
      = some (l.foldl f init) := by
  have h := foldlM_range_get? (fun acc x => some (f acc x)) l init
  rw [foldlM_some] at h
  rw [← h]
  congr 1
  funext acc i
  cases l.get? i <;> rfl

theorem foldl_append_flatMap {α β : Type} (g : α → List β) (l : List α) :
    ∀ init : List β, l.foldl (fun acc x => acc ++ g x) init = init ++ l.flatMap g := by
  induction l with
  | nil => intro init; simp
  | cons x rest ih => intro init; simp [ih, List.append_assoc]

theorem writeSlice_fit (p : Params) (s : Slice) (hs : s.length < 2 ^ (8 * p.index_t))
    (he : ∀ e ∈ s, e.2.length < 2 ^ (8 * p.index_t)) :
    writeSlice p s
      = [(s.length : Int)] ++ s.map (fun e => e.1) ++ s.map (fun e => (e.2.length : Int)) ++
          s.flatMap fun e => e.2.map fun i => (i : Int) := by
  unfold writeSlice wrapIndex
  rw [Nat.mod_eq_of_lt hs]
  congr 2
  apply List.map_congr_left
  intro e hmem
  rw [Nat.mod_eq_of_lt (he e hmem)]

theorem write_eq (p : Params) (M : SparseMatrix) (hmeta : NUM_META_DATA ≤ M.metadata.length)
    (hlen : M.data.length = M.outerDim) :
    write p M = some
      ((M.metadata.take NUM_META_DATA).map (fun w => (w : Int)) ++
        M.data.flatMap (writeSlice p)) := by
  unfold write
  rw [if_neg (by omega), ← hlen, foldlM_range_total (fun file s => file ++ writeSlice p s),
    foldl_append_flatMap]

/-- C25 (counterexample): for one-byte indices and the 256x1 matrix holding the
value 7 in every row, the file starts with the header, the number of keys 1,
the key 7 and the count 0, while the index list of the key has 256 entries:
the count is written with `sizeof(indexT)` bytes. -/
theorem write_count_narrowed :
    (write byteIndexParams exampleColumn256).map (fun file => file.take 9)
      = some [2, 256, 1, 256, 0, 1, 1, 7, 0] ∧
    exampleColumn256.data.map (fun s => s.map fun e => e.2.length) = [[256]] := by
  constructor
  · rw [write_eq byteIndexParams exampleColumn256 (by decide) rfl]
    have h1 : wrapIndex byteIndexParams 1 = 1 := by decide
    have h2 : wrapIndex byteIndexParams 256 = 0 := by decide
    simp [exampleColumn256, NUM_META_DATA, writeSlice, h1, h2]
  · simp [exampleColumn256]

/-- C25 (amended): for a matrix holding its six header words and one slice per
outer index, in which the number of keys of every slice and the length of every
index list fit the index type, `write` produces the header followed, slice
after slice in ascending outer order, by the number of keys of the slice, its
keys, one count per key equal to the length of the index list of that key and
in the order of the keys, then the index lists in the same order. -/
theorem write_layout (p : Params) (M : SparseMatrix)
    (hmeta : NUM_META_DATA ≤ M.metadata.length) (hlen : M.data.length = M.outerDim)
    (hfit : ∀ s ∈ M.data, s.length < 2 ^ (8 * p.index_t) ∧
      ∀ e ∈ s, e.2.length < 2 ^ (8 * p.index_t)) :
    write p M = some
      ((M.metadata.take NUM_META_DATA).map (fun w => (w : Int)) ++
        M.data.flatMap fun s =>
          [(s.length : Int)] ++ s.map (fun e => e.1) ++ s.map (fun e => (e.2.length : Int)) ++
            s.flatMap fun e => e.2.map fun i => (i : Int)) := by
  rw [write_eq p M hmeta hlen]
  congr 2
  simp only [List.flatMap]
  congr 1
  apply List.map_congr_left
  intro s hs
  exact writeSlice_fit p s (hfit s hs).1 (hfit s hs).2

theorem write_layout_witness :
    write exampleParams example2x3
      = some [2, 2, 3, 3, 0, 4, 1, 1, 1, 0, 1, 3, 1, 1, 1, 2, 1, 0] := by
  rw [write_layout exampleParams example2x3 (by decide) (by decide) (by decide)]
  decide

/-- C26 (counterexample): without `IVSPARSE_DEBUG` the level-2 file constructor
builds a matrix from a file whose compression-level word is 3 (one slice
without keys, for which no statement indexes `data`), and the level-3 file
constructor builds one from a file whose compression-level word is 2. -/
theorem fileConstructor_level_unchecked :
    fileConstructor exampleParams ⟨false, true⟩ [3, 1, 1, 0, 0, 4, 0]
      = Except.ok
        { innerDim := 1, outerDim := 1, numRows := 1, numCols := 1, nnz := 0, val_t := 0
          index_t := 4, metadata := [3, 1, 1, 0, 0, 4], data := [] } ∧
    CSF.fileConstructor true (CSF.headerBytes [2, 1, 1, 0, 0, 4] ++ Bytes.leBytes 8 0)
      = some
        { innerDim := 1, outerDim := 1, numRows := 1, numCols := 1, nnz := 0, val_t := 0
          index_t := 4, metadata := [2, 1, 1, 0, 0, 4], data := [⟨0, []⟩] } :=
  ⟨rfl, by decide⟩

/-- C26 (amended): in a build with `IVSPARSE_DEBUG`, the level-2 file
constructor applied to a file that holds the six header words and whose
compression-level word is not 2 stops with the runtime error and builds no
matrix. -/
theorem fileConstructor_level_mismatch (p : Params) (f : BuildFlags) (file : File)
    (hdebug : f.debug = true) (hlen : NUM_META_DATA ≤ file.length)
    (hlevel : (file.headD 0).toNat ≠ 2) :
    fileConstructor p f file = Except.error Failure.runtimeError := by
  unfold fileConstructor readN
  rw [if_pos hlen]
  have h0 : ((file.take NUM_META_DATA).map Int.toNat).getD 0 0 = (file.headD 0).toNat := by
    cases file with
    | nil => simp [NUM_META_DATA] at hlen
    | cons x rest => simp [NUM_META_DATA]
  simp only [h0, hdebug, Bool.true_and]
  rw [if_pos (by simpa using hlevel)]

theorem fileConstructor_level_mismatch_witness :
    fileConstructor exampleParams ⟨true, true⟩ [3, 1, 1, 0, 0, 4, 0]
      = Except.error Failure.runtimeError :=
  fileConstructor_level_mismatch exampleParams ⟨true, true⟩ [3, 1, 1, 0, 0, 4, 0] rfl
    (by decide) (by decide)

/-! ## Conversion to the level-3 format -/

theorem indexAssign_perm (d : List (Nat × Int)) (i : Nat) (v : Int)
    (h : i ∉ d.map Prod.fst) : (indexAssign d i v).Perm ((i, v) :: d) := by
  induction d with
  | nil => exact List.Perm.refl _
  | cons e rest ih =>
    obtain ⟨k, old⟩ := e
    simp only [List.map_cons, List.mem_cons, not_or] at h
    unfold indexAssign
    rw [if_neg h.1]
    split_ifs with hlt
    · exact List.Perm.refl _
    · exact ((ih h.2).cons (k, old)).trans (List.Perm.swap _ _ _)

theorem foldl_indexAssign_perm (l : List (Nat × Int)) :
    ∀ d : List (Nat × Int), (∀ e ∈ l, e.1 ∉ d.map Prod.fst) → (l.map Prod.fst).Nodup →
      (l.foldl (fun d e => indexAssign d e.1 e.2) d).Perm (d ++ l) := by
  induction l with
  | nil => intro d _ _; simp
  | cons e rest ih =>
    intro d hd hnd
    rw [List.map_cons, List.nodup_cons] at hnd
    have h1 := indexAssign_perm d e.1 e.2 (hd e (List.mem_cons_self _ _))
    have hkeys : ∀ x ∈ rest, x.1 ∉ (indexAssign d e.1 e.2).map Prod.fst := by
      intro x hx hmem
      have hp := (h1.map Prod.fst).mem_iff.mp hmem
      simp only [List.map_cons, List.mem_cons] at hp
      rcases hp with hp | hp
      · exact hnd.1 (hp ▸ List.mem_map_of_mem Prod.fst hx)
      · exact hd x (List.mem_cons_of_mem _ hx) hp
    refine (ih _ hkeys hnd.2).trans ?_
    refine (List.Perm.append_right rest h1).trans ?_
    simp only [List.cons_append]
    exact List.perm_middle.symm

theorem indexDict_perm (s : Slice) (h : ((iterate s).map Prod.fst).Nodup) :
    (indexDict s).Perm (iterate s) := by
  have h1 := foldl_indexAssign_perm (iterate s) [] (fun _ _ => by simp) h
  simpa [indexDict] using h1

theorem take_sum_concat (lens : List Nat) (x j : Nat) (hj : j ≤ lens.length) :
    ((lens ++ [x]).take j).sum = (lens.take j).sum := by
  rw [List.take_append_of_le_length hj]

theorem toIVCSCStep_inv (p : Params) (pre : List Slice) (s : Slice)
    (st : List Nat × List (List (Nat × Int)))
    (h1 : st.1 = (List.range (pre.length + 1)).map fun j =>
      ((pre.map fun x => (iterate x).length).take j).sum)
    (h2 : st.2 = pre.map indexDict)
    (hfit : ((pre ++ [s]).map fun x => (iterate x).length).sum < 2 ^ (8 * p.index_t)) :
    (toIVCSCStep p st s).1 = (List.range ((pre ++ [s]).length + 1)).map (fun j =>
        (((pre ++ [s]).map fun x => (iterate x).length).take j).sum) ∧
      (toIVCSCStep p st s).2 = (pre ++ [s]).map indexDict := by
  constructor
  · have hlast : st.1.getLastD 0 = (pre.map fun x => (iterate x).length).sum := by
      rw [h1, List.range_succ, List.map_append, List.map_singleton, List.getLastD_concat]
      rw [List.take_of_length_le (by simp)]
    simp only [toIVCSCStep, hlast]
    have hsum : (pre.map fun x => (iterate x).length).sum + (iterate s).length
        = ((pre ++ [s]).map fun x => (iterate x).length).sum := by
      simp
    rw [hsum, wrapIndex, Nat.mod_eq_of_lt hfit, h1]
    have hr : List.range ((pre ++ [s]).length + 1)
        = List.range (pre.length + 1) ++ [pre.length + 1] := by
      rw [List.length_append, List.length_singleton, List.range_succ]
    rw [hr, List.map_append _ (List.range (pre.length + 1)) [pre.length + 1], List.map_singleton]
    congr 1
    · apply List.map_congr_left
      intro j hj
      rw [List.mem_range] at hj
      rw [List.map_append, List.map_singleton]
      exact (take_sum_concat _ _ j (by simp; omega)).symm
    · rw [List.take_of_length_le (by simp)]
  · simp [toIVCSCStep, h2]

theorem foldl_toIVCSCStep (p : Params) (data : List Slice) :
    ∀ (pre : List Slice) (st : List Nat × List (List (Nat × Int))),
      st.1 = (List.range (pre.length + 1)).map (fun j =>
        ((pre.map fun x => (iterate x).length).take j).sum) →
      st.2 = pre.map indexDict →
      ((pre ++ data).map fun x => (iterate x).length).sum < 2 ^ (8 * p.index_t) →
      (data.foldl (toIVCSCStep p) st).1 = (List.range ((pre ++ data).length + 1)).map (fun j =>
          (((pre ++ data).map fun x => (iterate x).length).take j).sum) ∧
        (data.foldl (toIVCSCStep p) st).2 = (pre ++ data).map indexDict := by
  induction data with
  | nil => intro pre st h1 h2 _; simpa using ⟨h1, h2⟩
  | cons s rest ih =>
    intro pre st h1 h2 hfit
    have hfit1 : ((pre ++ [s]).map fun x => (iterate x).length).sum < 2 ^ (8 * p.index_t) := by
      refine Nat.lt_of_le_of_lt ?_ hfit
      simp only [List.map_append, List.sum_append, List.map_cons, List.sum_cons, List.map_nil,
        List.sum_nil]
      omega
    obtain ⟨h3, h4⟩ := toIVCSCStep_inv p pre s st h1 h2 hfit1
    have h := ih (pre ++ [s]) (toIVCSCStep p st s) h3 h4
      (by rw [List.append_assoc]; exact hfit)
    rw [List.append_assoc] at h
    exact h

theorem length_emitFrom (data : List Slice) :
    ∀ k, (emitFrom k data).length = (data.map fun x => (iterate x).length).sum := by
  induction data with
  | nil => intro k; rfl
  | cons s rest ih => intro k; simp [emitFrom, ih]

theorem zip_map_fst_snd {α β : Type} (l : List (α × β)) :
    (l.map Prod.fst).zip (l.map Prod.snd) = l := by
  induction l with
  | nil => rfl
  | cons x rest ih => simp [ih]

theorem colPtrs_le_total (M : SparseMatrix)
    (hnodup : ∀ s ∈ M.data, ((iterate s).map Prod.fst).Nodup) (j : Nat) :
    (((M.data.map indexDict).map List.length).take j).sum ≤ (emitFrom 0 M.data).length := by
  have hlens : (M.data.map indexDict).map List.length
      = M.data.map fun x => (iterate x).length := by
    rw [List.map_map]
    apply List.map_congr_left
    intro s hs
    exact (indexDict_perm s (hnodup s hs)).length_eq
  rw [length_emitFrom, hlens]
  have h := List.sum_take_add_sum_drop (M.data.map fun x => (iterate x).length) j
  omega

theorem toIVCSC_eq (p : Params) (M : SparseMatrix) (hlen : M.data.length = M.outerDim)
    (hnodup : ∀ s ∈ M.data, ((iterate s).map Prod.fst).Nodup)
    (hnnz : (emitFrom 0 M.data).length ≤ M.nnz)
    (hfit : (emitFrom 0 M.data).length < 2 ^ (8 * p.index_t)) :
    toIVCSC p M = some
      { values := (M.data.map indexDict).flatten.map Prod.snd
        indices := (M.data.map indexDict).flatten.map Prod.fst
        colPtrs := (List.range (M.data.length + 1)).map fun j =>
          (((M.data.map indexDict).map List.length).take j).sum
        numRows := M.numRows
        numCols := M.numCols
        nnz := M.nnz } := by
  have hlens : (M.data.map indexDict).map List.length
      = M.data.map fun x => (iterate x).length := by
    rw [List.map_map]
    apply List.map_congr_left
    intro s hs
    exact (indexDict_perm s (hnodup s hs)).length_eq
  rw [length_emitFrom] at hnnz hfit
  obtain ⟨h1, h2⟩ := foldl_toIVCSCStep p M.data [] ([0], []) (by simp) rfl
    (by simpa using hfit)
  simp only [List.nil_append] at h1 h2
  unfold toIVCSC
  rw [← hlen, foldlM_range_total (toIVCSCStep p)]
  simp only [Option.some_bind, h1, h2]
  have hcount : (M.data.map indexDict).flatten.length ≤ M.nnz := by
    rw [List.length_flatten, hlens]
    exact hnnz
  rw [if_pos hcount, hlens]

theorem toIVCSC_of_fold (p : Params) (M : SparseMatrix)
    (st : List Nat × List (List (Nat × Int)))
    (hfold : (List.range M.outerDim).foldlM
      (fun st i => (M.data.get? i).map (toIVCSCStep p st)) ([0], []) = some st)
    (hcount : st.2.flatten.length ≤ M.nnz) :
    toIVCSC p M = some
      { values := st.2.flatten.map Prod.snd
        indices := st.2.flatten.map Prod.fst
        colPtrs := st.1
        numRows := M.numRows
        numCols := M.numCols
        nnz := M.nnz } := by
  unfold toIVCSC
  rw [hfold]
  simp only [Option.some_bind]
  rw [if_pos hcount]

theorem iterate_column256 :
    iterate [(7, List.range 256)] = (List.range 256).map fun i => (i, (7 : Int)) := by
  simp [iterate]

theorem nodup_column256 : ((iterate [(7, List.range 256)]).map Prod.fst).Nodup := by
  rw [iterate_column256, List.map_map]
  exact (List.nodup_range 256).map (fun a b h => h)

/-- C29 (counterexample): for one-byte indices and the 256x1 matrix holding the
value 7 in every row, whose single slice holds each inner index once and emits
256 pairs, the column pointers handed on are `[0, 0]`: the segment of slice 0
is empty. -/
theorem toIVCSC_colPtrs_narrowed :
    (toIVCSC byteIndexParams exampleColumn256).map (fun A => A.colPtrs) = some [0, 0] ∧
    (iterate (sliceAt exampleColumn256.data 0)).length = 256 ∧
    ((iterate (sliceAt exampleColumn256.data 0)).map Prod.fst).Nodup := by
  have hlen : (iterate [(7, List.range 256)]).length = 256 := by
    rw [iterate_column256]; simp
  have hd : (indexDict [(7, List.range 256)]).length = 256 := by
    rw [(indexDict_perm _ nodup_column256).length_eq, hlen]
  have hptr : wrapIndex byteIndexParams (0 + 256) = 0 := by decide
  have hfold : (List.range 1).foldlM
      (fun st i => ([[((7 : Int), List.range 256)]].get? i).map (toIVCSCStep byteIndexParams st))
      ([0], []) = some ([0, 0], [indexDict [(7, List.range 256)]]) := by
    rw [show List.range 1 = [0] from rfl]
    simp only [List.foldlM_cons, List.foldlM_nil, List.get?_cons_zero, Option.map_some',
      toIVCSCStep, hlen, List.getLastD_cons, List.getLastD_nil, hptr, Option.bind_eq_bind,
      Option.some_bind, List.nil_append, List.singleton_append, Option.pure_def]
  have hcount : [indexDict [((7 : Int), List.range 256)]].flatten.length ≤ 256 := by
    rw [List.flatten_cons, List.flatten_nil, List.append_nil, hd]
  refine ⟨?_, hlen, nodup_column256⟩
  rw [toIVCSC_of_fold byteIndexParams exampleColumn256 _ hfold hcount]
  rfl

/-- C29 (amended): for a matrix with one slice per outer index whose slices hold
each inner index at most once, whose number of stored entries is below
`2^(8 * sizeof(indexT) - 1)` and does not exceed `nnz`, `toIVCSC` reaches the
call of the level-3 constructor; the dimensions and `nnz` handed on are those of
the matrix, there are `outerDim + 1` column pointers, each below
`2^(8 * sizeof(indexT) - 1)` (so that it is stored unchanged in a signed and in
an unsigned index type), and for every slice `s` the pairs
`(indices[q], values[q])` with `colPtrs[s] <= q < colPtrs[s + 1]` are the pairs
`(index, value)` emitted by iterating slice `s`, up to their order. -/
theorem toIVCSC_segments (p : Params) (M : SparseMatrix) (hlen : M.data.length = M.outerDim)
    (hnodup : ∀ s ∈ M.data, ((iterate s).map Prod.fst).Nodup)
    (hnnz : (emitFrom 0 M.data).length ≤ M.nnz)
    (hfit : (emitFrom 0 M.data).length < indexLimit p) :
    ∃ A, toIVCSC p M = some A ∧
      A.numRows = M.numRows ∧ A.numCols = M.numCols ∧ A.nnz = M.nnz ∧
      A.colPtrs.length = M.outerDim + 1 ∧
      (∀ s, s ≤ M.outerDim → A.colPtrs.getD s 0 < indexLimit p) ∧
      ∀ s, s < M.outerDim →
        (((A.indices.zip A.values).take (A.colPtrs.getD (s + 1) 0)).drop
          (A.colPtrs.getD s 0)).Perm (iterate (sliceAt M.data s)) := by
  have hget : ∀ j, j ≤ M.data.length →
      ((List.range (M.data.length + 1)).map fun j =>
        (((M.data.map indexDict).map List.length).take j).sum).getD j 0
        = (((M.data.map indexDict).map List.length).take j).sum := by
    intro j hj
    rw [List.getD_eq_getElem _ _ (by simp; omega)]
    simp
  refine ⟨_, toIVCSC_eq p M hlen hnodup hnnz (Nat.lt_of_lt_of_le hfit (indexLimit_le p)),
    rfl, rfl, rfl, ?_, ?_, ?_⟩
  · simp [hlen]
  · intro s hs
    rw [← hlen] at hs
    simp only
    rw [hget s hs]
    exact Nat.lt_of_le_of_lt (colPtrs_le_total M hnodup s) hfit
  · intro s hs
    rw [← hlen] at hs
    simp only [zip_map_fst_snd]
    rw [hget s (Nat.le_of_lt hs), hget (s + 1) hs,
      List.drop_take_succ_flatten_eq_getElem _ s (by simpa using hs)]
    have hsl : sliceAt M.data s = M.data[s] := by
      simp [sliceAt, List.getD_eq_getElem?_getD, List.getElem?_eq_getElem hs]
    rw [hsl, List.getElem_map]
    exact indexDict_perm _ (hnodup _ (List.getElem_mem _))

theorem toIVCSC_segments_witness :
    ∃ A, toIVCSC exampleParams example2x3 = some A ∧
      A.numRows = 2 ∧ A.numCols = 3 ∧ A.nnz = 3 ∧
      A.colPtrs.length = 3 + 1 ∧
      (∀ s, s ≤ 3 → A.colPtrs.getD s 0 < indexLimit exampleParams) ∧
      ∀ s, s < 3 →
        (((A.indices.zip A.values).take (A.colPtrs.getD (s + 1) 0)).drop
          (A.colPtrs.getD s 0)).Perm (iterate (sliceAt example2x3.data s)) :=
  toIVCSC_segments exampleParams example2x3 (by decide) (by decide) (by decide) (by decide)

/-! ## Construction without non-zeros -/

theorem iterate_sliceAt_replicate (n s : Nat) :
    iterate (sliceAt (List.replicate n []) s) = [] := by
  rw [sliceAt_replicate]; rfl

theorem emitFrom_nil_of_empty (data : List Slice) (h : ∀ s ∈ data, s = []) :
    ∀ k, emitFrom k data = [] := by
  induction data with
  | nil => intro k; rfl
  | cons s rest ih =>
    intro k
    have hs : s = [] := h s (List.mem_cons_self _ _)
    subst hs
    simp only [emitFrom, iterate, List.flatMap_nil, List.map_nil, List.nil_append]
    exact ih (fun x hx => h x (List.mem_cons_of_mem _ hx)) (k + 1)

/-- C30 (counterexample): with `IVSPARSE_DEBUG` and active assertions the
coordinate constructor called with 4 rows, 3 columns and `nnz = 0` stops at its
first assertion and builds no matrix; the raw CSC constructor of the CSF class
called with 4 rows, 3 columns and `nnz = 0` returns before the dimensions are
assigned and reports 0 rows and 0 columns. -/
theorem empty_input_not_accepted :
    cooConstructorChecked ⟨true, true⟩ exampleParams [] 4 3 0 = Except.error Failure.assertion ∧
    (∀ compressCSC, (CSF.rawCSCConstructor true compressCSC 4 3 0).numRows = 0 ∧
      (CSF.rawCSCConstructor true compressCSC 4 3 0).numCols = 0) :=
  ⟨rfl, fun _ => ⟨rfl, rfl⟩⟩

/-- C30 (amended): without `IVSPARSE_DEBUG`, the coordinate constructor called
with `nnz = 0`, `num_rows` below `2^32` and any `num_cols` builds a matrix that
reports these rows and columns, `nnz = 0`, the inner and outer dimension of its
orientation and a header that mirrors these fields. -/
theorem cooConstructor_empty (p : Params) (asserts : Bool) (entries : List Entry)
    (num_rows num_cols : Nat) (hrows : num_rows < 4294967296) :
    ∃ M, cooConstructorChecked ⟨false, asserts⟩ p entries num_rows num_cols 0 = Except.ok M ∧
      M.numRows = num_rows ∧ M.numCols = num_cols ∧ M.nnz = 0 ∧
      M.outerDim = (if p.columnMajor then num_cols else num_rows) ∧
      M.innerDim = (if p.columnMajor then num_rows else num_cols) ∧
      M.metadata = [2, M.innerDim, M.outerDim, 0, p.val_t, p.index_t] := by
  have hw : wrap32 num_rows = num_rows := Nat.mod_eq_of_lt hrows
  have h : cooConstructorChecked ⟨false, asserts⟩ p entries num_rows num_cols 0
      = Except.ok
        { innerDim := if p.columnMajor then num_rows else num_cols
          outerDim := if p.columnMajor then num_cols else num_rows
          numRows := num_rows
          numCols := num_cols
          nnz := 0
          val_t := p.val_t
          index_t := p.index_t
          metadata := [2, if p.columnMajor then num_rows else num_cols,
            if p.columnMajor then num_cols else num_rows, 0, p.val_t, p.index_t]
          data := [] } := by
    simp [cooConstructorChecked, cooConstructor_zero, hw]
  exact ⟨_, h, rfl, rfl, rfl, rfl, rfl, rfl⟩

theorem cooConstructor_empty_witness :
    ∃ M, cooConstructorChecked ⟨false, true⟩ exampleParams [] 4 3 0 = Except.ok M ∧
      M.numRows = 4 ∧ M.numCols = 3 ∧ M.nnz = 0 ∧
      M.outerDim = (if exampleParams.columnMajor then 3 else 4) ∧
      M.innerDim = (if exampleParams.columnMajor then 4 else 3) ∧
      M.metadata = [2, M.innerDim, M.outerDim, 0, exampleParams.val_t, exampleParams.index_t] :=
  cooConstructor_empty exampleParams true [] 4 3 (by decide)

/-! ## Order of the keys and of the index lists -/

theorem mem_mapPushBack (m : Slice) (v : Int) (a : Nat) (e : Int × List Nat)
    (h : e ∈ mapPushBack m v a) :
    e ∈ m ∨ (e.1 = v ∧ ((∃ is, (v, is) ∈ m ∧ e.2 = is ++ [a]) ∨ e.2 = [a])) := by
  induction m with
  | nil =>
    simp only [mapPushBack, List.mem_singleton] at h
    subst h
    exact Or.inr ⟨rfl, Or.inr rfl⟩
  | cons x rest ih =>
    obtain ⟨k, is⟩ := x
    unfold mapPushBack at h
    split_ifs at h with h1 h2
    · subst h1
      rcases List.mem_cons.mp h with h | h
      · subst h
        exact Or.inr ⟨rfl, Or.inl ⟨is, List.mem_cons_self _ _, rfl⟩⟩
      · exact Or.inl (List.mem_cons_of_mem _ h)
    · rcases List.mem_cons.mp h with h | h
      · subst h
        exact Or.inr ⟨rfl, Or.inr rfl⟩
      · exact Or.inl h
    · rcases List.mem_cons.mp h with h | h
      · subst h
        exact Or.inl (List.mem_cons_self _ _)
      · rcases ih h with h' | ⟨h3, h4⟩
        · exact Or.inl (List.mem_cons_of_mem _ h')
        · refine Or.inr ⟨h3, ?_⟩
          rcases h4 with ⟨js, hj, he⟩ | h4
          · exact Or.inl ⟨js, List.mem_cons_of_mem _ hj, he⟩
          · exact Or.inr h4

theorem keys_mapPushBack (m : Slice) (v : Int) (a : Nat) :
    ∀ k ∈ (mapPushBack m v a).map Prod.fst, k = v ∨ k ∈ m.map Prod.fst := by
  intro k hk
  obtain ⟨e, he, rfl⟩ := List.mem_map.mp hk
  rcases mem_mapPushBack m v a e he with h | ⟨h, _⟩
  · exact Or.inr (List.mem_map_of_mem _ h)
  · exact Or.inl h

theorem sorted_keys_mapPushBack (m : Slice) (v : Int) (a : Nat)
    (h : (m.map Prod.fst).Sorted (fun x y => x < y)) :
    ((mapPushBack m v a).map Prod.fst).Sorted (fun x y => x < y) := by
  induction m with
  | nil => simp [mapPushBack]
  | cons x rest ih =>
    obtain ⟨k, is⟩ := x
    rw [List.map_cons, List.sorted_cons] at h
    unfold mapPushBack
    split_ifs with h1 h2
    · rw [List.map_cons, List.sorted_cons]
      exact h
    · rw [List.map_cons, List.map_cons, List.sorted_cons, List.sorted_cons]
      refine ⟨?_, h⟩
      intro b hb
      rcases List.mem_cons.mp hb with hb | hb
      · rw [hb]; exact h2
      · exact lt_trans h2 (h.1 b hb)
    · rw [List.map_cons, List.sorted_cons]
      refine ⟨?_, ih h.2⟩
      intro b hb
      rcases keys_mapPushBack rest v a b hb with hb | hb
      · rw [hb]
        exact lt_of_le_of_ne (not_lt.mp h2) (fun hh => h1 hh.symm)
      · exact h.1 b hb

theorem mapAssign_eq_mapPushBack (m : Slice) (v : Int) (a : Nat)
    (h : mapContains m v = false) : mapAssign m v [a] = mapPushBack m v a := by
  induction m with
  | nil => rfl
  | cons x rest ih =>
    obtain ⟨k, is⟩ := x
    simp only [mapContains, List.any_cons, Bool.or_eq_false_iff, beq_eq_false_iff_ne] at h
    have hne : ¬ v = k := fun hh => h.1 hh.symm
    unfold mapAssign mapPushBack
    rw [if_neg hne, if_neg hne]
    split_ifs with h2
    · rfl
    · rw [ih (by simpa [mapContains] using h.2)]

theorem cooInsert_eq_scratchPush (data : List Slice) (e : Entry) :
    cooInsert data e = scratchPush data e.2.1 e.2.2 e.1 := by
  unfold cooInsert scratchPush
  by_cases h : e.2.1 < data.length
  · rw [dif_pos h, dif_pos h]
    cases hc : mapContains (data.get ⟨e.2.1, h⟩) e.2.2
    · simp only [Bool.false_eq_true, if_false]
      rw [mapAssign_eq_mapPushBack _ _ _ hc]
    · simp only [if_true]
  · rw [dif_neg h, dif_neg h]

theorem entryLess_eq_false (a b : Entry) :
    entryLess a b = false ↔ (b.2.1 < a.2.1 ∨ (a.2.1 = b.2.1 ∧ b.1 ≤ a.1)) := by
  unfold entryLess
  by_cases h : a.2.1 = b.2.1
  · rw [if_pos h, decide_eq_false_iff_not]
    constructor <;> intro h1 <;> omega
  · rw [if_neg h, decide_eq_false_iff_not]
    constructor <;> intro h1 <;> omega

theorem sortEntries_pairwise (entries : List Entry)
    (hdist : (entries.map fun e => (e.1, e.2.1)).Nodup) :
    (sortEntries entries).Pairwise fun x y => x.2.1 = y.2.1 → x.1 < y.1 := by
  have htotal : IsTotal Entry (fun a b => entryLess b a = false) := by
    constructor
    intro a b
    rw [entryLess_eq_false, entryLess_eq_false]
    omega
  have htrans : IsTrans Entry (fun a b => entryLess b a = false) := by
    constructor
    intro a b c hab hbc
    rw [entryLess_eq_false] at hab hbc ⊢
    omega
  have hsorted : (sortEntries entries).Sorted (fun a b => entryLess b a = false) :=
    List.sorted_insertionSort _ entries
  have hperm : (sortEntries entries).Perm entries := List.perm_insertionSort _ _
  have hnd : ((sortEntries entries).map fun e => (e.1, e.2.1)).Nodup :=
    (hperm.map _).nodup_iff.mpr hdist
  have hne : (sortEntries entries).Pairwise fun x y => (x.1, x.2.1) ≠ (y.1, y.2.1) := by
    rw [List.Nodup, List.pairwise_map] at hnd
    exact hnd
  refine (List.Pairwise.and hsorted hne).imp ?_
  intro x y hxy hcol
  obtain ⟨h1, h2⟩ := hxy
  rw [entryLess_eq_false] at h1
  have h3 : x.1 ≠ y.1 := by
    intro hh
    apply h2
    rw [hh, hcol]
  omega

theorem foldlM_cooInsert_eq (es : List Entry) (data : List Slice) :
    es.foldlM cooInsert data
      = (es.map fun e => (e.2.1, e.2.2, e.1)).foldlM
          (fun m t => scratchPush m t.1 t.2.1 t.2.2) data := by
  rw [List.foldlM_map]
  congr 1
  funext m e
  exact cooInsert_eq_scratchPush m e

/-- C32: for the triplets `(1,1,3)`, `(0,2,2)`, `(0,0,1)`, `(1,0,1)` of a 2x3
column-major matrix, pairwise distinct in `(row, col)` and in range, the
constructor builds no matrix, so that no slice with ascending index lists
exists: `data.reserve(3)` creates no slice and the first step of the loop
indexes `data[0]` outside the container. -/
theorem cooConstructor_sliceOrdered_no_result :
    (([((1, 1, 3) : Entry), (0, 2, 2), (0, 0, 1), (1, 0, 1)]).map
      fun e => (e.1, e.2.1)).Nodup ∧
    sortEntries [((1, 1, 3) : Entry), (0, 2, 2), (0, 0, 1), (1, 0, 1)]
      = [(0, 0, 1), (1, 0, 1), (1, 1, 3), (0, 2, 2)] ∧
    cooInsert (reserve [] 3) (0, 0, 1) = none ∧
    cooConstructor exampleParams [(1, 1, 3), (0, 2, 2), (0, 0, 1), (1, 0, 1)] 2 3 4 = none :=
  ⟨by decide, by decide, rfl, cooConstructor_none _ _ _ _ _ (by decide)⟩

/-! ## Transpose: ascending index lists -/

theorem scratchPush_sorted_keys (maps maps' : List Slice) (i : Nat) (v : Int) (a : Nat)
    (hinv : ∀ s ∈ maps, (s.map Prod.fst).Sorted (fun x y => x < y))
    (h : scratchPush maps i v a = some maps') :
    ∀ s ∈ maps', (s.map Prod.fst).Sorted (fun x y => x < y) := by
  unfold scratchPush at h
  split_ifs at h with hi
  simp only [Option.some.injEq] at h
  subst h
  intro s hs
  rcases List.mem_or_eq_of_mem_set hs with hs | hs
  · exact hinv s hs
  · rw [hs]
    exact sorted_keys_mapPushBack _ v a (hinv _ (List.get_mem _ _ _))

theorem foldlM_preserves {σ α : Type} (Inv : σ → Prop) (f : σ → α → Option σ)
    (hstep : ∀ s a s', Inv s → f s a = some s' → Inv s') (l : List α) :
    ∀ s s', Inv s → l.foldlM f s = some s' → Inv s' := by
  induction l with
  | nil =>
    intro s s' hs h
    simp only [List.foldlM_nil, Option.pure_def, Option.some.injEq] at h
    rw [← h]; exact hs
  | cons a rest ih =>
    intro s s' hs h
    rw [List.foldlM_cons] at h
    cases h1 : f s a with
    | none => rw [h1] at h; simp at h
    | some s1 =>
      rw [h1] at h
      exact ih s1 s' (hstep s a s1 hs h1) h

/-! ## Arrays of the conversion without the once-per-slice assumption -/

theorem keys_indexAssign (d : List (Nat × Int)) (i : Nat) (v : Int) :
    ∀ k ∈ (indexAssign d i v).map Prod.fst, k = i ∨ k ∈ d.map Prod.fst := by
  induction d with
  | nil => intro k hk; simpa [indexAssign] using hk
  | cons x rest ih =>
    obtain ⟨k0, old⟩ := x
    intro k hk
    unfold indexAssign at hk
    split_ifs at hk with h1 h2
    · exact Or.inr (by simpa using hk)
    · simp only [List.map_cons, List.mem_cons] at hk ⊢
      tauto
    · simp only [List.map_cons, List.mem_cons] at hk ⊢
      rcases hk with hk | hk
      · exact Or.inr (Or.inl hk)
      · rcases ih k hk with h | h
        · exact Or.inl h
        · exact Or.inr (Or.inr h)

theorem sorted_keys_indexAssign (d : List (Nat × Int)) (i : Nat) (v : Int)
    (h : (d.map Prod.fst).Sorted (fun x y => x < y)) :
    ((indexAssign d i v).map Prod.fst).Sorted (fun x y => x < y) := by
  induction d with
  | nil => simp [indexAssign]
  | cons x rest ih =>
    obtain ⟨k, old⟩ := x
    rw [List.map_cons, List.sorted_cons] at h
    unfold indexAssign
    split_ifs with h1 h2
    · rw [List.map_cons, List.sorted_cons]
      exact h
    · rw [List.map_cons, List.map_cons, List.sorted_cons, List.sorted_cons]
      refine ⟨?_, h⟩
      intro b hb
      rcases List.mem_cons.mp hb with hb | hb
      · rw [hb]; exact h2
      · exact lt_trans h2 (h.1 b hb)
    · rw [List.map_cons, List.sorted_cons]
      refine ⟨?_, ih h.2⟩
      intro b hb
      rcases keys_indexAssign rest i v b hb with hb | hb
      · rw [hb]; omega
      · exact h.1 b hb

theorem sorted_keys_indexDict (s : Slice) :
    ((indexDict s).map Prod.fst).Sorted (fun x y => x < y) := by
  unfold indexDict
  have h : ∀ (l : List (Nat × Int)) (d : List (Nat × Int)),
      (d.map Prod.fst).Sorted (fun x y => x < y) →
      ((l.foldl (fun d e => indexAssign d e.1 e.2) d).map Prod.fst).Sorted
        (fun x y => x < y) := by
    intro l
    induction l with
    | nil => intro d hd; exact hd
    | cons e rest ih => intro d hd; exact ih _ (sorted_keys_indexAssign d e.1 e.2 hd)
  exact h _ [] List.sorted_nil

theorem sum_take_le_succ (l : List Nat) (j : Nat) : (l.take j).sum ≤ (l.take (j + 1)).sum := by
  induction l generalizing j with
  | nil => simp
  | cons x rest ih =>
    cases j with
    | zero => simp
    | succ j => simp only [List.take_succ_cons, List.sum_cons]; exact Nat.add_le_add_left (ih j) x

/-- C37 (counterexample): a 2x1 content whose slice lists the inner index 0
under the values 1 and 2.  The column pointers are `[0, 2]`, while one entry
is written into `values` and `indices`. -/
theorem toIVCSC_counts_emissions :
    toIVCSC exampleParams exampleRepeatedIndex
      = some { values := [2], indices := [0], colPtrs := [0, 2],
               numRows := 2, numCols := 1, nnz := 2 } := by
  decide

/-- C37 (amended): for a matrix with one slice per outer index whose slices
hold each inner index at most once, whose number of stored entries is below
`2^(8 * sizeof(indexT) - 1)` and does not exceed `nnz`, the arrays built by
`toIVCSC` are well formed: `colPtrs[0] = 0`, `colPtrs[s] <= colPtrs[s + 1]` for
every slice, every column pointer is below `2^(8 * sizeof(indexT) - 1)` (so
that it is stored unchanged in a signed and in an unsigned index type),
`colPtrs[outerDim]` is the number of entries written into `values` and into
`indices`, and inside every column segment the inner indices are strictly
ascending. -/
theorem toIVCSC_wellFormed (p : Params) (M : SparseMatrix) (hlen : M.data.length = M.outerDim)
    (hnodup : ∀ s ∈ M.data, ((iterate s).map Prod.fst).Nodup)
    (hnnz : (emitFrom 0 M.data).length ≤ M.nnz)
    (hfit : (emitFrom 0 M.data).length < indexLimit p) :
    ∃ A, toIVCSC p M = some A ∧
      A.colPtrs.getD 0 0 = 0 ∧
      (∀ s, s < M.outerDim → A.colPtrs.getD s 0 ≤ A.colPtrs.getD (s + 1) 0) ∧
      (∀ s, s ≤ M.outerDim → A.colPtrs.getD s 0 < indexLimit p) ∧
      A.colPtrs.getD M.outerDim 0 = A.indices.length ∧
      A.values.length = A.indices.length ∧
      ∀ s, s < M.outerDim →
        ((A.indices.take (A.colPtrs.getD (s + 1) 0)).drop (A.colPtrs.getD s 0)).Sorted
          (fun x y => x < y) := by
  refine ⟨_, toIVCSC_eq p M hlen hnodup hnnz (Nat.lt_of_lt_of_le hfit (indexLimit_le p)), ?_⟩
  have hget : ∀ j, j ≤ M.data.length →
      ((List.range (M.data.length + 1)).map fun j =>
        (((M.data.map indexDict).map List.length).take j).sum).getD j 0
        = (((M.data.map indexDict).map List.length).take j).sum := by
    intro j hj
    rw [List.getD_eq_getElem _ _ (by simp; omega)]
    simp
  simp only
  rw [← hlen]
  refine ⟨?_, ?_, ?_, ?_, ?_, ?_⟩
  · rw [hget 0 (Nat.zero_le _)]; rfl
  · intro s hs
    rw [hget s (Nat.le_of_lt hs), hget (s + 1) hs]
    exact sum_take_le_succ _ s
  · intro s hs
    rw [hget s hs]
    exact Nat.lt_of_le_of_lt (colPtrs_le_total M hnodup s) hfit
  · rw [hget _ (Nat.le_refl _), List.take_of_length_le (by simp), List.length_map,
      List.length_flatten]
  · rw [List.length_map, List.length_map]
  · intro s hs
    rw [hget s (Nat.le_of_lt hs), hget (s + 1) hs]
    have hseg : ∀ (l : List (Nat × Int)) (a b : Nat),
        ((l.map Prod.fst).take b).drop a = ((l.take b).drop a).map Prod.fst := by
      intro l a b
      rw [List.map_drop, List.map_take]
    rw [hseg, List.drop_take_succ_flatten_eq_getElem _ s (by simpa using hs), List.getElem_map]
    exact sorted_keys_indexDict _

theorem toIVCSC_wellFormed_witness :
    ∃ A, toIVCSC exampleParams example2x3 = some A ∧
      A.colPtrs.getD 0 0 = 0 ∧
      (∀ s, s < 3 → A.colPtrs.getD s 0 ≤ A.colPtrs.getD (s + 1) 0) ∧
      (∀ s, s ≤ 3 → A.colPtrs.getD s 0 < indexLimit exampleParams) ∧
      A.colPtrs.getD 3 0 = A.indices.length ∧
      A.values.length = A.indices.length ∧
      ∀ s, s < 3 →
        ((A.indices.take (A.colPtrs.getD (s + 1) 0)).drop (A.colPtrs.getD s 0)).Sorted
          (fun x y => x < y) :=
  toIVCSC_wellFormed exampleParams example2x3 (by decide) (by decide) (by decide) (by decide)

/-! ## Frame of append, header and orientation after the constructors -/

theorem getD_set_ne (l : List Nat) (j k a : Nat) (h : k ≠ j) :
    (l.set j a).getD k 0 = l.getD k 0 := by
  simp only [List.getD_eq_getElem?_getD]
  rw [List.getElem?_set_ne (Ne.symm h)]

theorem oriented_append (p : Params) (f : BuildFlags) (M : SparseMatrix) (vec : Vector)
    (h : oriented p M = true) : oriented p (append p f M vec).1 = true := by
  unfold append
  by_cases h1 : (f.debug && f.asserts && vec.getLength != M.innerDim) = true
  · rw [if_pos h1]; exact h
  rw [if_neg h1]
  by_cases h2 : (decide (M.numRows < 1) && decide (M.numCols < 1)) = true
  · rw [if_pos h2]
    cases hp : p.columnMajor <;> simp [oriented, vectorConstructor, hp]
  rw [if_neg h2]
  by_cases h3 : (vec.nonZeros == 0) = true
  · rw [if_pos h3]
    cases hp : p.columnMajor <;> simp_all [oriented]
  rw [if_neg h3]
  by_cases h4 : (f.debug && vec.getLength != M.innerDim) = true
  · rw [if_pos h4]; exact h
  rw [if_neg h4]
  cases hp : p.columnMajor <;> simp_all [oriented]

theorem oriented_foldlM_appendStep (p : Params) (f : BuildFlags) (vecs : List Vector) :
    ∀ M M', oriented p M = true → vecs.foldlM (appendStep p f) M = Except.ok M' →
      oriented p M' = true := by
  induction vecs with
  | nil =>
    intro M M' h hM
    simp only [List.foldlM_nil, pure, Except.pure, Except.ok.injEq] at hM
    rw [← hM]; exact h
  | cons v rest ih =>
    intro M M' h hM
    rw [List.foldlM_cons] at hM
    have ho := oriented_append p f M v h
    unfold appendStep at hM
    rcases hap : append p f M v with ⟨M1, _ | e⟩
    · rw [hap] at hM ho
      exact ih M1 M' ho hM
    · rw [hap] at hM
      cases hM

/-- C39: `append(vec)` on a matrix that has a row or a column and one stored
slice per outer index leaves `innerDim`, the non-outer one of `numRows` and
`numCols`, `val_t`, `index_t`, the length of the header and every header word
other than the words 2 (`outerDim`) and 3 (`nnz`) unchanged, and every slice at
a position below the old `outerDim` has the content it had before. -/
theorem append_frame (p : Params) (f : BuildFlags) (M : SparseMatrix) (vec : Vector)
    (hdim : 1 ≤ M.numRows ∨ 1 ≤ M.numCols) (hdata : M.data.length = M.outerDim) :
    (append p f M vec).1.innerDim = M.innerDim ∧
    (if p.columnMajor then (append p f M vec).1.numRows = M.numRows
      else (append p f M vec).1.numCols = M.numCols) ∧
    (append p f M vec).1.val_t = M.val_t ∧ (append p f M vec).1.index_t = M.index_t ∧
    (append p f M vec).1.metadata.length = M.metadata.length ∧
    (∀ k, k ≠ 2 → k ≠ 3 → (append p f M vec).1.metadata.getD k 0 = M.metadata.getD k 0) ∧
    ∀ i, i < M.outerDim → (append p f M vec).1.data.get? i = M.data.get? i := by
  have hgate : (decide (M.numRows < 1) && decide (M.numCols < 1)) = false := by
    rcases hdim with h | h
    · have : ¬ M.numRows < 1 := by omega
      simp [this]
    · have : ¬ M.numCols < 1 := by omega
      simp [this]
  unfold append
  rw [hgate]
  by_cases h1 : (f.debug && f.asserts && vec.getLength != M.innerDim) = true
  · rw [if_pos h1]; simp
  rw [if_neg h1, if_neg (by simp)]
  by_cases h3 : (vec.nonZeros == 0) = true
  · rw [if_pos h3]
    cases hp : p.columnMajor <;>
      simp only [if_true, if_false, Bool.false_eq_true, List.length_set, true_and,
        implies_true, and_true] <;>
      exact fun k hk _ => getD_set_ne _ _ _ _ hk
  rw [if_neg h3]
  by_cases h4 : (f.debug && vec.getLength != M.innerDim) = true
  · rw [if_pos h4]; simp
  rw [if_neg h4]
  cases hp : p.columnMajor <;>
    simp only [if_true, if_false, Bool.false_eq_true, List.length_set, true_and] <;>
    refine ⟨fun k hk2 hk3 => ?_, fun i hi => ?_⟩
  all_goals first
    | (rw [getD_set_ne _ _ _ _ hk3, getD_set_ne _ _ _ _ hk2])
    | (rw [List.get?_eq_getElem?, List.get?_eq_getElem?,
          List.getElem?_append_left (by omega)])

theorem append_frame_witness :
    (1 ≤ example2x3.numRows ∨ 1 ≤ example2x3.numCols) ∧
    example2x3.data.length = example2x3.outerDim ∧
    (append exampleParams ⟨false, false⟩ example2x3 exampleVector2).1.innerDim = 2 ∧
    (append exampleParams ⟨false, false⟩ example2x3 exampleVector2).1.data.get? 1
      = some [(3, [1])] :=
  ⟨by decide, by decide,
    (append_frame exampleParams ⟨false, false⟩ example2x3 exampleVector2
      (by decide) (by decide)).1,
    by decide⟩

/-- C31: after `inPlaceTranspose()` on the 2x3 example the members are
`innerDim = 3` and `outerDim = 2`, while the header still holds the words
`[2, 2, 3, 3, 0, 4]` written for the matrix before the call: the header does not
mirror the fields. -/
theorem inPlaceTranspose_header_stale :
    (inPlaceTranspose exampleParams example2x3).map
        (fun M => (M.innerDim, M.outerDim, M.nnz, M.metadata, headerMirrors M))
      = some (3, 2, 3, [2, 2, 3, 3, 0, 4], false) := by
  decide

/-- The constructors from triplets, from a vector and by transpose write the
header from the members they have just assigned, and `append` keeps a mirroring
header mirroring. -/
theorem headerMirrors_others (p : Params) (f : BuildFlags) :
    (∀ entries r c n M, cooConstructor p entries r c n = some M → headerMirrors M = true) ∧
    (∀ vec, headerMirrors (vectorConstructor p vec) = true) ∧
    (∀ M T, transpose p M = some T → headerMirrors T = true) ∧
    (∀ M vec, headerMirrors M = true → headerMirrors (append p f M vec).1 = true) := by
  refine ⟨?_, ?_, ?_, ?_⟩
  · intro entries r c n M h
    simp only [cooConstructor, Option.map_eq_some'] at h
    obtain ⟨d, -, rfl⟩ := h
    simp [headerMirrors]
  · intro vec
    simp [headerMirrors, vectorConstructor]
  · intro M T h
    simp only [transpose, Option.map_eq_some'] at h
    obtain ⟨d, -, rfl⟩ := h
    simp [headerMirrors, transposeConstructor]
  · intro M vec h
    simp only [headerMirrors, beq_iff_eq] at h
    unfold append
    by_cases h1 : (f.debug && f.asserts && vec.getLength != M.innerDim) = true
    · rw [if_pos h1]; simpa [headerMirrors] using h
    rw [if_neg h1]
    by_cases h2 : (decide (M.numRows < 1) && decide (M.numCols < 1)) = true
    · rw [if_pos h2]; simp [headerMirrors, vectorConstructor]
    rw [if_neg h2]
    by_cases h3 : (vec.nonZeros == 0) = true
    · rw [if_pos h3]
      cases hp : p.columnMajor <;> simp [headerMirrors, h]
    rw [if_neg h3]
    by_cases h4 : (f.debug && vec.getLength != M.innerDim) = true
    · rw [if_pos h4]; simpa [headerMirrors] using h
    rw [if_neg h4]
    cases hp : p.columnMajor <;> simp [headerMirrors, h]

/-- C35: the matrix built from the list `[emptyVector2, exampleVector2]` of two
vectors of length 2 has `outerDim = 2` and a single stored slice, which holds
the content of the second vector: slice 0 is not the (empty) content of the
first vector and no slice is stored at position 1. -/
theorem vectorsConstructor_empty_first :
    vectorsConstructor exampleParams ⟨false, false⟩ [emptyVector2, exampleVector2]
      = Except.ok
          { innerDim := 2, outerDim := 2, numRows := 2, numCols := 2, nnz := 1, val_t := 0
            index_t := 4, metadata := [2, 2, 2, 1, 0, 4], data := [[(7, [1])]] } := by
  rfl

/-- C34, as stated: the Eigen row-major constructor of a column-major type
applied to a 2x3 input assigns `outerDim = 2` and `innerDim = 3`, not
`outerDim = cols`; the array of vectors constructor of a row-major level-3 type
applied to two vectors of length 1 assigns `numRows = 2` and `outerDim = 1`. -/
theorem constructors_not_all_oriented :
    oriented exampleParams (eigenRowMajorConstructor id example1x1 ⟨2, 3, 3⟩) = false ∧
    (eigenRowMajorConstructor id example1x1 ⟨2, 3, 3⟩).outerDim = 2 ∧
    (CSF.vectorsConstructor false 3 0 4 [CSF.exampleVector1, CSF.exampleVector1] 2).map
        (fun M => (M.numRows, M.numCols, M.outerDim, M.innerDim, CSF.oriented false M))
      = some (2, 1, 1, 2, false) := by
  decide

/-- C34, amended: when `compressCSC` leaves the four dimension fields as they
are at its call, the dimension fields agree with the orientation of the type
after the Eigen constructor, the raw CSC constructor, the constructor from
triplets, the vector constructor, the array of vectors constructor, the file
constructor and the transpose constructor of the level-2 class, and after the
file, raw CSC, transpose and (for a column-major type) array of vectors
constructors of the level-3 class.  The Eigen row-major constructor gives
`outerDim = numRows` and `innerDim = numCols` for either type, which is the
orientation of a row-major type. -/
theorem constructors_oriented (p : Params) (f : BuildFlags)
    (compressCSC : SparseMatrix → SparseMatrix)
    (compressCSC3 : CSF.SparseMatrix → CSF.SparseMatrix)
    (hframe : ∀ M, (compressCSC M).innerDim = M.innerDim ∧ (compressCSC M).outerDim = M.outerDim ∧
      (compressCSC M).numRows = M.numRows ∧ (compressCSC M).numCols = M.numCols)
    (hframe3 : ∀ M, (compressCSC3 M).innerDim = M.innerDim ∧
      (compressCSC3 M).outerDim = M.outerDim ∧
      (compressCSC3 M).numRows = M.numRows ∧ (compressCSC3 M).numCols = M.numCols) :
    (∀ start mat, oriented p (eigenConstructor p compressCSC start mat) = true) ∧
    (∀ start mat,
      (eigenRowMajorConstructor compressCSC start mat).outerDim
          = (eigenRowMajorConstructor compressCSC start mat).numRows ∧
        (eigenRowMajorConstructor compressCSC start mat).innerDim
          = (eigenRowMajorConstructor compressCSC start mat).numCols ∧
        (p.columnMajor = false →
          oriented p (eigenRowMajorConstructor compressCSC start mat) = true)) ∧
    (∀ start r c n M, rawCSCConstructor f p compressCSC start r c n = Except.ok M →
      oriented p M = true) ∧
    (∀ entries r c n M, cooConstructor p entries r c n = some M → oriented p M = true) ∧
    (∀ vec, oriented p (vectorConstructor p vec) = true) ∧
    (∀ vecs M, vectorsConstructor p f vecs = Except.ok M → oriented p M = true) ∧
    (∀ file M, fileConstructor p f file = Except.ok M → oriented p M = true) ∧
    (∀ maps r c, oriented p (transposeConstructor p maps r c) = true) ∧
    (∀ file M, CSF.fileConstructor p.columnMajor file = some M →
      CSF.oriented p.columnMajor M = true) ∧
    (∀ r c n, CSF.oriented p.columnMajor (CSF.rawCSCConstructor p.columnMajor compressCSC3 r c n)
      = true) ∧
    (∀ sizeofT maps r c M,
      CSF.transposeConstructor p.columnMajor sizeofT p.val_t p.index_t maps r c = some M →
        CSF.oriented p.columnMajor M = true) ∧
    (∀ level vec size M, CSF.vectorsConstructor true level p.val_t p.index_t vec size = some M →
      CSF.oriented true M = true) := by
  refine ⟨?_, ?_, ?_, ?_, ?_, ?_, ?_, ?_, ?_, ?_, ?_, ?_⟩
  · intro start mat
    obtain ⟨h1, h2, h3, h4⟩ := hframe
      { start with
        numRows := wrap32 mat.rows, numCols := wrap32 mat.cols
        outerDim := if p.columnMajor then wrap32 mat.cols else wrap32 mat.rows
        innerDim := if p.columnMajor then wrap32 mat.rows else wrap32 mat.cols
        nnz := wrap32 mat.nonZeros }
    cases hp : p.columnMajor <;> simp_all [oriented, eigenConstructor]
  · intro start mat
    obtain ⟨h1, h2, h3, h4⟩ := hframe
      { start with
        numRows := wrap32 mat.rows, numCols := wrap32 mat.cols
        outerDim := wrap32 mat.rows, innerDim := wrap32 mat.cols
        nnz := wrap32 mat.nonZeros }
    refine ⟨?_, ?_, ?_⟩
    · simp_all [eigenRowMajorConstructor]
    · simp_all [eigenRowMajorConstructor]
    · intro hp
      simp_all [oriented, eigenRowMajorConstructor]
  · intro start r c n M h
    unfold rawCSCConstructor at h
    by_cases hc : (f.debug && f.asserts &&
        !(decide (r > 0) && decide (c > 0) && decide (n > 0))) = true
    · rw [if_pos hc] at h; cases h
    · rw [if_neg hc] at h
      injection h with h
      subst h
      obtain ⟨h1, h2, h3, h4⟩ := hframe
        { start with
          innerDim := if p.columnMajor then r else c
          outerDim := if p.columnMajor then c else r
          numRows := r, numCols := c, nnz := n }
      cases hp : p.columnMajor <;> simp_all [oriented]
  · intro entries r c n M h
    simp only [cooConstructor, Option.map_eq_some'] at h
    obtain ⟨d, -, rfl⟩ := h
    cases hp : p.columnMajor <;> simp [oriented, hp]
  · intro vec
    cases hp : p.columnMajor <;> simp [oriented, vectorConstructor, hp]
  · intro vecs M h
    cases vecs with
    | nil => cases h
    | cons v rest =>
      refine oriented_foldlM_appendStep p f rest (vectorConstructor p v) M ?_ h
      cases hp : p.columnMajor <;> simp [oriented, vectorConstructor, hp]
  · intro file M h
    unfold fileConstructor at h
    cases hr : readN NUM_META_DATA file with
    | none => rw [hr] at h; cases h
    | some wr =>
      rw [hr] at h
      simp only at h
      by_cases hc : (f.debug && (wr.1.map Int.toNat).getD 0 0 != 2) = true
      · rw [if_pos hc] at h; cases h
      · rw [if_neg hc] at h
        split at h
        · cases h
        · injection h with h
          subst h
          cases hp : p.columnMajor <;> simp [oriented, hp]
  · intro maps r c
    cases hp : p.columnMajor <;> simp [oriented, transposeConstructor, hp]
  · intro file M h
    simp only [CSF.fileConstructor, Option.bind_eq_some, Option.map_eq_some'] at h
    obtain ⟨hd, -, r, -, rfl⟩ := h
    cases hp : p.columnMajor <;> simp [CSF.oriented]
  · intro r c n
    unfold CSF.rawCSCConstructor
    by_cases hn : n = 0
    · rw [if_pos hn]
      cases hp : p.columnMajor <;> simp [CSF.oriented, CSF.SparseMatrix.declared]
    · rw [if_neg hn]
      obtain ⟨h1, h2, h3, h4⟩ := hframe3
        { CSF.SparseMatrix.declared with
          innerDim := if p.columnMajor then r else c
          outerDim := if p.columnMajor then c else r
          numRows := r, numCols := c, nnz := n }
      unfold CSF.oriented
      rw [h1, h2, h3, h4]
      cases hp : p.columnMajor <;> simp
  · intro sizeofT maps r c M h
    simp only [CSF.transposeConstructor, Option.map_eq_some'] at h
    obtain ⟨st, -, rfl⟩ := h
    cases hp : p.columnMajor <;> simp [CSF.oriented]
  · intro level vec size M h
    simp only [CSF.vectorsConstructor, Option.bind_eq_some, Option.map_eq_some'] at h
    obtain ⟨v0, -, st, -, rfl⟩ := h
    simp [CSF.oriented]

theorem constructors_oriented_witness :
    oriented exampleParams (eigenConstructor exampleParams id example1x1 ⟨2, 3, 3⟩) = true ∧
    oriented rowMajorParams (eigenRowMajorConstructor id example1x1 ⟨2, 3, 3⟩) = true ∧
    oriented exampleParams (vectorConstructor exampleParams exampleVector2) = true :=
  have h := constructors_oriented exampleParams ⟨false, false⟩ id id
    (fun _ => ⟨rfl, rfl, rfl, rfl⟩) (fun _ => ⟨rfl, rfl, rfl, rfl⟩)
  have h' := constructors_oriented rowMajorParams ⟨false, false⟩ id id
    (fun _ => ⟨rfl, rfl, rfl, rfl⟩) (fun _ => ⟨rfl, rfl, rfl, rfl⟩)
  ⟨h.1 example1x1 ⟨2, 3, 3⟩, (h'.2.1 example1x1 ⟨2, 3, 3⟩).2.2 rfl, h.2.2.2.2.1 exampleVector2⟩

end IVSparse

namespace DeBruinesComp

/-! ## Column dictionaries of the encoder -/

theorem dictFind_dictAssign (m : Dict) (v : Nat) (vec : List Int) (v' : Nat) :
    dictFind (dictAssign m v vec) v' = if v' = v then some vec else dictFind m v' := by
  induction m with
  | nil => simp [dictAssign, dictFind]
  | cons e rest ih =>
    obtain ⟨k, old⟩ := e
    unfold dictAssign
    by_cases h1 : v = k
    · subst h1
      by_cases h : v' = v
      · simp [dictFind, h]
      · simp [dictFind, h]
    · rw [if_neg h1]
      by_cases h2 : v < k
      · rw [if_pos h2]
        by_cases h : v' = v
        · simp [dictFind, h]
        · simp [dictFind, h]
      · rw [if_neg h2]
        by_cases hk : v' = k
        · have hne : ¬ v' = v := fun hh => h1 (hh.symm.trans hk)
          have hkv : ¬ k = v := fun hh => h1 hh.symm
          simp [dictFind, hk, hkv]
        · simp [dictFind, hk, ih]

theorem mem_of_dictFind (m : Dict) (v : Nat) (vec : List Int) (h : dictFind m v = some vec) :
    (v, vec) ∈ m := by
  induction m with
  | nil => simp [dictFind] at h
  | cons e rest ih =>
    obtain ⟨k, old⟩ := e
    unfold dictFind at h
    split_ifs at h with hk
    · simp only [Option.some.injEq] at h
      subst hk h
      exact List.mem_cons_self _ _
    · exact List.mem_cons_of_mem _ (ih h)

theorem getLast?_getD_cons (a : Nat) (l : List Nat) (d : Nat) :
    (a :: l).getLast?.getD d = l.getLast?.getD a := by
  cases l with
  | nil => rfl
  | cons b rest =>
    simp [List.getLast?_cons_cons, List.getLast?_eq_getLast]

theorem deltasFrom_append (l : List Nat) (r : Nat) :
    ∀ prev, deltasFrom prev (l ++ [r])
      = deltasFrom prev l ++ [(r : Int) - ((l.getLast?.getD prev : Nat) : Int)] := by
  induction l with
  | nil => intro prev; rfl
  | cons a rest ih =>
    intro prev
    show deltasFrom prev (a :: (rest ++ [r])) = _
    simp only [deltasFrom, ih a, getLast?_getD_cons, List.cons_append]

theorem deltaWords_append (l : List Nat) (r : Nat) (hl : l ≠ []) :
    deltaWords (l ++ [r]) = deltaWords l ++ [(r : Int) - (lastRow l : Int)] := by
  cases l with
  | nil => exact absurd rfl hl
  | cons a rest =>
    show deltaWords (a :: (rest ++ [r])) = _
    simp only [deltaWords, deltasFrom_append, lastRow, getLast?_getD_cons, List.cons_append]

theorem lastRow_append (l : List Nat) (r : Nat) : lastRow (l ++ [r]) = r := by
  simp [lastRow]

theorem rowsOf_append (i v : Nat) (P : List Coo) (e : Coo) :
    rowsOf i v (P ++ [e])
      = rowsOf i v P ++ (if e.2.2 = i ∧ e.1 = v then [e.2.1] else []) := by
  unfold rowsOf
  rw [List.filter_append, List.map_append]
  by_cases h : e.2.2 = i ∧ e.1 = v
  · simp [h]
  · simp [h]

theorem dictStep_matches (i : Nat) (m : Dict) (P : List Coo) (e : Coo)
    (h : DictMatches i m P) : DictMatches i (dictStep i m e) (P ++ [e]) := by
  intro v
  rw [rowsOf_append]
  have hv := h v
  have he := h e.1
  unfold dictStep
  by_cases hcol : e.2.2 = i
  · by_cases hval : e.1 = v
    · subst hval
      simp only [hcol, true_and, if_true]
      by_cases hr : rowsOf i e.1 P = []
      · rw [hr] at he ⊢
        simp only [if_true] at he
        rw [he]
        simp [dictFind_dictAssign, lastRow, deltaWords, deltasFrom]
      · rw [if_neg hr] at he
        rw [he]
        simp only [dictFind_dictAssign, if_true, List.headD_cons]
        have hne : rowsOf i e.1 P ++ [e.2.1] ≠ [] := by simp
        rw [if_neg hne, lastRow_append, deltaWords_append _ _ hr]
        simp
    · have hne : ¬ v = e.1 := fun hh => hval hh.symm
      simp only [hcol, hval, and_false, if_false, List.append_nil, true_and, if_true]
      cases hf : dictFind m e.1 with
      | none => simp only [dictFind_dictAssign, if_neg hne]; exact hv
      | some vec => simp only [dictFind_dictAssign, if_neg hne]; exact hv
  · simp only [hcol, false_and, if_false, List.append_nil]
    cases hf : dictFind m e.1 with
    | none => exact hv
    | some vec => exact hv

theorem foldl_dictStep_matches (i : Nat) (rest : List Coo) :
    ∀ (m : Dict) (P : List Coo), DictMatches i m P →
      DictMatches i (rest.foldl (dictStep i) m) (P ++ rest) := by
  induction rest with
  | nil => intro m P h; simpa using h
  | cons e rest ih =>
    intro m P h
    have h1 := ih (dictStep i m e) (P ++ [e]) (dictStep_matches i m P e h)
    simpa using h1

theorem columnDict_matches (entries : List Coo) (i : Nat) :
    DictMatches i (columnDict entries i) entries := by
  have h := foldl_dictStep_matches i entries [] [] (fun v => by simp [dictFind, rowsOf])
  simpa [columnDict] using h

/-! ## Layout of the encoder output -/

theorem flatMap_encodeRun (val_t : Nat) (runs : List (Nat × List Int)) :
    runs.flatMap (encodeRun val_t)
      = runsBytes val_t runs ++ List.replicate (lastWidth runs) 0 := by
  induction runs with
  | nil => rfl
  | cons r rest ih =>
    cases rest with
    | nil => simp [runsBytes, encodeRun, lastWidth]
    | cons r' rest' =>
      rw [List.flatMap_cons, ih]
      simp [runsBytes, lastWidth, List.getLast?_cons_cons]

theorem foldl_columnStep (val_t bodyStart num_cols : Nat) (entries : List Coo) (n : Nat) :
    ((List.range n).foldl (columnStep val_t bodyStart num_cols entries) ⟨[], [0], 0⟩).body
        = ((List.range n).flatMap (columnDict entries)).flatMap (encodeRun val_t) ∧
    ((List.range n).foldl (columnStep val_t bodyStart num_cols entries) ⟨[], [0], 0⟩).previous_idx
        = lastWidth ((List.range n).flatMap (columnDict entries)) := by
  induction n with
  | zero => exact ⟨rfl, rfl⟩
  | succ n ih =>
    obtain ⟨hb, hp⟩ := ih
    rw [List.range_succ, List.foldl_append, List.flatMap_append]
    simp only [List.foldl_cons, List.foldl_nil, List.flatMap_cons, List.flatMap_nil,
      List.append_nil]
    constructor
    · simp only [columnStep, hb, List.flatMap_append]
      rfl
    · simp only [columnStep, hp]
      show (match (columnDict entries n).getLast? with
          | some run => idxWidth run.2
          | none => lastWidth ((List.range n).flatMap (columnDict entries))) = _
      cases hD : (columnDict entries n).getLast? with
      | none =>
        have : columnDict entries n = [] := List.getLast?_eq_none_iff.mp hD
        simp [this]
      | some run =>
        have hne : columnDict entries n ≠ [] := by
          intro h; rw [h] at hD; simp at hD
        simp only [lastWidth]
        rw [List.getLast?_append_of_ne_nil _ hne, hD]

theorem encode_eq_runsBytes (entries : List Coo) (row_num col_num : Nat)
    (hfit : writtenExtent entries row_num col_num ≤ allocated entries) :
    encode entries row_num col_num
      = some (header entries row_num col_num ++ colPointerBytes entries row_num col_num ++
          runsBytes (byte_width (maxVal entries)) (allRuns entries col_num)) := by
  obtain ⟨hb, hp⟩ := foldl_columnStep (byte_width (maxVal entries))
    ((header entries row_num col_num).length + col_num * 8) col_num entries col_num
  unfold encode colPointerBytes
  simp only
  rw [if_pos hfit]
  congr 2
  unfold encodeColumns
  rw [hb, hp, flatMap_encodeRun]
  simp [allRuns]

theorem writtenWords_runVector (rs : List Nat)
    (hskip : ∀ x ∈ deltaWords rs, x ≠ (lastRow rs : Int)) :
    writtenWords ((lastRow rs : Int) :: deltaWords rs) = deltaWords rs := by
  unfold writtenWords
  simp only [List.headD_cons]
  rw [List.filter_cons]
  simp only [bne_self_eq_false, Bool.false_eq_true, if_false]
  rw [List.filter_eq_self]
  intro x hx
  simpa using hskip x hx

theorem length_deltasFrom (rs : List Nat) : ∀ p, (deltasFrom p rs).length = rs.length := by
  induction rs with
  | nil => intro p; rfl
  | cons r rest ih => intro p; simp [deltasFrom, ih]

theorem length_deltaWords (rs : List Nat) : (deltaWords rs).length = rs.length := by
  cases rs with
  | nil => rfl
  | cons r rest => simp [deltaWords, length_deltasFrom]

theorem lt_getLast_of_chain (rest : List Nat) :
    ∀ r : Nat, List.Chain (fun a b => a < b) r rest → rest ≠ [] →
      r < rest.getLast?.getD r := by
  induction rest with
  | nil => intro r _ h; exact absurd rfl h
  | cons a more ih =>
    intro r hc _
    rw [List.chain_cons] at hc
    rw [getLast?_getD_cons]
    by_cases hm : more = []
    · subst hm; exact hc.1
    · exact Nat.lt_trans hc.1 (ih a hc.2 hm)

theorem deltasFrom_bound (rest : List Nat) :
    ∀ p : Nat, List.Chain (fun a b => a < b) p rest →
      ∀ x ∈ deltasFrom p rest,
        x + (p : Int) ≤ ((rest.getLast?.getD p : Nat) : Int) ∧
        (2 ≤ rest.length → x + (p : Int) < ((rest.getLast?.getD p : Nat) : Int)) := by
  induction rest with
  | nil => intro p _ x hx; simp [deltasFrom] at hx
  | cons r more ih =>
    intro p hc x hx
    rw [List.chain_cons] at hc
    obtain ⟨hpr, hc⟩ := hc
    rw [getLast?_getD_cons]
    simp only [deltasFrom, List.mem_cons] at hx
    rcases hx with rfl | hx
    · by_cases hm : more = []
      · subst hm
        simp
      · have hlt := lt_getLast_of_chain more r hc hm
        constructor
        · omega
        · intro _; omega
    · obtain ⟨h1, _⟩ := ih r hc x hx
      constructor
      · omega
      · intro _; omega

/-- For strictly ascending rows, no word of a run equals its last row as soon as
the run has three rows, or two rows of which the first is not 0. -/
theorem deltaWords_ne_lastRow (rs : List Nat) (hs : List.Chain' (fun a b => a < b) rs)
    (hk : 3 ≤ rs.length ∨ (rs.length = 2 ∧ rs.headD 0 ≠ 0)) :
    ∀ x ∈ deltaWords rs, x ≠ (lastRow rs : Int) := by
  cases rs with
  | nil => simp at hk
  | cons r0 rest =>
    have hc : List.Chain (fun a b => a < b) r0 rest := hs
    have hne : rest ≠ [] := by
      intro h; subst h; simp at hk
    have h0 := lt_getLast_of_chain rest r0 hc hne
    intro x hx
    simp only [deltaWords, List.mem_cons] at hx
    simp only [lastRow, getLast?_getD_cons]
    rcases hx with rfl | hx
    · omega
    · obtain ⟨h1, h2⟩ := deltasFrom_bound rest r0 hc x hx
      rcases hk with hk | hk
      · have := h2 (by simp only [List.length_cons] at hk; omega)
        omega
      · have hr : r0 ≠ 0 := by simpa using hk.2
        omega

/-- C21 (counterexample): one column holding the value 5 at rows 0, 2, 3 and
a second value at row 4.  With the 8-byte value `2^32` as second value the
encoding ends with the value bytes and the width byte of the second run: its
single index word `04` is not written, and no delimiter follows the last run.
With the one-byte value 9 the 22 bytes written pass the 16 bytes obtained by
`allocate()`. -/
theorem encode_single_index_run_has_no_word :
    encode [(5, 0, 0), (5, 2, 0), (5, 3, 0), (4294967296, 4, 0)] 6 1
      = some [1, 1, 8, 6, 1, 0, 0, 0, 0, 0, 0, 0, 0,
          5, 0, 0, 0, 0, 0, 0, 0, 1, 0, 2, 1, 0,
          0, 0, 0, 0, 1, 0, 0, 0, 1] ∧
    writtenExtent [(5, 0, 0), (5, 2, 0), (5, 3, 0), (9, 4, 0)] 6 1 = 22 ∧
    allocated [(5, 0, 0), (5, 2, 0), (5, 3, 0), (9, 4, 0)] = 16 ∧
    encode [(5, 0, 0), (5, 2, 0), (5, 3, 0), (9, 4, 0)] 6 1 = none := by
  decide

/-- C21 (amended): let the writes of the constructor stay inside the buffer
obtained by `allocate()`, and take a run of value `v` in column `i` whose rows,
in input order, are strictly ascending and number at least three, or two with
the first row not 0.  The run is an entry `(v, last row :: words)` of the column
dictionary, the words being `r_0, r_1 - r_0, ...`, one per row.  It is written
as the value in `val_t` bytes, the width byte `w` and every word in `w`
little-endian bytes; the delimiter of `w` zero bytes follows it.  The whole
output is the header, the column pointers and the runs, every run but the last
of the matrix followed by its delimiter. -/
theorem encode_run_layout (entries : List Coo) (row_num col_num i v : Nat)
    (hfit : writtenExtent entries row_num col_num ≤ allocated entries)
    (hi : i < col_num)
    (hasc : List.Chain' (fun a b => a < b) (rowsOf i v entries))
    (hk : 3 ≤ (rowsOf i v entries).length ∨
      ((rowsOf i v entries).length = 2 ∧ (rowsOf i v entries).headD 0 ≠ 0)) :
    (v, (lastRow (rowsOf i v entries) : Int) :: deltaWords (rowsOf i v entries))
        ∈ allRuns entries col_num ∧
    (deltaWords (rowsOf i v entries)).length = (rowsOf i v entries).length ∧
    encodeRunHead (byte_width (maxVal entries))
        (v, (lastRow (rowsOf i v entries) : Int) :: deltaWords (rowsOf i v entries))
      = Bytes.leBytes (byte_width (maxVal entries)) v ++
          [idxWidth ((lastRow (rowsOf i v entries) : Int) :: deltaWords (rowsOf i v entries))] ++
          (deltaWords (rowsOf i v entries)).flatMap (fun j =>
            Bytes.leBytes
              (idxWidth ((lastRow (rowsOf i v entries) : Int) :: deltaWords (rowsOf i v entries)))
              (toSizeT j)) ∧
    encodeRun (byte_width (maxVal entries))
        (v, (lastRow (rowsOf i v entries) : Int) :: deltaWords (rowsOf i v entries))
      = encodeRunHead (byte_width (maxVal entries))
          (v, (lastRow (rowsOf i v entries) : Int) :: deltaWords (rowsOf i v entries)) ++
        List.replicate
          (idxWidth ((lastRow (rowsOf i v entries) : Int) :: deltaWords (rowsOf i v entries))) 0 ∧
    encode entries row_num col_num
      = some (header entries row_num col_num ++ colPointerBytes entries row_num col_num ++
          runsBytes (byte_width (maxVal entries)) (allRuns entries col_num)) := by
  have hne : rowsOf i v entries ≠ [] := by
    intro h
    rw [h] at hk
    simp at hk
  have hskip := deltaWords_ne_lastRow (rowsOf i v entries) hasc hk
  refine ⟨?_, length_deltaWords _, ?_, rfl, encode_eq_runsBytes entries row_num col_num hfit⟩
  · unfold allRuns
    rw [List.mem_flatMap]
    refine ⟨i, List.mem_range.mpr hi, ?_⟩
    apply mem_of_dictFind
    rw [columnDict_matches entries i v, if_neg hne]
  · unfold encodeRunHead
    simp only [writtenWords_runVector _ hskip]

theorem encode_run_layout_witness :
    (3, [(9 : Int), 2, 2, 5]) ∈
      allRuns [(7, 1, 0), (7, 5, 0), (3, 2, 1), (3, 4, 1), (3, 9, 1), (4294967296, 0, 2)] 3 ∧
    encodeRun 8 (3, [(9 : Int), 2, 2, 5]) = [3, 0, 0, 0, 0, 0, 0, 0, 1, 2, 2, 5, 0] ∧
    encode [(7, 1, 0), (7, 5, 0), (3, 2, 1), (3, 4, 1), (3, 9, 1), (4294967296, 0, 2)] 10 3
      = some [1, 1, 8, 10, 3, 0, 0, 0, 0, 0, 0, 0, 0, 41, 0, 0, 0, 0, 0, 0, 0,
          54, 0, 0, 0, 0, 0, 0, 0,
          7, 0, 0, 0, 0, 0, 0, 0, 1, 1, 4, 0,
          3, 0, 0, 0, 0, 0, 0, 0, 1, 2, 2, 5, 0,
          0, 0, 0, 0, 1, 0, 0, 0, 1] := by
  have h := encode_run_layout
    [(7, 1, 0), (7, 5, 0), (3, 2, 1), (3, 4, 1), (3, 9, 1), (4294967296, 0, 2)] 10 3 1 3
    (by decide) (by decide) (by simp [rowsOf]) (by decide)
  refine ⟨h.1, ?_, ?_⟩
  · decide
  · rw [h.2.2.2.2]; decide

/-- C22: for the run of the 8-byte value `2^32` at rows 0, 200, 400 of one
column the words are 0, 200, 200, which fit in one byte, yet the width byte
written after the value is 2 and every word takes two bytes: the maximum is
taken over the whole vector, whose slot 0 holds the last absolute index 400. -/
theorem encode_width_counts_last_index :
    byte_width 200 = 1 ∧
    encode [(4294967296, 0, 0), (4294967296, 200, 0), (4294967296, 400, 0)] 500 1
      = some [2, 1, 8, 244, 1, 1, 0, 0, 0, 0, 0, 0, 0, 0,
          0, 0, 0, 0, 1, 0, 0, 0, 2, 0, 0, 200, 0, 200, 0] := by
  decide

/-! ## Byte widths -/

/-- C19, as stated, fails: `byte_width 65536` is 3, which is not in
`{1, 2, 4, 8}`; the least width of that set holding 65536 is 4. -/
theorem byte_width_returns_three :
    (65536 : Nat) < 2 ^ 64 ∧ byte_width 65536 = 3 ∧ byte_width 65536 ∉ [1, 2, 4, 8] ∧
    (65536 : Nat) < 2 ^ (8 * 4) ∧ ¬ (65536 : Nat) < 2 ^ (8 * 2) := by
  decide

/-- C19, amended: for every `n` below `2^64`, `byte_width n` is the least `w` in
`{1, 2, 3, 4, 8}` with `n < 2^(8*w)`; it never returns a width outside
`{1, 2, 3, 4, 8}`. -/
theorem byte_width_least (n : Nat) (hn : n < 2 ^ 64) :
    byte_width n ∈ [1, 2, 3, 4, 8] ∧ n < 2 ^ (8 * byte_width n) ∧
    ∀ w ∈ [1, 2, 3, 4, 8], n < 2 ^ (8 * w) → byte_width n ≤ w := by
  unfold byte_width
  split_ifs with h1 h2 h3 h4
  · refine ⟨by decide, by norm_num; omega, ?_⟩
    intro w hw _
    simp only [List.mem_cons, List.mem_singleton, List.not_mem_nil, or_false] at hw
    omega
  · refine ⟨by decide, by norm_num; omega, ?_⟩
    intro w hw hlt
    simp only [List.mem_cons, List.mem_singleton, List.not_mem_nil, or_false] at hw
    rcases hw with rfl | rfl | rfl | rfl | rfl <;>
      first | (norm_num at hlt ⊢; done) | (norm_num at hlt ⊢; omega)
  · refine ⟨by decide, by norm_num; omega, ?_⟩
    intro w hw hlt
    simp only [List.mem_cons, List.mem_singleton, List.not_mem_nil, or_false] at hw
    rcases hw with rfl | rfl | rfl | rfl | rfl <;>
      first | (norm_num at hlt ⊢; done) | (norm_num at hlt ⊢; omega)
  · refine ⟨by decide, by norm_num; omega, ?_⟩
    intro w hw hlt
    simp only [List.mem_cons, List.mem_singleton, List.not_mem_nil, or_false] at hw
    rcases hw with rfl | rfl | rfl | rfl | rfl <;>
      first | (norm_num at hlt ⊢; done) | (norm_num at hlt ⊢; omega)
  · refine ⟨by decide, by norm_num at hn ⊢; omega, ?_⟩
    intro w hw hlt
    simp only [List.mem_cons, List.mem_singleton, List.not_mem_nil, or_false] at hw
    rcases hw with rfl | rfl | rfl | rfl | rfl <;>
      first | (norm_num at hlt ⊢; done) | (norm_num at hlt ⊢; omega)

/-- C19, witness at `n = 70000`, where the width is 3. -/
theorem byte_width_least_witness :
    (70000 : Nat) < 2 ^ 64 ∧
    (byte_width 70000 ∈ [1, 2, 3, 4, 8] ∧ 70000 < 2 ^ (8 * byte_width 70000) ∧
      ∀ w ∈ [1, 2, 3, 4, 8], 70000 < 2 ^ (8 * w) → byte_width 70000 ≤ w) ∧
    byte_width 70000 = 3 :=
  ⟨by decide, byte_width_least 70000 (by decide), by decide⟩

/-- C20: for every `n` below `2^64`, `n < 2^(8 * byte_width n)`. -/
theorem byte_width_suffices (n : Nat) (hn : n < 2 ^ 64) : n < 2 ^ (8 * byte_width n) := by
  unfold byte_width
  split_ifs with h1 h2 h3 h4
  · norm_num; omega
  · norm_num; omega
  · norm_num; omega
  · norm_num; omega
  · norm_num at hn ⊢; omega

/-- C20, witness at the largest 64-bit value. -/
theorem byte_width_suffices_witness :
    (18446744073709551615 : Nat) < 2 ^ 64 ∧
    18446744073709551615 < 2 ^ (8 * byte_width 18446744073709551615) :=
  ⟨by decide, byte_width_suffices 18446744073709551615 (by decide)⟩

/-! ## Order of the value groups -/

theorem keys_dictAssign (m : Dict) (v : Nat) (vec : List Int) :
    ∀ k ∈ (dictAssign m v vec).map Prod.fst, k = v ∨ k ∈ m.map Prod.fst := by
  induction m with
  | nil => intro k hk; simpa [dictAssign] using hk
  | cons x rest ih =>
    obtain ⟨k0, old⟩ := x
    intro k hk
    unfold dictAssign at hk
    split_ifs at hk with h1 h2
    · exact Or.inr (by simpa using hk)
    · simp only [List.map_cons, List.mem_cons] at hk ⊢
      tauto
    · simp only [List.map_cons, List.mem_cons] at hk ⊢
      rcases hk with hk | hk
      · exact Or.inr (Or.inl hk)
      · rcases ih k hk with h | h
        · exact Or.inl h
        · exact Or.inr (Or.inr h)

theorem sorted_keys_dictAssign (m : Dict) (v : Nat) (vec : List Int)
    (h : (m.map Prod.fst).Sorted (fun x y => x < y)) :
    ((dictAssign m v vec).map Prod.fst).Sorted (fun x y => x < y) := by
  induction m with
  | nil => simp [dictAssign]
  | cons x rest ih =>
    obtain ⟨k, old⟩ := x
    rw [List.map_cons, List.sorted_cons] at h
    unfold dictAssign
    split_ifs with h1 h2
    · rw [List.map_cons, List.sorted_cons]
      exact h
    · rw [List.map_cons, List.map_cons, List.sorted_cons, List.sorted_cons]
      refine ⟨?_, h⟩
      intro b hb
      rcases List.mem_cons.mp hb with hb | hb
      · rw [hb]; exact h2
      · exact lt_trans h2 (h.1 b hb)
    · rw [List.map_cons, List.sorted_cons]
      refine ⟨?_, ih h.2⟩
      intro b hb
      rcases keys_dictAssign rest v vec b hb with hb | hb
      · rw [hb]; omega
      · exact h.1 b hb

theorem sorted_keys_dictStep (i : Nat) (m : Dict) (e : Coo)
    (h : (m.map Prod.fst).Sorted (fun x y => x < y)) :
    ((dictStep i m e).map Prod.fst).Sorted (fun x y => x < y) := by
  unfold dictStep
  cases dictFind m e.1 with
  | none =>
    simp only
    split_ifs
    · exact sorted_keys_dictAssign _ _ _ h
    · exact h
  | some vec =>
    simp only
    split_ifs
    · exact sorted_keys_dictAssign _ _ _ h
    · exact h

theorem sorted_keys_columnDict (entries : List Coo) (i : Nat) :
    ((columnDict entries i).map Prod.fst).Sorted (fun x y => x < y) := by
  unfold columnDict
  have h : ∀ (es : List Coo) (m : Dict), (m.map Prod.fst).Sorted (fun x y => x < y) →
      ((es.foldl (dictStep i) m).map Prod.fst).Sorted (fun x y => x < y) := by
    intro es
    induction es with
    | nil => intro m hm; exact hm
    | cons e rest ih => intro m hm; exact ih _ (sorted_keys_dictStep i m e hm)
  exact h entries [] List.sorted_nil

/-- C36 (counterexample): one column of the encoder's input in which the value 5
stands at row 0 and the value 3 at row 1, so that 5 is seen first.  The column
dictionary holds the group of 3 before the group of 5. -/
theorem value_groups_not_first_seen :
    columnDict [(5, 0, 0), (3, 1, 0)] 0 = [(3, [1, 1]), (5, [0, 0])] := by
  decide

/-- C36 (amended): the dictionary that the `DeBruinesComp` constructor builds
for a column of its coordinate input, a `std::map` keyed by the value, holds
and iterates its value groups in strictly ascending order of the values,
whichever value is seen first. -/
theorem value_groups_ascending (coo : List Coo) (i : Nat) :
    ((columnDict coo i).map Prod.fst).Sorted (fun x y => x < y) :=
  sorted_keys_columnDict coo i

end DeBruinesComp

namespace Bytes

/-! ## Little-endian words -/

theorem length_leBytes (w n : Nat) : (leBytes w n).length = w := by
  simp [leBytes]

theorem leBytes_succ (w n : Nat) : leBytes (w + 1) n = n % 256 :: leBytes w (n / 256) := by
  unfold leBytes
  rw [List.range_succ_eq_map, List.map_cons, List.map_map]
  congr 1
  · simp
  · apply List.map_congr_left
    intro b _
    simp only [Function.comp, pow_succ, Nat.div_div_eq_div_mul]
    rw [Nat.mul_comm]

theorem fromLE_leBytes (w : Nat) : ∀ n, n < 256 ^ w → fromLE (leBytes w n) = n := by
  induction w with
  | zero => intro n h; simp at h; subst h; rfl
  | succ w ih =>
    intro n h
    rw [leBytes_succ, fromLE, ih]
    · omega
    · rw [pow_succ] at h
      exact Nat.div_lt_of_lt_mul (by rw [Nat.mul_comm]; exact h)

theorem take_leBytes_append (w n : Nat) (tail : List Nat) :
    (leBytes w n ++ tail).take w = leBytes w n := by
  rw [List.take_append_eq_append_take, length_leBytes]
  simp [List.take_of_length_le, length_leBytes]

theorem drop_leBytes_append (w n : Nat) (tail : List Nat) :
    (leBytes w n ++ tail).drop w = tail := by
  rw [List.drop_append_eq_append_drop, length_leBytes]
  simp [List.drop_of_length_le, length_leBytes]

theorem leBytes_zero (w : Nat) : leBytes w 0 = List.replicate w 0 := by
  induction w with
  | zero => rfl
  | succ w ih => rw [leBytes_succ, List.replicate_succ]; simp [ih]

end Bytes

namespace CSF
open Bytes

/-! ## Decoding runs with the iterator -/

theorem interpretPointer_word (it : Iterator) (w n : Nat) (tail : List Nat)
    (hw : w = 1 ∨ w = 2 ∨ w = 4 ∨ w = 8) (hn : n < 256 ^ w)
    (hrest : it.rest = leBytes w n ++ tail) :
    interpretPointer it w = some (n, { it with rest := tail }) := by
  unfold interpretPointer
  rw [if_pos hw, hrest]
  have hl : (leBytes w n).length = w := length_leBytes w n
  have h1 : w ≤ (leBytes w n ++ tail).length := by rw [List.length_append, hl]; omega
  rw [if_pos h1]
  have h2 : (leBytes w n ++ tail).take w = leBytes w n := by
    rw [List.take_append_eq_append_take, hl]; simp [List.take_of_length_le, hl]
  have h3 : (leBytes w n ++ tail).drop w = tail := by
    rw [List.drop_append_eq_append_drop, hl]; simp [List.drop_of_length_le, hl]
  rw [h2, h3, fromLE_leBytes w n hn]

theorem increment_add (it : Iterator) (w d : Nat) (tail : List Nat)
    (hw : w = 1 ∨ w = 2 ∨ w = 4 ∨ w = 8) (hd : d < 256 ^ w)
    (hwidth : it.newIndexWidth = w) (hrest : it.rest = leBytes w d ++ tail)
    (hgo : d ≠ 0 ∨ it.firstIndex = true) :
    increment it = some ((it.index + d) % 18446744073709551616,
      { it with rest := tail, firstIndex := false,
                index := (it.index + d) % 18446744073709551616 }) := by
  subst hwidth
  unfold increment
  rw [interpretPointer_word it _ d tail hw hd hrest]
  simp only [Option.some_bind]
  have hc : ¬ (d = 0 ∧ it.firstIndex = false) := by
    rintro ⟨h0, hf⟩
    rcases hgo with h | h
    · exact h h0
    · rw [hf] at h; exact Bool.false_ne_true h
  rw [if_neg hc]

theorem increment_delimiter (it : Iterator) (w vw v w' r : Nat) (tail : List Nat)
    (hw : w = 1 ∨ w = 2 ∨ w = 4 ∨ w = 8) (hvw : vw = 1 ∨ vw = 2 ∨ vw = 4 ∨ vw = 8)
    (hw' : w' = 1 ∨ w' = 2 ∨ w' = 4 ∨ w' = 8)
    (hv : v < 256 ^ vw) (hr : r < 256 ^ w')
    (hwidth : it.newIndexWidth = w) (hvwidth : it.valueWidth = vw)
    (hfirst : it.firstIndex = false)
    (hrest : it.rest = List.replicate w 0 ++ (leBytes vw v ++ [w'] ++ leBytes w' r ++ tail)) :
    increment it = some (r,
      { it with rest := tail, value := v, newIndexWidth := w', index := r }) := by
  subst hwidth hvwidth
  unfold increment
  have hpos : 0 < 256 ^ it.newIndexWidth := by positivity
  rw [← leBytes_zero] at hrest
  rw [interpretPointer_word it _ 0 _ hw hpos hrest]
  simp only [Option.some_bind, hfirst, and_self, if_true]
  rw [interpretPointer_word _ _ v ([w'] ++ leBytes w' r ++ tail) hvw hv (by simp)]
  simp only [Option.some_bind, List.singleton_append, List.cons_append]
  rw [interpretPointer_word _ w' r tail hw' hr rfl]
  rfl

theorem increments_add (a b : Nat) :
    ∀ it, increments (a + b) it
      = (increments a it).bind fun r =>
          (increments b r.2).map fun rs => (r.1 ++ rs.1, rs.2) := by
  induction a with
  | zero =>
    intro it
    simp only [Nat.zero_add, increments, Option.some_bind, List.nil_append]
    cases increments b it <;> rfl
  | succ a ih =>
    intro it
    rw [Nat.add_right_comm]
    simp only [increments]
    cases h1 : increment it with
    | none => rfl
    | some r =>
      simp only [Option.some_bind, ih r.2]
      cases h2 : increments a r.2 with
      | none => rfl
      | some ra =>
        simp only [Option.some_bind, Option.map_some']
        cases h3 : increments b ra.2 with
        | none => rfl
        | some rb => rfl

theorem increments_run_tail (w : Nat) (hw : w = 1 ∨ w = 2 ∨ w = 4 ∨ w = 8) (later : List Nat) :
    ∀ (it : Iterator) (tail : List Nat), it.newIndexWidth = w → it.firstIndex = false →
      List.Chain (fun a b => a < b) it.index later →
      (∀ x ∈ deltas it.index later, x < 256 ^ w) →
      (∀ i ∈ later, i < 18446744073709551616) →
      it.rest = (deltas it.index later).flatMap (leBytes w) ++ tail →
      increments later.length it
        = some (later.map (fun i => (i, it.value)),
            { it with rest := tail, index := later.getLastD it.index }) := by
  induction later with
  | nil =>
    intro it tail _ _ _ _ _ hrest
    simp only [deltas, List.flatMap_nil, List.nil_append] at hrest
    simp only [List.length_nil, increments, List.map_nil, List.getLastD_nil]
    rw [← hrest]
  | cons r later ih =>
    intro it tail hwidth hfirst hchain hwords hbound hrest
    rw [List.chain_cons] at hchain
    obtain ⟨hlt, hchain⟩ := hchain
    simp only [deltas, List.flatMap_cons, List.append_assoc] at hrest
    have hd : r - it.index < 256 ^ w := hwords _ (by simp [deltas])
    have hr : r < 18446744073709551616 := hbound r (List.mem_cons_self _ _)
    have hstep := increment_add it w (r - it.index) _ hw hd hwidth hrest (Or.inl (by omega))
    have hidx : (it.index + (r - it.index)) % 18446744073709551616 = r := by
      rw [Nat.add_sub_cancel' (Nat.le_of_lt hlt)]
      exact Nat.mod_eq_of_lt hr
    rw [hidx] at hstep
    have hrec := ih
      { it with rest := (deltas r later).flatMap (leBytes w) ++ tail, firstIndex := false,
                index := r }
      tail hwidth rfl hchain
      (fun x hx => hwords x (by simp only [deltas, List.mem_cons]; exact Or.inr hx))
      (fun i hi => hbound i (List.mem_cons_of_mem _ hi)) rfl
    simp only [List.length_cons, increments, hstep, Option.some_bind, hrec, Option.map_some',
      List.map_cons, List.getLastD_cons]
    rw [← hfirst]

theorem Run.valid_iff (vw : Nat) (r : Run) :
    r.valid vw = true ↔
      (r.width = 1 ∨ r.width = 2 ∨ r.width = 4 ∨ r.width = 8) ∧
      r.value < 256 ^ vw ∧
      List.Chain (fun a b => a < b) r.first r.later ∧
      (∀ x ∈ r.first :: deltas r.first r.later, x < 256 ^ r.width) ∧
      (∀ i ∈ r.first :: r.later, i < 18446744073709551616) := by
  unfold Run.valid
  exact decide_eq_true_iff

theorem increments_runs (vw : Nat) (hvw : vw = 1 ∨ vw = 2 ∨ vw = 4 ∨ vw = 8) (more : List Run) :
    ∀ (it : Iterator) (tail : List Nat), it.valueWidth = vw → it.firstIndex = false →
      (it.newIndexWidth = 1 ∨ it.newIndexWidth = 2 ∨ it.newIndexWidth = 4 ∨
        it.newIndexWidth = 8) →
      (∀ r ∈ more, r.valid vw = true) →
      it.rest = List.replicate it.newIndexWidth 0 ++ (more.flatMap (Run.bytes vw) ++ tail) →
      ∃ it', increments (more.map fun r => r.later.length + 1).sum it
          = some (more.flatMap Run.pairs, it') ∧
        it'.newIndexWidth = (more.map fun r => r.width).getLastD it.newIndexWidth ∧
        it'.rest = List.replicate it'.newIndexWidth 0 ++ tail := by
  induction more with
  | nil =>
    intro it tail _ _ _ _ hrest
    exact ⟨it, rfl, rfl, by simpa using hrest⟩
  | cons r more ih =>
    intro it tail hvwidth hfirst hw hvalid hrest
    obtain ⟨hrw, hrv, hchain, hwords, hbound⟩ :=
      (Run.valid_iff vw r).mp (hvalid r (List.mem_cons_self _ _))
    have hrest1 : it.rest = List.replicate it.newIndexWidth 0 ++
        (leBytes vw r.value ++ [r.width] ++ leBytes r.width r.first ++
          ((deltas r.first r.later).flatMap (leBytes r.width) ++
            (List.replicate r.width 0 ++ (more.flatMap (Run.bytes vw) ++ tail)))) := by
      rw [hrest]
      simp [Run.bytes, Run.words, List.append_assoc]
    have hstep := increment_delimiter it it.newIndexWidth vw r.value r.width r.first _ hw hvw hrw
      hrv (hwords _ (List.mem_cons_self _ _)) rfl hvwidth hfirst hrest1
    have htail := increments_run_tail r.width hrw r.later
      { it with
        rest := (deltas r.first r.later).flatMap (leBytes r.width) ++
          (List.replicate r.width 0 ++ (more.flatMap (Run.bytes vw) ++ tail))
        value := r.value, newIndexWidth := r.width, index := r.first }
      (List.replicate r.width 0 ++ (more.flatMap (Run.bytes vw) ++ tail))
      rfl hfirst hchain (fun x hx => hwords x (List.mem_cons_of_mem _ hx))
      (fun i hi => hbound i (List.mem_cons_of_mem _ hi)) rfl
    obtain ⟨it', hrec, hwidth', hrest'⟩ := ih
      { it with
        rest := List.replicate r.width 0 ++ (more.flatMap (Run.bytes vw) ++ tail)
        value := r.value, newIndexWidth := r.width, index := r.later.getLastD r.first }
      tail hvwidth hfirst hrw (fun x hx => hvalid x (List.mem_cons_of_mem _ hx)) rfl
    refine ⟨it', ?_, ?_, hrest'⟩
    · have hsum : ((r :: more).map fun r => r.later.length + 1).sum
          = (r.later.length + (more.map fun r => r.later.length + 1).sum) + 1 := by
        simp only [List.map_cons, List.sum_cons]; omega
      rw [hsum]
      simp only [increments, hstep, Option.some_bind]
      rw [increments_add, htail]
      simp only [Option.some_bind, hrec, Option.map_some', List.flatMap_cons, Run.pairs,
        List.map_cons, List.cons_append]
    · rw [hwidth', List.map_cons, List.getLastD_cons]

theorem getLastD_map_width (more : List Run) :
    ∀ r : Run, (more.map fun x => x.width).getLastD r.width = (more.getLastD r).width := by
  induction more with
  | nil => intro r; rfl
  | cons x rest ih => intro r; simp only [List.map_cons, List.getLastD_cons]; exact ih x

/-- C23: on a buffer holding the runs `r :: more`, each written as value, width
byte, first index, positive deltas and delimiter, followed by any bytes `tail`,
with the iterator on the first index word of the first run, as many increments
as there are indices all return, and they return, in order, the absolute
indices of every run paired with the value of that run.  The cursor then stands
on the delimiter of the last run. -/
theorem increments_decode (vw : Nat) (hvw : vw = 1 ∨ vw = 2 ∨ vw = 4 ∨ vw = 8)
    (r : Run) (more : List Run) (tail : List Nat)
    (hvalid : ∀ x ∈ r :: more, x.valid vw = true) :
    ∃ it, increments ((r :: more).map fun x => x.later.length + 1).sum
          (Iterator.onFirstIndex vw r (more.flatMap (Run.bytes vw) ++ tail))
        = some ((r :: more).flatMap Run.pairs, it) ∧
      it.rest = List.replicate (more.getLastD r).width 0 ++ tail := by
  obtain ⟨hrw, hrv, hchain, hwords, hbound⟩ :=
    (Run.valid_iff vw r).mp (hvalid r (List.mem_cons_self _ _))
  have hstep := increment_add
    (Iterator.onFirstIndex vw r (more.flatMap (Run.bytes vw) ++ tail)) r.width r.first
    ((deltas r.first r.later).flatMap (leBytes r.width) ++
      (List.replicate r.width 0 ++ (more.flatMap (Run.bytes vw) ++ tail)))
    hrw (hwords _ (List.mem_cons_self _ _)) rfl
    (by simp [Iterator.onFirstIndex, Run.words, List.append_assoc]) (Or.inr rfl)
  have hidx : (0 + r.first) % 18446744073709551616 = r.first := by
    rw [Nat.zero_add]
    exact Nat.mod_eq_of_lt (hbound _ (List.mem_cons_self _ _))
  simp only [Iterator.onFirstIndex, hidx] at hstep
  have htail := increments_run_tail r.width hrw r.later
    { rest := (deltas r.first r.later).flatMap (leBytes r.width) ++
        (List.replicate r.width 0 ++ (more.flatMap (Run.bytes vw) ++ tail))
      index := r.first, value := r.value, valueWidth := vw, newIndexWidth := r.width
      firstIndex := false }
    (List.replicate r.width 0 ++ (more.flatMap (Run.bytes vw) ++ tail))
    rfl rfl hchain (fun x hx => hwords x (List.mem_cons_of_mem _ hx))
    (fun i hi => hbound i (List.mem_cons_of_mem _ hi)) rfl
  obtain ⟨it, hrec, hwidth, hrest⟩ := increments_runs vw hvw more
    { rest := List.replicate r.width 0 ++ (more.flatMap (Run.bytes vw) ++ tail)
      index := r.later.getLastD r.first, value := r.value, valueWidth := vw
      newIndexWidth := r.width, firstIndex := false }
    tail rfl rfl hrw (fun x hx => hvalid x (List.mem_cons_of_mem _ hx)) rfl
  refine ⟨it, ?_, ?_⟩
  · have hsum : ((r :: more).map fun x => x.later.length + 1).sum
        = (r.later.length + (more.map fun x => x.later.length + 1).sum) + 1 := by
      simp only [List.map_cons, List.sum_cons]; omega
    rw [hsum]
    simp only [increments, Iterator.onFirstIndex, hstep, Option.some_bind]
    rw [increments_add, htail]
    simp only [Option.some_bind, hrec, Option.map_some', List.flatMap_cons, Run.pairs,
      List.map_cons, List.cons_append]
  · rw [hrest, hwidth]
    exact congrArg (fun n => List.replicate n 0 ++ tail) (getLastD_map_width more r)

theorem increments_decode_witness :
    ∃ it, increments 4 (Iterator.onFirstIndex 1 ⟨5, 1, 0, [2, 3]⟩ [9, 1, 4, 0])
        = some ([(0, 5), (2, 5), (3, 5), (4, 9)], it) ∧ it.rest = [0] :=
  increments_decode 1 (by decide) ⟨5, 1, 0, [2, 3]⟩ [⟨9, 1, 4, []⟩] []
    (by simp [Run.valid, deltas])

/-- C24: an increment that reads an all-zero word of the current width.  While
`firstIndex` is set (first increment, `index` still 0) it returns index 0 and
keeps the value and the width, only clearing `firstIndex`.  Once `firstIndex`
is cleared the zero word is the delimiter: the value and the width that follow
are loaded and the first index of that run is returned. -/
theorem increment_zero_word (it : Iterator) (tail : List Nat)
    (hw : it.newIndexWidth = 1 ∨ it.newIndexWidth = 2 ∨ it.newIndexWidth = 4 ∨
      it.newIndexWidth = 8)
    (hrest : it.rest = List.replicate it.newIndexWidth 0 ++ tail) :
    (it.firstIndex = true → it.index = 0 →
      increment it = some (0, { it with rest := tail, firstIndex := false })) ∧
    (it.firstIndex = false →
      ∀ (v w r : Nat) (tail' : List Nat),
        (it.valueWidth = 1 ∨ it.valueWidth = 2 ∨ it.valueWidth = 4 ∨ it.valueWidth = 8) →
        (w = 1 ∨ w = 2 ∨ w = 4 ∨ w = 8) → v < 256 ^ it.valueWidth → r < 256 ^ w →
        tail = leBytes it.valueWidth v ++ [w] ++ leBytes w r ++ tail' →
        increment it
          = some (r, { it with rest := tail', value := v, newIndexWidth := w, index := r })) := by
  constructor
  · intro hfirst hindex
    have hpos : 0 < 256 ^ it.newIndexWidth := by positivity
    have h := increment_add it it.newIndexWidth 0 tail hw hpos rfl
      (by rw [leBytes_zero]; exact hrest) (Or.inr hfirst)
    rw [h, hindex]
  · intro hfirst v w r tail' hvw hw' hv hr htail
    subst htail
    exact increment_delimiter it it.newIndexWidth it.valueWidth v w r tail' hw hvw hw' hv hr
      rfl rfl hfirst hrest

theorem increment_zero_word_witness :
    increment ⟨[0, 2, 0], 0, 5, 1, 1, true⟩ = some (0, ⟨[2, 0], 0, 5, 1, 1, false⟩) ∧
    increment ⟨[0, 9, 1, 4, 0], 3, 5, 1, 1, false⟩ = some (4, ⟨[0], 4, 9, 1, 1, false⟩) :=
  ⟨(increment_zero_word ⟨[0, 2, 0], 0, 5, 1, 1, true⟩ [2, 0] (by decide) rfl).1 rfl rfl,
   (increment_zero_word ⟨[0, 9, 1, 4, 0], 3, 5, 1, 1, false⟩ [9, 1, 4, 0] (by decide) rfl).2 rfl
      9 1 4 [0] (by decide) (by decide) (by decide) (by decide) rfl⟩

/-! ## Level-3 file reader -/

theorem freadWords_flatMap (w : Nat) (words : List Nat) :
    ∀ tail : List Nat, (∀ x ∈ words, x < 256 ^ w) →
      freadWords w words.length (words.flatMap (leBytes w) ++ tail) = some (words, tail) := by
  induction words with
  | nil => intro tail _; rfl
  | cons x rest ih =>
    intro tail h
    have hx := h x (List.mem_cons_self _ _)
    simp only [List.length_cons, List.flatMap_cons, List.append_assoc, freadWords]
    have hle : w ≤ (leBytes w x ++ (rest.flatMap (leBytes w) ++ tail)).length := by
      rw [List.length_append, length_leBytes]; omega
    rw [if_pos hle, take_leBytes_append, drop_leBytes_append,
      ih tail (fun y hy => h y (List.mem_cons_of_mem _ hy)), fromLE_leBytes w x hx]
    rfl

theorem readSizes_flatMap (sizes : List Nat) :
    ∀ rest : List Nat, (∀ x ∈ sizes, x < 256 ^ 8) →
      readSizes sizes.length (sizes.flatMap (leBytes 8) ++ rest) = some (sizes, rest) := by
  induction sizes with
  | nil => intro rest _; rfl
  | cons x more ih =>
    intro rest h
    have hx := h x (List.mem_cons_self _ _)
    have h1 := freadWords_flatMap 8 [x] (more.flatMap (leBytes 8) ++ rest)
      (fun y hy => by rw [List.mem_singleton] at hy; rw [hy]; exact hx)
    simp only [List.flatMap_cons, List.flatMap_nil, List.append_nil, List.length_singleton]
      at h1
    simp only [List.length_cons, List.flatMap_cons, List.append_assoc, readSizes, h1,
      Option.some_bind, ih rest (fun y hy => h y (List.mem_cons_of_mem _ hy)), Option.map_some',
      List.headD_cons]

theorem fileConstructor_read (columnMajor : Bool) (words sizes rest : List Nat)
    (hlen : words.length = NUM_META_DATA) (hwords : ∀ x ∈ words, x < 256 ^ 4)
    (hsizes : ∀ x ∈ sizes, x < 256 ^ 8) (houter : sizes.length = words.getD 2 0) :
    fileConstructor columnMajor (headerBytes words ++ sizes.flatMap (leBytes 8) ++ rest)
      = some
        { innerDim := words.getD 1 0
          outerDim := words.getD 2 0
          numRows := if columnMajor then words.getD 1 0 else words.getD 2 0
          numCols := if columnMajor then words.getD 2 0 else words.getD 1 0
          nnz := words.getD 3 0
          val_t := words.getD 4 0
          index_t := words.getD 5 0
          metadata := words
          data := readPayloads sizes rest } := by
  unfold fileConstructor headerBytes
  rw [List.append_assoc, ← hlen, freadWords_flatMap 4 words _ hwords]
  simp only [Option.some_bind]
  rw [← houter, readSizes_flatMap sizes rest hsizes]
  rfl

theorem readPayloads_sizes (sizes : List Nat) :
    ∀ rest : List Nat, (readPayloads sizes rest).map Buffer.size = sizes ∧
      (readPayloads sizes rest).flatMap Buffer.bytes = rest.take sizes.sum ∧
      ∀ b ∈ readPayloads sizes rest, b.bytes.length ≤ b.size := by
  induction sizes with
  | nil => intro rest; simp [readPayloads]
  | cons x more ih =>
    intro rest
    obtain ⟨h1, h2, h3⟩ := ih (rest.drop x)
    refine ⟨by simp [readPayloads, h1], ?_, ?_⟩
    · simp only [readPayloads, List.flatMap_cons, h2, List.sum_cons]
      rw [List.take_add]
    · intro b hb
      simp only [readPayloads, List.mem_cons] at hb
      rcases hb with rfl | hb
      · simp [List.length_take]
      · exact h3 b hb

theorem readPayloads_flatten (payloads : List (List Nat)) :
    ∀ tail : List Nat,
      readPayloads (payloads.map List.length) (payloads.flatten ++ tail)
        = payloads.map fun b => ⟨b.length, b⟩ := by
  induction payloads with
  | nil => intro tail; rfl
  | cons b more ih =>
    intro tail
    simp only [List.map_cons, List.flatten_cons, List.append_assoc, readPayloads,
      List.take_left', List.drop_left', ih tail]

theorem readPayloadsAlloc_eq (malloc : Nat → Bool) (sizes : List Nat)
    (halloc : ∀ x ∈ sizes, malloc x = true) :
    ∀ rest : List Nat, readPayloadsAlloc malloc sizes rest = some (readPayloads sizes rest) := by
  induction sizes with
  | nil => intro rest; rfl
  | cons x more ih =>
    intro rest
    simp only [readPayloadsAlloc, readPayloads, halloc x (List.mem_cons_self _ _), Bool.true_or,
      if_true, ih (fun y hy => halloc y (List.mem_cons_of_mem _ hy)), Option.map_some']

theorem fileConstructorAlloc_read (malloc : Nat → Bool) (columnMajor : Bool)
    (words sizes rest : List Nat)
    (hlen : words.length = NUM_META_DATA) (hwords : ∀ x ∈ words, x < 256 ^ 4)
    (hsizes : ∀ x ∈ sizes, x < 256 ^ 8) (houter : sizes.length = words.getD 2 0)
    (halloc : ∀ x ∈ sizes, malloc x = true) :
    fileConstructorAlloc malloc columnMajor
        (headerBytes words ++ sizes.flatMap (leBytes 8) ++ rest)
      = some
        { innerDim := words.getD 1 0
          outerDim := words.getD 2 0
          numRows := if columnMajor then words.getD 1 0 else words.getD 2 0
          numCols := if columnMajor then words.getD 2 0 else words.getD 1 0
          nnz := words.getD 3 0
          val_t := words.getD 4 0
          index_t := words.getD 5 0
          metadata := words
          data := readPayloads sizes rest } := by
  unfold fileConstructorAlloc headerBytes
  rw [List.append_assoc, ← hlen, freadWords_flatMap 4 words _ hwords]
  simp only [Option.some_bind]
  rw [← houter, readSizes_flatMap sizes rest hsizes]
  simp only [Option.some_bind, readPayloadsAlloc_eq malloc sizes halloc, Option.map_some']

/-- C27 (counterexample): a level-3 file with one slice whose size field is 5
while 2 bytes remain, read with an allocator that serves every request up to
`2^32` bytes.  The constructor builds a matrix: the slice is allocated with 5
bytes and holds the 2 bytes that were left. -/
theorem fileConstructor_size_past_end :
    fileConstructorAlloc (fun n => decide (n ≤ 4294967296)) true
        (headerBytes [3, 1, 1, 1, 1, 1] ++ leBytes 8 5 ++ [7, 1])
      = some
        { innerDim := 1, outerDim := 1, numRows := 1, numCols := 1, nnz := 1, val_t := 1
          index_t := 1, metadata := [3, 1, 1, 1, 1, 1], data := [⟨5, [7, 1]⟩] } := by
  decide

/-- C27 (amended): the level-3 reader compares no size field with the bytes that
remain.  For every file made of a six-word header, one 8-byte size per slice and
any bytes `rest` after them, when `malloc` returns storage for every one of the
sizes, the constructor builds a matrix; slice `i` is allocated with the `i`-th
size, and the slices receive, in order, the leading bytes of `rest`, never more
than their size. -/
theorem fileConstructor_any_size (malloc : Nat → Bool) (columnMajor : Bool)
    (words sizes rest : List Nat)
    (hlen : words.length = NUM_META_DATA) (hwords : ∀ x ∈ words, x < 256 ^ 4)
    (hsizes : ∀ x ∈ sizes, x < 256 ^ 8) (houter : sizes.length = words.getD 2 0)
    (halloc : ∀ x ∈ sizes, malloc x = true) :
    ∃ M, fileConstructorAlloc malloc columnMajor
          (headerBytes words ++ sizes.flatMap (leBytes 8) ++ rest) = some M ∧
      M.data.map Buffer.size = sizes ∧
      M.data.flatMap Buffer.bytes = rest.take sizes.sum ∧
      ∀ b ∈ M.data, b.bytes.length ≤ b.size := by
  obtain ⟨h1, h2, h3⟩ := readPayloads_sizes sizes rest
  exact ⟨_, fileConstructorAlloc_read malloc columnMajor words sizes rest hlen hwords hsizes
    houter halloc, h1, h2, h3⟩

theorem fileConstructor_any_size_witness :
    ∃ M, fileConstructorAlloc (fun n => decide (n ≤ 4294967296)) true
          (headerBytes [3, 2, 2, 2, 1, 1] ++ [9, 8].flatMap (leBytes 8) ++ [5, 1, 2]) = some M ∧
      M.data.map Buffer.size = [9, 8] ∧
      M.data.flatMap Buffer.bytes = [5, 1, 2] ∧
      ∀ b ∈ M.data, b.bytes.length ≤ b.size :=
  fileConstructor_any_size (fun n => decide (n ≤ 4294967296)) true [3, 2, 2, 2, 1, 1] [9, 8]
    [5, 1, 2] (by decide) (by decide) (by decide) (by decide) (by decide)

/-- C28 (counterexample): a file with two slices in which each 8-byte size is
immediately followed by its payload, `[7]` and `[9]`.  The reader takes the
first 16 bytes after the header as the two sizes, so slice 0 does not hold the
payload `[7]` and slice 1 has size 263. -/
theorem fileConstructor_interleaved :
    fileConstructor true (interleaved [3, 1, 2, 2, 1, 1] [[7], [9]])
      = some
        { innerDim := 1, outerDim := 2, numRows := 1, numCols := 2, nnz := 2, val_t := 1
          index_t := 1, metadata := [3, 1, 2, 2, 1, 1], data := [⟨1, [0]⟩, ⟨263, [9]⟩] } := by
  decide

/-- C28 (amended): the level-3 reader consumes, after the header, the 8-byte
sizes of all slices and then the payloads of all slices.  For every file laid
out this way, slice `i` of the matrix built holds exactly the `i`-th payload and
its allocated size is the `i`-th size. -/
theorem fileConstructor_sizesFirst (columnMajor : Bool) (words : List Nat)
    (payloads : List (List Nat))
    (hlen : words.length = NUM_META_DATA) (hwords : ∀ x ∈ words, x < 256 ^ 4)
    (hsizes : ∀ b ∈ payloads, b.length < 256 ^ 8) (houter : payloads.length = words.getD 2 0) :
    ∃ M, fileConstructor columnMajor (sizesFirst words payloads) = some M ∧
      M.outerDim = payloads.length ∧
      M.data = payloads.map fun b => ⟨b.length, b⟩ := by
  have h := fileConstructor_read columnMajor words (payloads.map List.length) payloads.flatten
    hlen hwords
    (by
      intro x hx
      obtain ⟨b, hb, rfl⟩ := List.mem_map.mp hx
      exact hsizes b hb)
    (by rw [List.length_map]; exact houter)
  have hfile : sizesFirst words payloads
      = headerBytes words ++ (payloads.map List.length).flatMap (leBytes 8) ++
          payloads.flatten := by
    unfold sizesFirst
    rw [List.flatMap_map]
  rw [hfile, h]
  refine ⟨_, rfl, houter.symm, ?_⟩
  have h2 := readPayloads_flatten payloads []
  rw [List.append_nil] at h2
  exact h2

theorem fileConstructor_sizesFirst_witness :
    ∃ M, fileConstructor true (sizesFirst [3, 1, 2, 2, 1, 1] [[7], [9, 4]]) = some M ∧
      M.outerDim = 2 ∧ M.data = [⟨1, [7]⟩, ⟨2, [9, 4]⟩] :=
  fileConstructor_sizesFirst true [3, 1, 2, 2, 1, 1] [[7], [9, 4]] (by decide) (by decide)
    (by decide) (by decide)

/-! ## Private transpose constructor, level 3: layout of the slice buffers -/

theorem entryByteSize_toMapEntry (sizeofT : Nat) (e : RunEntry) :
    entryByteSize sizeofT e.toMapEntry.2
      = some (sizeofT + 1 + e.2.2 * e.2.1.length + e.2.2) := by
  simp only [entryByteSize, RunEntry.toMapEntry, List.getLast?_concat, Option.map_some',
    List.length_append, List.length_singleton, Nat.add_sub_cancel, Nat.add_assoc]

theorem storeWord_valid (w d : Nat) (hw : w = 1 ∨ w = 2 ∨ w = 4 ∨ w = 8) :
    storeWord w d = leBytes w d := by
  unfold storeWord
  rw [if_pos hw]

theorem writeEntry_toMapEntry (sizeofT : Nat) (e : RunEntry)
    (hw : e.2.2 = 1 ∨ e.2.2 = 2 ∨ e.2.2 = 4 ∨ e.2.2 = 8) :
    writeEntry sizeofT e.toMapEntry = some (entryBytes sizeofT e.1 e.2.1 e.2.2) := by
  have hmod : e.2.2 % 256 = e.2.2 := by omega
  have hfun : storeWord e.2.2 = leBytes e.2.2 := by
    funext d
    exact storeWord_valid _ d hw
  simp only [writeEntry, RunEntry.toMapEntry, List.getLast?_concat, Option.map_some',
    List.dropLast_concat, hmod, hfun, entryBytes, leBytes_zero]

theorem length_entryBytes (sizeofT v : Nat) (ds : List Nat) (w : Nat) :
    (entryBytes sizeofT v ds w).length = sizeofT + 1 + w * ds.length + w := by
  have h : ∀ l : List Nat, (l.flatMap (leBytes w)).length = w * l.length := by
    intro l
    induction l with
    | nil => simp
    | cons x rest ih =>
      rw [List.flatMap_cons, List.length_append, ih, length_leBytes, List.length_cons]
      ring
  simp only [entryBytes, List.length_append, length_leBytes, List.length_singleton, h,
    List.length_replicate]

theorem foldlM_entryByteSize (sizeofT : Nat) (es : List RunEntry) :
    ∀ size : Nat,
      (es.map RunEntry.toMapEntry).foldlM
          (fun size e => (entryByteSize sizeofT e.2).map fun b => size + b) size
        = some (size + (es.map fun e => sizeofT + 1 + e.2.2 * e.2.1.length + e.2.2).sum) := by
  induction es with
  | nil => intro size; rfl
  | cons e rest ih =>
    intro size
    rw [List.map_cons, List.foldlM_cons, entryByteSize_toMapEntry]
    simp only [Option.map_some', Option.some_bind, Option.bind_eq_bind, ih, List.map_cons,
      List.sum_cons]
    congr 1
    omega

theorem foldlM_writeEntry (sizeofT : Nat) (es : List RunEntry)
    (hw : ∀ e ∈ es, e.2.2 = 1 ∨ e.2.2 = 2 ∨ e.2.2 = 4 ∨ e.2.2 = 8) :
    ∀ (bytes : List Nat) (n : Nat), n < 4294967296 →
      (es.map RunEntry.toMapEntry).foldlM
          (fun (acc : List Nat × Nat) e =>
            (writeEntry sizeofT e).map fun bs =>
              (acc.1 ++ bs, (acc.2 + (e.2.length - 1)) % 4294967296))
          (bytes, n)
        = some (bytes ++ es.flatMap (fun e => entryBytes sizeofT e.1 e.2.1 e.2.2),
            (n + (es.map fun e => e.2.1.length).sum) % 4294967296) := by
  induction es with
  | nil =>
    intro bytes n hn
    simp [Nat.mod_eq_of_lt hn]
  | cons e rest ih =>
    intro bytes n hn
    rw [List.map_cons, List.foldlM_cons,
      writeEntry_toMapEntry sizeofT e (hw e (List.mem_cons_self _ _))]
    have hk : (RunEntry.toMapEntry e).2.length - 1 = e.2.1.length := by
      simp [RunEntry.toMapEntry]
    simp only [Option.map_some', Option.some_bind, Option.bind_eq_bind, hk]
    rw [ih (fun x hx => hw x (List.mem_cons_of_mem _ hx)) _ _ (Nat.mod_lt _ (by norm_num))]
    simp only [List.flatMap_cons, List.append_assoc, List.map_cons, List.sum_cons,
      Nat.mod_add_mod, Nat.add_assoc]

theorem transposeSlice_toMapEntry (sizeofT : Nat) (es : List RunEntry)
    (hw : ∀ e ∈ es, e.2.2 = 1 ∨ e.2.2 = 2 ∨ e.2.2 = 4 ∨ e.2.2 = 8)
    (st : List Buffer × Nat) (hn : st.2 < 4294967296) :
    transposeSlice sizeofT st (es.map RunEntry.toMapEntry)
      = some (st.1 ++ [sliceBuffer sizeofT es],
          (st.2 + (es.map fun e => e.2.1.length).sum) % 4294967296) := by
  unfold transposeSlice
  cases es with
  | nil => simp [sliceBuffer, Nat.mod_eq_of_lt hn]
  | cons e rest =>
    rw [if_neg (by simp), foldlM_entryByteSize, Option.some_bind,
      foldlM_writeEntry sizeofT _ hw [] st.2 hn]
    simp [sliceBuffer]

theorem foldlM_transposeSlice (sizeofT : Nat) (slices : List (List RunEntry))
    (hw : ∀ es ∈ slices, ∀ e ∈ es, e.2.2 = 1 ∨ e.2.2 = 2 ∨ e.2.2 = 4 ∨ e.2.2 = 8) :
    ∀ st : List Buffer × Nat, st.2 < 4294967296 →
      (slices.map fun es => es.map RunEntry.toMapEntry).foldlM (transposeSlice sizeofT) st
        = some (st.1 ++ slices.map (sliceBuffer sizeofT),
            (st.2 + (slices.flatten.map fun e => e.2.1.length).sum) % 4294967296) := by
  induction slices with
  | nil => intro st hn; simp [Nat.mod_eq_of_lt hn]
  | cons es rest ih =>
    intro st hn
    rw [List.map_cons, List.foldlM_cons,
      transposeSlice_toMapEntry sizeofT es (hw es (List.mem_cons_self _ _)) st hn]
    simp only [Option.some_bind, Option.bind_eq_bind]
    rw [ih (fun x hx => hw x (List.mem_cons_of_mem _ hx)) _ (Nat.mod_lt _ (by norm_num))]
    simp only [List.map_cons, List.flatten_cons, List.map_append, List.sum_append,
      Nat.mod_add_mod, Nat.add_assoc, List.append_assoc, List.singleton_append]

/-- C38: in the level-3 branch of the private transpose constructor, when every
entry of every slice map is `value -> [d_0, ..., d_{k-1}, w]` with `w` one of
1, 2, 4, 8 and there is one map per outer index, the constructor builds a
matrix whose slice `i` is the concatenation, per entry of map `i`, of the value
bytes, the byte `w`, the `k` words of `w` bytes and one zero word of `w` bytes;
the bytes written fill the allocated size `sizeof(T) + 1 + w * k + w` summed
over the entries, an empty map gives a slice of size 0 without bytes, and `nnz`
is the sum of the `k` of all entries in 32-bit arithmetic. -/
theorem transposeConstructor_layout (columnMajor : Bool) (sizeofT val_t index_t : Nat)
    (slices : List (List RunEntry)) (num_rows num_cols : Nat)
    (hw : ∀ es ∈ slices, ∀ e ∈ es, e.2.2 = 1 ∨ e.2.2 = 2 ∨ e.2.2 = 4 ∨ e.2.2 = 8)
    (hlen : slices.length = if columnMajor then num_rows else num_cols) :
    ∃ M, transposeConstructor columnMajor sizeofT val_t index_t
          (slices.map fun es => es.map RunEntry.toMapEntry) num_rows num_cols = some M ∧
      M.data = slices.map (fun es =>
        ⟨(es.map fun e => sizeofT + 1 + e.2.2 * e.2.1.length + e.2.2).sum,
          es.flatMap fun e => entryBytes sizeofT e.1 e.2.1 e.2.2⟩) ∧
      (∀ b ∈ M.data, b.bytes.length = b.size) ∧
      (∀ i, slices.get? i = some [] → M.data.get? i = some ⟨0, []⟩) ∧
      M.nnz = (slices.flatten.map fun e => e.2.1.length).sum % 4294967296 := by
  have hfold := foldlM_transposeSlice sizeofT slices hw ([], 0) (by norm_num)
  have hrange : (List.range (if columnMajor then num_rows else num_cols)).foldlM
      (fun st i => ((slices.map fun es => es.map RunEntry.toMapEntry).get? i).bind
        (transposeSlice sizeofT st)) ([], 0)
      = some (slices.map (sliceBuffer sizeofT),
          (slices.flatten.map fun e => e.2.1.length).sum % 4294967296) := by
    rw [← hlen]
    have h := IVSparse.foldlM_range_get? (transposeSlice sizeofT)
      (slices.map fun es => es.map RunEntry.toMapEntry) ([], 0)
    rw [List.length_map] at h
    rw [h, hfold]
    simp
  simp only [transposeConstructor, hrange, Option.map_some']
  refine ⟨_, rfl, rfl, ?_, ?_, rfl⟩
  · intro b hb
    simp only [List.mem_map] at hb
    obtain ⟨es, -, rfl⟩ := hb
    simp only [sliceBuffer]
    induction es with
    | nil => rfl
    | cons e rest ih =>
      simp only [List.flatMap_cons, List.length_append, length_entryBytes, List.map_cons,
        List.sum_cons, ih]
  · intro i hi
    simp only [List.get?_eq_getElem?, List.getElem?_map] at hi ⊢
    rw [hi]
    rfl

theorem transposeConstructor_layout_witness :
    ∃ M, transposeConstructor true 2 0 4 [[(5, [0, 2, 1, 1]), (9, [4, 1])], []] 2 3 = some M ∧
      M.data = [⟨12, [5, 0, 1, 0, 2, 1, 0, 9, 0, 1, 4, 0]⟩, ⟨0, []⟩] ∧ M.nnz = 4 := by
  obtain ⟨M, h1, h2, _, _, h3⟩ := transposeConstructor_layout true 2 0 4
    [[(5, [0, 2, 1], 1), (9, [4], 1)], []] 2 3 (by decide) (by decide)
  exact ⟨M, h1, by rw [h2]; decide, by rw [h3]; decide⟩

end CSF
